import Mathlib

/-!
# sysio: retrying I/O wrappers, the owned descriptor handle and the line reader

A shallow embedding of `system_io/LineReader.cpp`, `system_io/FileUtil.cpp`
and `system_io/File.cpp`.

Conventions of the embedding.

* A `char` is a `UInt8`; a `std::string` or a byte buffer is a `List UInt8`.
* Pointers into one buffer are natural-number offsets from the start of that
  buffer.  Byte counts (`size_t`) are natural numbers and `ssize_t` results
  are integers: a C++ object never exceeds `PTRDIFF_MAX` bytes, so no count
  handled here reaches the point where the machine types would wrap.
* The operating system is not modelled by an implementation but by what the
  code can observe of it: the result of every system call is supplied from
  outside (a sequence of outcomes, or the remaining bytes of a stream) and
  every call issued is recorded in a log.
* A loop whose termination depends on those outcomes takes a bound `fuel` on
  its passes and returns `none` when it has not left within the bound.
-/

namespace sysio

/-! ## LineReader (`LineReader.h`, `LineReader.cpp`) -/

/-- The `LineReader::State` enumeration. -/
inductive State where
  | kReading
  | kEof
  | kError
  deriving DecidableEq, Repr

/-- The line terminator `'\n'`. -/
def newlineChar : UInt8 := 10

/-- What one call `sysio::readFull(fd, dst, count)` leaves behind: the value it
returns (`-1`, or the number of bytes read) and the bytes it stored at `dst`.
After a failure some bytes may already have been stored. -/
structure ReadFullResult where
  n : Int
  data : List UInt8
  deriving DecidableEq, Repr

/-- The contract of `readFull` towards its caller: it returns `-1` having
stored at most `count` bytes, or it returns the number of bytes it stored,
which is at most `count`. -/
def ReadFullResult.WellFormed (count : Nat) (r : ReadFullResult) : Prop :=
  r.data.length ≤ count ∧ (r.n = -1 ∨ r.n = (r.data.length : Int))

instance (count : Nat) (r : ReadFullResult) : Decidable (r.WellFormed count) := by
  unfold ReadFullResult.WellFormed; infer_instance

/-- The members of `LineReader`.  `mem` is the caller's buffer `[buf_, bufEnd_)`
and `bol_`, `eol_`, `end_` are offsets from `buf_`; `bufEnd_` is the offset
`mem.length`. -/
structure LineReader where
  fd_ : Int
  mem : List UInt8
  bol_ : Nat
  eol_ : Nat
  end_ : Nat
  state_ : State
  deriving DecidableEq, Repr

/-- The offset of `bufEnd_`, that is `bufSize`. -/
def LineReader.bufEnd_ (lr : LineReader) : Nat := lr.mem.length

/-- `LineReader::LineReader(fd, buf, bufSize)`: `buf` is the caller's array of
`bufSize` bytes, with whatever content it has. -/
def LineReader.new (fd : Int) (buf : List UInt8) : LineReader :=
  { fd_ := fd, mem := buf, bol_ := 0, eol_ := 0, end_ := 0, state_ := State.kReading }

/-- `memchr(mem + s, c, n)`: the offset of the first `c` among the `n` bytes
starting at offset `s`, or `none` (a null pointer) when there is none. -/
def memchr (mem : List UInt8) (s : Nat) (c : UInt8) (n : Nat) : Option Nat :=
  let window := (mem.drop s).take n
  if c ∈ window then some (s + window.indexOf c) else none

/-- `memmove(mem + dst, mem + src, n)`. -/
def memmove (mem : List UInt8) (dst src n : Nat) : List UInt8 :=
  mem.take dst ++ (mem.drop src).take n ++ mem.drop (dst + n)

/-- The bytes `data` stored at offset `dst`. -/
def store (mem : List UInt8) (dst : Nat) (data : List UInt8) : List UInt8 :=
  mem.take dst ++ data ++ mem.drop (dst + data.length)

/-- The `for (;;)` loop of `LineReader::readLine`.  `readFull w fd count` is
`sysio::readFull` on the world `w`; `fuel` bounds the number of passes and
the result is `none` when the loop has not left within that many. -/
def readLineLoop {σ : Type} (readFull : σ → Int → Nat → ReadFullResult × σ) :
    Nat → σ → LineReader → Option (σ × LineReader)
  | 0, _, _ => none
  | fuel + 1, w, lr =>
    match memchr lr.mem lr.eol_ newlineChar (lr.end_ - lr.eol_) with
    | some newline => some (w, { lr with eol_ := newline + 1 })
    | none =>
      if lr.state_ ≠ State.kReading ∨ (lr.bol_ = 0 ∧ lr.end_ = lr.bufEnd_) then
        some (w, { lr with eol_ := lr.end_ })
      else
        let mem1 := memmove lr.mem 0 lr.eol_ (lr.end_ - lr.eol_)
        let end1 := lr.end_ - (lr.eol_ - 0)
        let available := lr.bufEnd_ - end1
        let res := readFull w lr.fd_ available
        let mem2 := store mem1 end1 res.1.data
        let state2 :=
          if res.1.n < 0 then State.kError
          else if res.1.n < (available : Int) then State.kEof
          else lr.state_
        let n : Int := if res.1.n < 0 then 0 else res.1.n
        readLineLoop readFull fuel res.2
          { lr with mem := mem2, bol_ := 0, eol_ := end1, end_ := end1 + n.toNat,
                    state_ := state2 }

/-- `LineReader::readLine(line)`: the returned state, the bytes assigned to
`line`, the world and the reader after the call. -/
def LineReader.readLine {σ : Type} (readFull : σ → Int → Nat → ReadFullResult × σ)
    (fuel : Nat) (w : σ) (lr : LineReader) :
    Option (State × List UInt8 × σ × LineReader) :=
  match readLineLoop readFull fuel w { lr with bol_ := lr.eol_ } with
  | none => none
  | some (w1, lr1) =>
    some (if lr1.eol_ ≠ lr1.bol_ then State.kReading else lr1.state_,
          (lr1.mem.drop lr1.bol_).take (lr1.eol_ - lr1.bol_), w1, lr1)

/-- What `readFull(fd, dst, count)` does on a descriptor whose reads never fail
and whose remaining bytes are `w`: it delivers `count` bytes, or all that is
left when the stream ends first.  (`readFull_eq_streamReadFull` derives this
from `wrapFull` over `read`.) -/
def streamReadFull (w : List UInt8) (_fd : Int) (count : Nat) :
    ReadFullResult × List UInt8 :=
  ({ n := ((w.take count).length : Int), data := w.take count }, w.drop count)

/-- The results of `calls` successive `readLine` calls: state and line of each. -/
def readLines {σ : Type} (readFull : σ → Int → Nat → ReadFullResult × σ) (fuel : Nat) :
    Nat → σ → LineReader → Option (List (State × List UInt8))
  | 0, _, _ => some []
  | calls + 1, w, lr =>
    match lr.readLine readFull fuel w with
    | none => none
    | some (st, line, w1, lr1) =>
      (readLines readFull fuel calls w1 lr1).map (fun rest => (st, line) :: rest)

/-- The bytes of a string literal. -/
def bytes (s : String) : List UInt8 := s.toList.map (fun c => c.toNat.toUInt8)

/-- The input of `TEST(LineReader, Simple)`. -/
def testInput : List UInt8 :=
  bytes "Meow\nHello world\nThis is a long line. It is longer than the other lines.\n\nIncomplete last line"

/-! ### The reference split of a stream, after the spec's words -/

/-- The stream cut after every `'\n'` into logical lines; the last one is
unterminated when the stream does not end in `'\n'`. -/
def splitLines : List UInt8 → List (List UInt8)
  | [] => []
  | c :: cs =>
    if c = newlineChar then [c] :: splitLines cs
    else
      match splitLines cs with
      | [] => [[c]]
      | l :: ls => (c :: l) :: ls

/-- Worker of `chunk`; `fuel` bounds the number of pieces. -/
def chunkAux (n : Nat) : Nat → List UInt8 → List (List UInt8)
  | 0, _ => []
  | fuel + 1, l => if l = [] then [] else l.take n :: chunkAux n fuel (l.drop n)

/-- A list cut into consecutive pieces of exactly `n` bytes plus a final
non-empty remainder of at most `n` bytes. -/
def chunk (n : Nat) (l : List UInt8) : List (List UInt8) := chunkAux n l.length l

/-- The reference split: every logical line cut into pieces of `bufSize` bytes. -/
def referenceSplit (bufSize : Nat) (stream : List UInt8) : List (List UInt8) :=
  (splitLines stream).flatMap (chunk bufSize)

/-- What `calls` successive calls are expected to return on a stream whose
reference split is `pieces`: the pieces in order, each with `kReading`, then
empty lines with `kEof`. -/
def expectedCalls : List (List UInt8) → Nat → List (State × List UInt8)
  | _, 0 => []
  | [], calls + 1 => (State.kEof, []) :: expectedCalls [] calls
  | p :: ps, calls + 1 => (State.kReading, p) :: expectedCalls ps calls

/-- The caller's loop "call `readLine` while the status is `kReading` or the
returned line is non-empty": the lines returned, the last call's included.
`calls` bounds the number of calls; `none` when the loop has not stopped. -/
def drain {σ : Type} (readFull : σ → Int → Nat → ReadFullResult × σ) (fuel : Nat) :
    Nat → σ → LineReader → Option (List (List UInt8))
  | 0, _, _ => none
  | calls + 1, w, lr =>
    match lr.readLine readFull fuel w with
    | none => none
    | some (st, line, w1, lr1) =>
      if st = State.kReading ∨ line ≠ [] then
        (drain readFull fuel calls w1 lr1).map (fun rest => line :: rest)
      else some [line]

/-! ### Auxiliary notions for the proofs about `LineReader` -/

/-- The next piece of the reference split: the first `n` bytes of what remains,
cut after their first `'\n'` when they hold one. -/
def nextPiece (n : Nat) (rem : List UInt8) : List UInt8 :=
  (rem.take n).take ((rem.take n).indexOf newlineChar + 1)

/-- The buffer holds the unprocessed bytes `P` between `eol_` and `end_`. -/
def Pending (lr : LineReader) (P : List UInt8) : Prop :=
  ∃ A B, lr.mem = A ++ P ++ B ∧ lr.eol_ = A.length ∧ lr.end_ = A.length + P.length

/-- The buffer holds the current line's bytes `Q` between `bol_` and `eol_`,
followed by the unprocessed bytes `P` up to `end_`. -/
def Held (lr : LineReader) (Q P : List UInt8) : Prop :=
  ∃ A B, lr.mem = A ++ Q ++ P ++ B ∧ lr.bol_ = A.length ∧ lr.eol_ = A.length + Q.length
    ∧ lr.end_ = A.length + Q.length + P.length


/-! ## FileUtil (`FileUtil.h`, `FileUtil.cpp`) -/

/-- The value of `EINTR`. -/
def EINTR : Int := 4

/-- The value of `EBADF`. -/
def EBADF : Int := 9

/-- What a system call leaves behind: the value it returns and the value of
`errno` after it. -/
structure Ret where
  r : Int
  errno : Int
  deriving DecidableEq, Repr

/-- The test `r == -1 && errno == EINTR` of the wrappers. -/
def Ret.interrupted (x : Ret) : Prop := x.r = -1 ∧ x.errno = EINTR

instance (x : Ret) : Decidable x.interrupted := by
  unfold Ret.interrupted; infer_instance

/-- `wrapNoInt(f, args...)`: `f w` is one call `f(args...)` on the world `w`.
`fuel` bounds the number of calls; `none` when the loop has not left.
`openNoInt`, `dupNoInt`, `dup2NoInt`, `flockNoInt`, `readNoInt`, `writeNoInt`,
`preadNoInt`, `pwriteNoInt`, `readvNoInt` and `writevNoInt` are `wrapNoInt` of
the syscall they name, applied to their arguments. -/
def wrapNoInt {σ : Type} (f : σ → Ret × σ) : Nat → σ → Option (Ret × σ)
  | 0, _ => none
  | fuel + 1, w =>
    let res := f w
    if res.1.r = -1 ∧ res.1.errno = EINTR then wrapNoInt f fuel res.2
    else some res

/-- The world after `i` successive calls of `f`. -/
def afterCalls {σ : Type} (f : σ → Ret × σ) : Nat → σ → σ
  | 0, w => w
  | i + 1, w => afterCalls f i (f w).2

/-- `filterCloseReturn(r)`, reading `errno`. -/
def filterCloseReturn (r : Int) (errno : Int) : Int :=
  if r = -1 ∧ errno = EINTR then 0 else r

/-- `incr(n)` and `incr(n, offset)`: the parameter pack `Offset...` is empty
(`none`) or one `off_t`. -/
def incr (n : Int) (offset : Option Int) : Option Int :=
  match offset with
  | none => none
  | some o => some (o + n)

/-- `wrapFull(f, fd, buf, count, offset...)`, its `do ... while` loop entered
with `b`, `count`, `offset` and `totalBytes`.  `f w b count offset` is one
call of the primitive; `b` is the offset of the pointer `b` from `buf`.
A `continue` jumps to the test `r != 0 && count`, where `r` is `-1`.
`readFull` and `writeFull` are `wrapFull` of `read` and `write` without an
offset, `pwriteFull` is `wrapFull` of `pwrite` with one. -/
def wrapFull {σ : Type} (f : σ → Nat → Nat → Option Int → Ret × σ) :
    Nat → σ → Nat → Nat → Option Int → Int → Option (Int × σ)
  | 0, _, _, _, _, _ => none
  | fuel + 1, w, b, count, offset, totalBytes =>
    let res := f w b count offset
    let r := res.1.r
    if r = -1 then
      if res.1.errno = EINTR then
        if count ≠ 0 then wrapFull f fuel res.2 b count offset totalBytes
        else some (totalBytes, res.2)
      else some (r, res.2)
    else
      let totalBytes1 := totalBytes + r
      let b1 := b + r.toNat
      let count1 := count - r.toNat
      let offset1 := incr r offset
      if r ≠ 0 ∧ count1 ≠ 0 then wrapFull f fuel res.2 b1 count1 offset1 totalBytes1
      else some (totalBytes1, res.2)

/-- A `struct iovec`; `iov_base` is an address. -/
structure iovec where
  iov_base : Nat
  iov_len : Nat
  deriving DecidableEq, Repr

/-- The inner loop `while (r != 0 && count != 0)` of `wrapvFull`.  `iov` is the
array as seen from the pointer `iov`; the result is the pointer's view and
`count` after the loop, or `none` when the loop reads past the end of the
array. -/
def advanceIov : List iovec → Nat → Nat → Option (List iovec × Nat)
  | [], count, r => if r ≠ 0 ∧ count ≠ 0 then none else some ([], count)
  | e :: rest, count, r =>
    if r ≠ 0 ∧ count ≠ 0 then
      if r ≥ e.iov_len then advanceIov rest (count - 1) (r - e.iov_len)
      else some ({ iov_base := e.iov_base + r, iov_len := e.iov_len - r } :: rest, count)
    else some (e :: rest, count)

/-- `wrapvFull(f, fd, iov, count, offset...)`, its `do ... while (count)` loop
entered with `iov`, `count`, `offset` and `totalBytes`.  `f w iov n offset` is
one call of the primitive with the pointer `iov` and the entry count `n`.
A `continue` jumps to the test `count`.  The result is `none` when the loop
has not left within `fuel` passes, or when its inner loop reads past the end
of the array. -/
def wrapvFull {σ : Type} (f : σ → List iovec → Nat → Option Int → Ret × σ) :
    Nat → σ → List iovec → Nat → Option Int → Int → Option (Int × σ)
  | 0, _, _, _, _, _ => none
  | fuel + 1, w, iov, count, offset, totalBytes =>
    let res := f w iov (min count 16) offset
    let r := res.1.r
    if r = -1 then
      if res.1.errno = EINTR then
        if count ≠ 0 then wrapvFull f fuel res.2 iov count offset totalBytes
        else some (totalBytes, res.2)
      else some (r, res.2)
    else if r = 0 then some (totalBytes, res.2)
    else
      let totalBytes1 := totalBytes + r
      let offset1 := incr r offset
      match advanceIov iov count r.toNat with
      | none => none
      | some (iov1, count1) =>
        if count1 ≠ 0 then wrapvFull f fuel res.2 iov1 count1 offset1 totalBytes1
        else some (totalBytes1, res.2)

/-! ### The kernel as the wrappers observe it -/

/-- The outcome of one call of a transfer primitive (`read`, `write`,
`pwrite`, `readv`, `writev`): it succeeds, ready to transfer `k` bytes and
transferring as many of them as it was offered, or it returns `-1` with the
given `errno`. -/
inductive Outcome where
  | ok (k : Nat)
  | fail (errno : Int)
  deriving DecidableEq, Repr

/-- The return value of a call with this outcome that was offered `offered`
bytes, and `errno` after it (unchanged by a success). -/
def Outcome.ret (o : Outcome) (offered : Nat) (errno : Int) : Ret :=
  match o with
  | Outcome.ok k => { r := (min k offered : Nat), errno := errno }
  | Outcome.fail e => { r := -1, errno := e }

/-- The number of bytes a call with this outcome transfers when offered
`offered` bytes. -/
def Outcome.transferred (o : Outcome) (offered : Nat) : Nat :=
  match o with
  | Outcome.ok k => min k offered
  | Outcome.fail _ => 0

/-- A failure other than an interruption. -/
def Outcome.hardFailure (o : Outcome) : Prop :=
  match o with
  | Outcome.ok _ => False
  | Outcome.fail e => e ≠ EINTR

instance (o : Outcome) : Decidable o.hardFailure := by
  unfold Outcome.hardFailure; cases o <;> infer_instance

/-- One call of the primitive under `wrapFull`, as logged: the buffer offset,
the count and the file offset it was offered, and its outcome. -/
structure IoCall where
  b : Nat
  count : Nat
  offset : Option Int
  out : Outcome
  deriving DecidableEq, Repr

/-- The bytes the logged call transferred. -/
def IoCall.transferred (c : IoCall) : Nat := c.out.transferred c.count

/-- The kernel under `wrapFull`: `oracle n` is the outcome of the call issued
after `n` earlier ones; `log` holds the calls issued so far, oldest first. -/
structure Kernel where
  oracle : Nat → Outcome
  errno : Int
  log : List IoCall

/-- One call `f(fd, buf + b, count, offset...)` on the kernel. -/
def Kernel.io (k : Kernel) (b count : Nat) (offset : Option Int) : Ret × Kernel :=
  let o := k.oracle k.log.length
  let ret := o.ret count k.errno
  (ret, { k with errno := ret.errno,
                 log := k.log ++ [{ b := b, count := count, offset := offset, out := o }] })

/-- The bytes transferred by the calls of a log. -/
def totalTransferred (log : List IoCall) : Nat := (log.map IoCall.transferred).sum

/-- The bytes an `iovec` entry denotes in the memory `mem`. -/
def iovec.bytes (mem : Nat → UInt8) (e : iovec) : List UInt8 :=
  (List.range e.iov_len).map (fun i => mem (e.iov_base + i))

/-- The concatenation of the buffers of an `iovec` list. -/
def iovBytes (mem : Nat → UInt8) (iov : List iovec) : List UInt8 :=
  iov.flatMap (iovec.bytes mem)

/-- The total length of the buffers of an `iovec` list. -/
def iovLen (iov : List iovec) : Nat := (iov.map iovec.iov_len).sum

/-- One call of the primitive under `wrapvFull`, as logged: the pointer's view
of the array and the entry count it was passed, the file offset, and its
outcome. -/
structure IovCall where
  iov : List iovec
  passed : Nat
  offset : Option Int
  out : Outcome
  deriving DecidableEq, Repr

/-- The entries the kernel reads at the logged call: the first `passed` ones. -/
def IovCall.offered (c : IovCall) : List iovec := c.iov.take c.passed

/-- The bytes the logged call transferred. -/
def IovCall.transferred (c : IovCall) : Nat := c.out.transferred (iovLen c.offered)

/-- The kernel under `wrapvFull`: `oracle n` is the outcome of the call issued
after `n` earlier ones; `log` holds the calls issued so far, oldest first. -/
structure VKernel where
  oracle : Nat → Outcome
  errno : Int
  log : List IovCall

/-- One call `f(fd, iov, n, offset...)` on the kernel. -/
def VKernel.iov (k : VKernel) (iov : List iovec) (n : Nat) (offset : Option Int) :
    Ret × VKernel :=
  let o := k.oracle k.log.length
  let ret := o.ret (iovLen (iov.take n)) k.errno
  (ret, { k with errno := ret.errno,
                 log := k.log ++ [{ iov := iov, passed := n, offset := offset, out := o }] })

/-- The bytes transferred by the calls of a `wrapvFull` log. -/
def totalTransferredV (log : List IovCall) : Nat := (log.map IovCall.transferred).sum

/-- The bytes a list of `writev` calls has written to the descriptor: of each
call, the first `transferred` bytes of the buffers it was offered. -/
def bytesWritten (mem : Nat → UInt8) (log : List IovCall) : List UInt8 :=
  log.flatMap (fun c => (iovBytes mem c.offered).take c.transferred)

/-! ### `close` as `closeNoInt` and `File` observe it -/

/-- `closeNoInt` and `File` see the kernel through `close` only:
`closeOutcome n` is the outcome of the `close` issued after `n` earlier ones
(`none`: it returns 0; `some e`: it returns `-1` with `errno = e`); `closed`
holds the descriptors passed to `close` so far, oldest first. -/
structure Sys where
  errno : Int
  closeOutcome : Nat → Option Int
  closed : List Int

/-- One call `close(fd)`. -/
def Sys.close (s : Sys) (fd : Int) : Ret × Sys :=
  match s.closeOutcome s.closed.length with
  | none => ({ r := 0, errno := s.errno }, { s with closed := s.closed ++ [fd] })
  | some e => ({ r := -1, errno := e }, { s with errno := e, closed := s.closed ++ [fd] })

/-- `closeNoInt(fd)`. -/
def closeNoInt (s : Sys) (fd : Int) : Int × Sys :=
  let res := s.close fd
  (filterCloseReturn res.1.r res.1.errno, res.2)

/-! ### Auxiliary notions for the proofs about the wrappers -/

/-- The calls of a `wrapFull` run are offered, one after the other, the buffer
offset, the count and the file offset advanced by what the calls before
transferred. -/
def OfferedChain : Nat → Nat → Option Int → List IoCall → Prop
  | _, _, _, [] => True
  | b, count, offset, c :: cs =>
    c.b = b ∧ c.count = count ∧ c.offset = offset
      ∧ OfferedChain (b + c.transferred) (count - c.transferred)
          (incr c.transferred offset) cs

/-- How a `wrapFull` run that started with `totalBytes = total` and `count`
bytes to go ends, in terms of the calls it issued. -/
def FullRunEnd (total : Int) (count : Nat) (v : Int) (calls : List IoCall) : Prop :=
  ((∃ c ∈ calls, c.out.hardFailure) → v = -1)
  ∧ ((¬ ∃ c ∈ calls, c.out.hardFailure) →
      v = total + (totalTransferred calls : Nat)
      ∧ totalTransferred calls ≤ count
      ∧ (totalTransferred calls = count
          ∨ ∃ c ∈ calls, ∃ k, c.out = Outcome.ok k ∧ c.transferred = 0))

/-- An `iovec` list with the base of its first entry advanced by `p` and the
length of that entry reduced by `p`. -/
def advanceHead (p : Nat) : List iovec → List iovec
  | [] => []
  | e :: rest => { iov_base := e.iov_base + p, iov_len := e.iov_len - p } :: rest

/-- The calls of a `wrapvFull` run on an array of `iov.length` entries: each is
passed the pointer's current view and at most 16 entries of it, and the next
call's view is what the inner loop makes of this one's after the transfer. -/
def IovChain : List iovec → Option Int → List IovCall → Prop
  | _, _, [] => True
  | iov, offset, c :: cs =>
    c.iov = iov ∧ c.passed = min iov.length 16 ∧ c.offset = offset
      ∧ (cs = [] ∨ ∃ iov1, advanceIov iov iov.length c.transferred = some (iov1, iov1.length)
            ∧ IovChain iov1 (incr c.transferred offset) cs)

/-! ### Concrete inputs -/

/-- A syscall interrupted twice that then returns 7: the world counts the calls. -/
def twiceInterrupted (n : Nat) : Ret × Nat :=
  (if n < 2 then { r := -1, errno := EINTR } else { r := 7, errno := 0 }, n + 1)

/-- A kernel that interrupts the first call and then takes up to 3 bytes a call. -/
def interruptedThenThree (n : Nat) : Outcome :=
  if n = 0 then Outcome.fail EINTR else Outcome.ok 3

/-- Three buffers, the middle one empty, of 5 bytes in all. -/
def threeBuffers : List iovec :=
  [{ iov_base := 0, iov_len := 2 }, { iov_base := 10, iov_len := 0 },
   { iov_base := 20, iov_len := 3 }]

/-- A kernel that never fails and takes every byte it is offered. -/
def takesAll (_n : Nat) : Outcome := Outcome.ok 4096

/-- The `iovec` array of the failing input of C5: sixteen empty entries
followed by one entry of one byte. -/
def sixteenEmptyThenOne : List iovec :=
  List.replicate 16 { iov_base := 0, iov_len := 0 } ++ [{ iov_base := 0, iov_len := 1 }]


/-! ### `readFull` on a stream -/

/-- A descriptor open for reading, together with the destination buffer of a
`readFull` call: the bytes not yet read, the outcome `oracle n` of the `read`
issued after `n` earlier ones (a failure, or `ok k`: the kernel hands over up
to `k` of the bytes not yet read), the number of `read` calls issued, `errno`,
and the bytes stored in the destination buffer so far, from its start. -/
structure ReadFd where
  stream : List UInt8
  oracle : Nat → Outcome
  calls : Nat
  errno : Int
  stored : List UInt8

/-- One call `read(fd, buf + b, count)`. -/
def ReadFd.read (w : ReadFd) (b count : Nat) (_offset : Option Int) : Ret × ReadFd :=
  match w.oracle w.calls with
  | Outcome.fail e =>
    ({ r := -1, errno := e }, { w with calls := w.calls + 1, errno := e })
  | Outcome.ok k =>
    let data := w.stream.take (min k count)
    ({ r := (data.length : Nat), errno := w.errno },
     { w with stream := w.stream.drop (min k count), calls := w.calls + 1,
              stored := w.stored.take b ++ data })

/-- `readFull(fd, buf, count)`: `wrapFull(read, fd, buf, count)`. -/
def readFull (fuel : Nat) (w : ReadFd) (count : Nat) : Option (Int × ReadFd) :=
  wrapFull ReadFd.read fuel w 0 count none 0


/-! ## File (`File.h`, `File.cpp`) -/

/-- The members of `File`. -/
structure File where
  fd_ : Int
  ownsFd_ : Bool
  deriving DecidableEq, Repr

/-- `File::File()`. -/
def File.empty : File := { fd_ := -1, ownsFd_ := false }

/-- `File::File(int fd, bool ownsFd)`; `none` when one of its two `CHECK`s
fails, which ends the program. -/
def File.wrap (fd : Int) (ownsFd : Bool) : Option File :=
  if fd ≥ -1 ∧ (fd ≠ -1 ∨ ¬ ownsFd = true) then some { fd_ := fd, ownsFd_ := ownsFd }
  else none

/-- `File::fd()`. -/
def File.fd (f : File) : Int := f.fd_

/-- `File::release()`: the value returned and the handle after the call. -/
def File.release (f : File) : Int × File :=
  (f.fd_, { fd_ := -1, ownsFd_ := false })

/-- `File::closeNoThrow()`: the value returned, the handle and the world after
the call. -/
def File.closeNoThrow (f : File) (s : Sys) : Bool × File × Sys :=
  let res : Ret × Sys := if f.ownsFd_ then s.close f.fd_ else ({ r := 0, errno := s.errno }, s)
  (decide (res.1.r = 0), (f.release).2, res.2)

/-- The exception `std::system_error` thrown by `throwSystemError`: the value
of `errno` it carries and the message it was given. -/
structure SystemError where
  code : Int
  msg : List UInt8
  deriving DecidableEq, Repr

/-- `File::close()`: the exception thrown, if any, the handle and the world
after the call. -/
def File.close (f : File) (s : Sys) : Option SystemError × File × Sys :=
  let res := f.closeNoThrow s
  if ¬ res.1 = true then
    (some { code := res.2.2.errno, msg := bytes "close() failed" }, res.2.1, res.2.2)
  else (none, res.2.1, res.2.2)

/-- `File::~File()`: whether the `DCHECK_NE(errno, EBADF)` of debug builds holds,
and the world after the destructor. -/
def File.destroy (f : File) (s : Sys) : Bool × Sys :=
  let res := f.closeNoThrow s
  if ¬ res.1 = true then (decide (res.2.2.errno ≠ EBADF), res.2.2)
  else (true, res.2.2)

/-- `File::swap(other)`: this handle and the other one after the call. -/
def File.swap (f other : File) : File × File :=
  ({ fd_ := other.fd_, ownsFd_ := other.ownsFd_ }, { fd_ := f.fd_, ownsFd_ := f.ownsFd_ })

/-- `File::File(File&& other)`: the new handle and `other` after the call. -/
def File.moveConstruct (other : File) : File × File :=
  ({ fd_ := other.fd_, ownsFd_ := other.ownsFd_ }, (other.release).2)

/-- `File::operator=(File&& other)` for two distinct objects: this handle,
`other` and the world after the call. -/
def File.moveAssign (f other : File) (s : Sys) : File × File × Sys :=
  let res := f.closeNoThrow s
  let sw := res.2.1.swap other
  (sw.1, sw.2, res.2.2)

/-- The calls a caller makes on a handle in the claims about closing. -/
inductive FileOp where
  | close
  | closeNoThrow
  | release
  deriving DecidableEq, Repr

/-- One call on the handle: whether it reported success (`close` did not
throw, `closeNoThrow` returned true; `release` always does), the handle and
the world after it. -/
def File.call (op : FileOp) (f : File) (s : Sys) : Bool × File × Sys :=
  match op with
  | FileOp.close => let res := f.close s; (res.1.isNone, res.2.1, res.2.2)
  | FileOp.closeNoThrow => f.closeNoThrow s
  | FileOp.release => (true, (f.release).2, s)

/-- A sequence of calls on the handle, in order. -/
def File.calls : List FileOp → File → Sys → File × Sys
  | [], f, s => (f, s)
  | op :: ops, f, s => let res := File.call op f s; File.calls ops res.2.1 res.2.2

/-- A sequence of calls on the handle followed by its destruction: the world
after it. -/
def File.lifetime (ops : List FileOp) (f : File) (s : Sys) : Sys :=
  let res := File.calls ops f s
  (res.1.destroy res.2).2

/-- Whether the first call of the sequence is `release`. -/
def releasedFirst : List FileOp → Bool
  | FileOp.release :: _ => true
  | _ => false


/-- `File::operator=(File&& other)` when `other` is the handle itself:
`closeNoThrow()` empties the handle and `swap` with itself changes nothing.
The handle and the world after the call. -/
def File.moveAssignSelf (f : File) (s : Sys) : File × Sys :=
  let res := f.closeNoThrow s
  let sw := res.2.1.swap res.2.1
  (sw.1, res.2.2)

/-- The invariant of a handle that the two `CHECK`s of the wrapping
constructor state: the descriptor is at least -1, and an owning handle holds
a descriptor other than -1. -/
def File.Inv (f : File) : Prop := f.fd_ ≥ -1 ∧ (f.ownsFd_ = true → f.fd_ ≠ -1)

instance (f : File) : Decidable f.Inv := by
  unfold File.Inv; infer_instance

/-- The digits of `n` in base `base`, most significant first, as the
characters `'0'`, `'1'`, ...: what `operator<<` writes for an unsigned value
(`std::oct` selects base 8). The first argument bounds the number of digits. -/
def digitsAux (base : Nat) : Nat → Nat → List UInt8 → List UInt8
  | 0, _, acc => acc
  | fuel + 1, n, acc =>
    let acc1 := (48 + n % base).toUInt8 :: acc
    if n / base = 0 then acc1 else digitsAux base fuel (n / base) acc1

/-- What `code << std::oct << mode` writes. -/
def octal (mode : Nat) : List UInt8 := digitsAux 8 (mode + 1) mode []

/-- What `msg << flags` writes for an `int`. -/
def decimal (flags : Int) : List UInt8 :=
  if flags < 0 then 45 :: digitsAux 10 (flags.natAbs + 1) flags.natAbs []
  else digitsAux 10 (flags.natAbs + 1) flags.natAbs []

/-- The value of a string of digits read in base `base`. -/
def digitsValue (base : Nat) (ds : List UInt8) : Nat :=
  ds.foldl (fun a d => base * a + (d.toNat - 48)) 0

/-- The message `File::File(name, flags, mode)` builds when `open` fails. -/
def openMessage (name : List UInt8) (flags : Int) (mode : Nat) : List UInt8 :=
  let perms := bytes "0" ++ octal mode
  bytes "open(" ++ name ++ bytes ", " ++ decimal flags ++ bytes ", " ++ perms ++ bytes " failed"

/-- `File::File(const char* name, int flags, mode_t mode)`, given the current
`errno` and what `::open(name, flags, mode)` answers: the descriptor `k`, or
-1 with `errno` set to `e`. The exception thrown, or the handle constructed. -/
def File.open (name : List UInt8) (flags : Int) (mode : Nat) (errno : Int) (out : Outcome) :
    Except SystemError File :=
  let r : Ret := match out with
    | Outcome.ok k => { r := (k : Int), errno := errno }
    | Outcome.fail e => { r := -1, errno := e }
  if r.r = -1 then Except.error { code := r.errno, msg := openMessage name flags mode }
  else Except.ok { fd_ := r.r, ownsFd_ := true }

/-! ### Locking (`File::try_lock`, `flockNoInt`) -/

/-- `LOCK_SH` of `<sys/file.h>`. -/
def LOCK_SH : Nat := 1

/-- `LOCK_EX` of `<sys/file.h>`. -/
def LOCK_EX : Nat := 2

/-- `LOCK_NB` of `<sys/file.h>`. -/
def LOCK_NB : Nat := 4

/-- `EWOULDBLOCK` of `<errno.h>`. -/
def EWOULDBLOCK : Int := 11

/-- The operating system as `flock` sees it: the current `errno`, the outcome
of each `flock` call (`flockOutcome n` for the call issued after `n` earlier
ones: `none` for success, `some e` for -1 with `errno` set to `e`), and the
calls issued so far, each with its descriptor and operation. -/
structure FlockSys where
  errno : Int
  flockOutcome : Nat → Option Int
  flocked : List (Int × Nat)

/-- The syscall `flock(fd, operation)`. -/
def FlockSys.flock (s : FlockSys) (fd : Int) (operation : Nat) : Ret × FlockSys :=
  match s.flockOutcome s.flocked.length with
  | none =>
    ({ r := 0, errno := s.errno }, { s with flocked := s.flocked ++ [(fd, operation)] })
  | some e =>
    ({ r := -1, errno := e }, { s with errno := e, flocked := s.flocked ++ [(fd, operation)] })

/-- `flockNoInt(fd, operation)`: the value returned and the world after the
call; `none` when the fuel runs out. -/
def flockNoInt (fuel : Nat) (s : FlockSys) (fd : Int) (operation : Nat) :
    Option (Int × FlockSys) :=
  (wrapNoInt (fun w => w.flock fd operation) fuel s).map (fun p => (p.1.r, p.2))

/-- How a call of `try_lock` ends: it returns a value or throws. -/
inductive TryLock where
  | returned (b : Bool)
  | threw (e : SystemError)
  deriving DecidableEq, Repr

/-- `File::doTryLock(op)`. -/
def File.doTryLock (f : File) (fuel : Nat) (s : FlockSys) (op : Nat) :
    Option (TryLock × FlockSys) :=
  match flockNoInt fuel s f.fd_ (op ||| LOCK_NB) with
  | none => none
  | some (r, s1) =>
    if r = -1 ∧ s1.errno = EWOULDBLOCK then some (TryLock.returned false, s1)
    else if r = -1 then
      some (TryLock.threw { code := s1.errno, msg := bytes "flock() failed (try_lock)" }, s1)
    else some (TryLock.returned true, s1)

/-- `File::try_lock()`. -/
def File.try_lock (f : File) (fuel : Nat) (s : FlockSys) : Option (TryLock × FlockSys) :=
  f.doTryLock fuel s LOCK_EX

/-- `File::try_lock_shared()`. -/
def File.try_lock_shared (f : File) (fuel : Nat) (s : FlockSys) :
    Option (TryLock × FlockSys) :=
  f.doTryLock fuel s LOCK_SH

/-- A world in which `flock` is interrupted twice and then finds the lock held
by another process. -/
def blockedAfterTwo : FlockSys :=
  { errno := 0, flockOutcome := fun n => if n < 2 then some EINTR else some EWOULDBLOCK,
    flocked := [] }


/-! ## readFile (`FileUtil.cpp`) -/

/-- `out.resize(n)` on a container of bytes, when it succeeds: the first `n`
elements are kept and the new ones are zero. -/
def resize (out : List UInt8) (n : Nat) : List UInt8 :=
  out.take n ++ List.replicate (n - out.length) 0

/-- `out.resize(n)`, which may throw: `none` stands for the exception
(`std::length_error` for a size beyond `max_size()`, `std::bad_alloc` when
the memory is not to be had). A call that does not make the container
larger never throws. One that does needs memory: `grants i n` tells whether
the `resize` to `n` bytes issued after `i` earlier ones gets it. When it
throws, the container is what it was. -/
def tryResize (grants : Nat → Nat → Bool) (i : Nat) (out : List UInt8) (n : Nat) :
    Option (List UInt8) :=
  if n ≤ out.length ∨ grants i n = true then some (resize out n) else none

/-- The constant `initialAlloc` of `readFile`. -/
def initialAlloc : Nat := 1024 * 4

/-- How a call of `readFile` ends: it returns a value, or the exception of an
`out.resize` leaves it. -/
inductive ReadFileEnd where
  | returned (b : Bool)
  | threw
  deriving DecidableEq, Repr

/-- The state of `readFile(fd, out, num_bytes)` where it leaves its body, at a
`return`, at the end or with an exception: how it ends, the container
`out`, the counter `soFar`, the world, and two records: the sizes asked of
`resize`, in order, and the results of the calls of `readFull`, in order. -/
structure ReadFileExit (σ : Type) where
  ret : ReadFileEnd
  out : List UInt8
  soFar : Nat
  world : σ
  resized : List Nat
  reads : List ReadFullResult

/-- The `while (soFar < out.size())` loop of `readFile`. `readFull w fd count`
is `sysio::readFull` on the world `w`, storing at `&out[soFar]`; `fuel`
bounds the number of loop tests and the result is `none` when the loop has
not left within that many. Sizes are natural numbers: the product
`out.size() * 3` is taken without the wrap-around of `size_t`, which needs
a container of more than `2^64 / 3` bytes. -/
def readFileLoop {σ : Type} (grants : Nat → Nat → Bool)
    (readFull : σ → Int → Nat → ReadFullResult × σ) (fd : Int) (num_bytes : Nat) :
    Nat → σ → List UInt8 → Nat → List Nat → List ReadFullResult → Option (ReadFileExit σ)
  | 0, _, _, _, _, _ => none
  | fuel + 1, w, out, soFar, resized, reads =>
    if soFar < out.length then
      let res := readFull w fd (out.length - soFar)
      let out1 := store out soFar res.1.data
      if res.1.n = -1 then
        some { ret := ReadFileEnd.returned false, out := out1, soFar := soFar, world := res.2,
               resized := resized, reads := reads ++ [res.1] }
      else
        let soFar1 := soFar + res.1.n.toNat
        if soFar1 < out1.length then
          some { ret := ReadFileEnd.returned true, out := out1, soFar := soFar1, world := res.2,
                 resized := resized, reads := reads ++ [res.1] }
        else
          let n := min (out1.length * 3 / 2) num_bytes
          match tryResize grants resized.length out1 n with
          | none =>
            some { ret := ReadFileEnd.threw, out := out1, soFar := soFar1, world := res.2,
                   resized := resized ++ [n], reads := reads ++ [res.1] }
          | some out2 =>
            readFileLoop grants readFull fd num_bytes fuel res.2 out2 soFar1 (resized ++ [n])
              (reads ++ [res.1])
    else
      some { ret := ReadFileEnd.returned true, out := out, soFar := soFar, world := w,
             resized := resized, reads := reads }

/-- What `readFile(fd, out, num_bytes)` leaves behind: how it ended, the
container, the last value of the counter `soFar`, whether the `assert` of its
scope guard held, the world, and the two records of `ReadFileExit`. -/
structure ReadFileResult (σ : Type) where
  ret : ReadFileEnd
  out : List UInt8
  soFar : Nat
  asserted : Bool
  world : σ
  resized : List Nat
  reads : List ReadFullResult

/-- The `SCOPE_EXIT` block of `readFile`, run when the body is left, by a
`return` or by an exception. Its `resize` does not make the container
larger when the `assert` holds. -/
def readFileScopeExit {σ : Type} (e : ReadFileExit σ) : ReadFileResult σ :=
  { ret := e.ret, out := resize e.out e.soFar, soFar := e.soFar,
    asserted := decide (e.out.length ≥ e.soFar),
    world := e.world, resized := e.resized ++ [e.soFar], reads := e.reads }

/-- The size of the first `out.resize` of `readFile`, for the `st_size` that
`fstat` reported. -/
def firstSize (st_size : Int) (num_bytes : Nat) : Nat :=
  min (if st_size > 0 then st_size.toNat + 1 else initialAlloc) num_bytes

/-- `readFile(fd, out, num_bytes)` for a container of bytes. `st` is what
`fstat(fd, &buf)` answers: `none` for -1, or `buf.st_size`. `none` when the
loop has not left within `fuel` tests. -/
def readFile {σ : Type} (grants : Nat → Nat → Bool)
    (readFull : σ → Int → Nat → ReadFullResult × σ) (fuel : Nat) (w : σ)
    (fd : Int) (st : Option Int) (out : List UInt8) (num_bytes : Nat) :
    Option (ReadFileResult σ) :=
  let body : Option (ReadFileExit σ) :=
    match st with
    | none =>
      some { ret := ReadFileEnd.returned false, out := out, soFar := 0, world := w,
             resized := [], reads := [] }
    | some st_size =>
      match tryResize grants 0 out (firstSize st_size num_bytes) with
      | none =>
        some { ret := ReadFileEnd.threw, out := out, soFar := 0, world := w,
               resized := [firstSize st_size num_bytes], reads := [] }
      | some out1 =>
        readFileLoop grants readFull fd num_bytes fuel w out1 0 [firstSize st_size num_bytes] []
  body.map readFileScopeExit

/-- The bytes the successful calls of `readFull` delivered, in order. -/
def delivered (reads : List ReadFullResult) : List UInt8 :=
  ((reads.filter (fun r => decide (r.n ≠ -1))).map (fun r => r.data)).flatten

/-- A `readFull` that delivers all that is asked for in its first call and
fails in every later one, after it has stored one byte. The world is the
number of calls made. -/
def failsSecond (w : Nat) (_fd : Int) (count : Nat) : ReadFullResult × Nat :=
  if w = 0 then ({ n := (count : Int), data := List.replicate count 7 }, 1)
  else ({ n := -1, data := List.replicate (min count 1) 9 }, w + 1)

/-- A container that can be made as large as `limit` bytes and no larger,
at any time. -/
def grantsUpTo (limit : Nat) (_i : Nat) (n : Nat) : Bool := decide (n ≤ limit)


/-! ## writeFileAtomicNoThrow (`FileUtil.cpp`) -/

/-- The C string that starts at offset `off` of the memory `mem`: the bytes up
to the first NUL. -/
def cstr (mem : List UInt8) (off : Nat) : List UInt8 :=
  (mem.drop off).takeWhile (fun c => decide (c ≠ 0))

/-- The string literal `".XXXXXX\0"` as it lies in memory: its eight
characters and the terminator the compiler adds. -/
def suffixLiteral : List UInt8 := bytes ".XXXXXX" ++ [0, 0]

/-- `const std::string suffix(".XXXXXX\0")`: the constructor is given a pointer
only and copies the C string it points to. -/
def tempSuffix : List UInt8 := cstr suffixLiteral 0

/-- The vector `pathBuffer` when `mkstemp` is called. -/
def pathBuffer (filename : List UInt8) : List UInt8 :=
  let pathBuffer0 := resize [] (2 * filename.length + 1 + tempSuffix.length)
  let pathBuffer1 := store pathBuffer0 0 filename
  let pathBuffer2 := pathBuffer1.set filename.length 0
  let tempPath := filename.length + 1
  let pathBuffer3 := store pathBuffer2 tempPath filename
  store pathBuffer3 (tempPath + filename.length) tempSuffix

/-- The C string `filenameCStr` points to, the vector `pathBuffer` being
followed in memory by the bytes `beyond`. -/
def filenameCStr (filename beyond : List UInt8) : List UInt8 :=
  cstr (pathBuffer filename ++ beyond) 0

/-- The C string `tempPath` points to when `mkstemp` is called. -/
def tempTemplate (filename beyond : List UInt8) : List UInt8 :=
  cstr (pathBuffer filename ++ beyond) (filename.length + 1)

/-- A file of the file system: its content and its permission bits. -/
structure FileNode where
  content : List UInt8
  mode : Nat
  deriving DecidableEq, Repr

/-- A call issued by `writeFileAtomicNoThrow`, as logged. -/
inductive FsCall where
  | mkstemp (template : List UInt8)
  | writev (fd : Int) (iov : List iovec) (n : Nat)
  | fchmod (fd : Int) (mode : Nat)
  | close (fd : Int)
  | rename (old new : List UInt8)
  | unlink (path : List UInt8)
  deriving DecidableEq, Repr

/-- The operating system as `writeFileAtomicNoThrow` sees it: the files by
path, the process memory the `iovec`s point into, the six characters
`mkstemp` puts in place of `XXXXXX` when it succeeds, the descriptor it
returned with the path of the file just created, the outcome of each call
(`oracle n` for the call issued after `n` earlier ones), `errno`, and the
calls issued so far, each with what it returned. -/
structure Fs where
  files : List UInt8 → Option FileNode
  mem : Nat → UInt8
  chosen : List UInt8
  opened : Option (Int × List UInt8)
  oracle : Nat → Outcome
  errno : Int
  log : List (FsCall × Ret)

/-- The files with the entry of one path replaced. -/
def setFile (files : List UInt8 → Option FileNode) (path : List UInt8) (v : Option FileNode) :
    List UInt8 → Option FileNode :=
  fun q => if q = path then v else files q

/-- The world once a call and what it returned are logged and `errno` is as
the call left it. -/
def Fs.record (w : Fs) (c : FsCall) (ret : Ret) : Fs :=
  { w with errno := ret.errno, log := w.log ++ [(c, ret)] }

/-- What a call that transfers nothing returns for an outcome: 0, or -1 with
`errno` set. -/
def Outcome.status (o : Outcome) (errno : Int) : Ret :=
  match o with
  | Outcome.ok _ => { r := 0, errno := errno }
  | Outcome.fail e => { r := -1, errno := e }

/-- The name `mkstemp` gives the file it creates from the template. -/
def tempName (chosen template : List UInt8) : List UInt8 :=
  template.take (template.length - 6) ++ chosen

/-- `EEXIST` of `<errno.h>`. -/
def EEXIST : Int := 17

/-- `EINVAL` of `<errno.h>`. -/
def EINVAL : Int := 22

/-- What `mkstemp(template)` returns. It fails with `EINVAL` when the template
does not end in `XXXXXX`, and with `EEXIST` rather than open a file that
exists. -/
def Fs.mkstempRet (w : Fs) (template : List UInt8) : Ret :=
  match w.oracle w.log.length with
  | Outcome.ok k =>
    if ¬ (bytes "XXXXXX").isSuffixOf template = true then { r := -1, errno := EINVAL }
    else if (w.files (tempName w.chosen template)).isSome = true then
      { r := -1, errno := EEXIST }
    else { r := (k : Int), errno := w.errno }
  | Outcome.fail e => { r := -1, errno := e }

/-- The syscall `mkstemp(template)`: the value returned, the content of the
template after the call, and the world. On success an empty file with mode
0600 exists under the new name. -/
def Fs.mkstemp (w : Fs) (template : List UInt8) : Ret × List UInt8 × Fs :=
  let name := tempName w.chosen template
  let ret := w.mkstempRet template
  let w1 := w.record (FsCall.mkstemp template) ret
  if ret.r = -1 then (ret, template, w1)
  else
    (ret, name,
     { w1 with files := setFile w.files name (some { content := [], mode := 0o600 }),
               opened := some (ret.r, name) })

/-- The file a descriptor refers to, if it is the open one. -/
def Fs.pathOf (w : Fs) (fd : Int) : Option (List UInt8) :=
  match w.opened with
  | some (k, path) => if k = fd then some path else none
  | none => none

/-- The files after the file the descriptor refers to, if there is one, has
been changed by `change`. -/
def Fs.changeOpen (w : Fs) (fd : Int) (change : FileNode → FileNode) :
    List UInt8 → Option FileNode :=
  match w.pathOf fd with
  | some path =>
    match w.files path with
    | some node => setFile w.files path (some (change node))
    | none => w.files
  | none => w.files

/-- The syscall `writev(fd, iov, n)`: on success the bytes taken are appended
to the file the descriptor refers to. -/
def Fs.writev (fd : Int) (w : Fs) (iov : List iovec) (n : Nat) (_offset : Option Int) :
    Ret × Fs :=
  let o := w.oracle w.log.length
  let offered := iov.take n
  let ret := o.ret (iovLen offered) w.errno
  let taken := (iovBytes w.mem offered).take (o.transferred (iovLen offered))
  (ret,
   { w.record (FsCall.writev fd iov n) ret with
     files := w.changeOpen fd (fun node => { node with content := node.content ++ taken }) })

/-- The syscall `fchmod(fd, mode)`. -/
def Fs.fchmod (w : Fs) (fd : Int) (mode : Nat) : Ret × Fs :=
  let ret := (w.oracle w.log.length).status w.errno
  (ret,
   { w.record (FsCall.fchmod fd mode) ret with
     files := if ret.r = -1 then w.files
              else w.changeOpen fd (fun node => { node with mode := mode }) })

/-- The syscall `close(fd)`; the descriptor is gone afterwards, whatever the
value returned. -/
def Fs.close (w : Fs) (fd : Int) : Ret × Fs :=
  let ret := (w.oracle w.log.length).status w.errno
  (ret, { w.record (FsCall.close fd) ret with opened := none })

/-- The syscall `rename(old, new)`. -/
def Fs.rename (w : Fs) (old new : List UInt8) : Ret × Fs :=
  let ret := (w.oracle w.log.length).status w.errno
  (ret,
   { w.record (FsCall.rename old new) ret with
     files := if ret.r = -1 then w.files
              else fun q => if q = new then w.files old
                            else if q = old then none else w.files q })

/-- The syscall `unlink(path)`. -/
def Fs.unlink (w : Fs) (path : List UInt8) : Ret × Fs :=
  let ret := (w.oracle w.log.length).status w.errno
  (ret,
   { w.record (FsCall.unlink path) ret with
     files := if ret.r = -1 then w.files else setFile w.files path none })

/-- The `SCOPE_EXIT` block of `writeFileAtomicNoThrow`, run when the function
is left, with the values `tmpFD`, `success` and `tempPath` have then. -/
def atomicScopeExit (w : Fs) (tmpFD : Int) (success : Bool) (tempPath : List UInt8) : Fs :=
  let w1 := if tmpFD ≠ -1 then (w.close tmpFD).2 else w
  if ¬ success = true then (w1.unlink tempPath).2 else w1

/-- `writeFileAtomicNoThrow(filename, iov, count, permissions)`: the value
returned and the world after the call. `beyond` is what follows the vector
`pathBuffer` in memory; `none` when `writevFull` has not returned within
`fuel` passes or reads past the end of the array. The value of a `return
errno` is taken before the scope guard runs. -/
def writeFileAtomicNoThrow (fuel : Nat) (w : Fs) (filename beyond : List UInt8)
    (iov : List iovec) (count : Nat) (permissions : Nat) : Option (Int × Fs) :=
  let m := w.mkstemp (tempTemplate filename beyond)
  let tmpFD := m.1.r
  let tempPath := m.2.1
  if tmpFD = -1 then some (m.1.errno, m.2.2)
  else
    match wrapvFull (Fs.writev tmpFD) fuel m.2.2 iov count none 0 with
    | none => none
    | some (rc, w2) =>
      if rc = -1 then some (w2.errno, atomicScopeExit w2 tmpFD false tempPath)
      else
        let c := w2.fchmod tmpFD permissions
        if c.1.r = -1 then some (c.1.errno, atomicScopeExit c.2 tmpFD false tempPath)
        else
          let d := c.2.close tmpFD
          if d.1.r = -1 then some (d.1.errno, atomicScopeExit d.2 (-1) false tempPath)
          else
            let e := d.2.rename tempPath (filenameCStr filename beyond)
            if e.1.r = -1 then some (e.1.errno, atomicScopeExit e.2 (-1) false tempPath)
            else some (0, atomicScopeExit e.2 (-1) true tempPath)

/-- A world with one file, `"f"`, holding `"old"` with mode 0644; every call
succeeds and `writev` takes whatever it is offered; the process memory holds
`'x'` everywhere. -/
def oneOldFile : Fs :=
  { files := fun q => if q = bytes "f" then some { content := bytes "old", mode := 0o644 }
                      else none,
    mem := fun _ => 120, chosen := bytes "Ab3dE9", opened := none, oracle := takesAll,
    errno := 0, log := [] }

/-- The same world, except that `writev` is answered 0 at its first call (the
second call issued): a write that takes no byte. -/
def zeroByteWrite : Fs :=
  { oneOldFile with oracle := fun n => if n = 1 then Outcome.ok 0 else Outcome.ok 4096 }

/-- The same world, except that the call issued after `n` others fails with
`errno` 5 (`EIO`). -/
def failsAt (n : Nat) : Fs :=
  { oneOldFile with oracle := fun i => if i = n then Outcome.fail 5 else Outcome.ok 4096 }

/-- The same world, except that `fchmod` (the call issued after two others)
fails with `errno` 5 (`EIO`) and `unlink` (the call issued after four
others) fails with `errno` 13 (`EACCES`). -/
def chmodAndUnlinkFail : Fs :=
  { oneOldFile with
    oracle := fun i => if i = 2 then Outcome.fail 5 else if i = 4 then Outcome.fail 13
                       else Outcome.ok 4096 }


/-! ### The cursors and the memory accesses of `readLine` -/

/-- The ordering `buf_ <= bol_ <= eol_ <= end_ <= bufEnd_` of the comment in
`LineReader.h`. The cursors are offsets from `buf_`, so `buf_` is offset 0. -/
def LineReader.Ordered (lr : LineReader) : Prop :=
  0 ≤ lr.bol_ ∧ lr.bol_ ≤ lr.eol_ ∧ lr.eol_ ≤ lr.end_ ∧ lr.end_ ≤ lr.bufEnd_

instance (lr : LineReader) : Decidable lr.Ordered := by
  unfold LineReader.Ordered; infer_instance

/-- A call by which `readLine` touches the buffer, as logged: `memchr(buf_ + s,
'\n', n)`, `memmove(buf_ + dst, buf_ + src, n)` and `readFull(fd_, buf_ +
dst, count)`. The lengths are the pointer differences the code computes,
as integers. -/
inductive Access where
  | memchr (s : Nat) (n : Int)
  | memmove (dst src : Nat) (n : Int)
  | readFull (dst : Nat) (count : Int)
  deriving DecidableEq, Repr

/-- The bytes the call may touch lie inside `[buf_, bufEnd_)`, the buffer
having `bufSize` bytes: the length is not negative and every range ends at
or before `bufEnd_`. -/
def Access.InBounds (bufSize : Nat) : Access → Prop
  | Access.memchr s n => 0 ≤ n ∧ (s : Int) + n ≤ (bufSize : Int)
  | Access.memmove dst src n =>
    0 ≤ n ∧ (dst : Int) + n ≤ (bufSize : Int) ∧ (src : Int) + n ≤ (bufSize : Int)
  | Access.readFull dst count => 0 ≤ count ∧ (dst : Int) + count ≤ (bufSize : Int)

instance (bufSize : Nat) (a : Access) : Decidable (a.InBounds bufSize) := by
  cases a <;> unfold Access.InBounds <;> infer_instance

/-- Whether the logged call is the search `memchr` that opens a pass of the
loop of `readLine`. -/
def Access.isSearch : Access → Bool
  | Access.memchr _ _ => true
  | _ => false

/-- Whether the logged call is a `readFull`. -/
def Access.isRead : Access → Bool
  | Access.readFull _ _ => true
  | _ => false

/-- The `for (;;)` loop of `LineReader::readLine` as `readLineLoop`, with the
calls that touch the buffer logged in order. -/
def readLineLoopTrace {σ : Type} (readFull : σ → Int → Nat → ReadFullResult × σ) :
    Nat → σ → LineReader → List Access → Option (σ × LineReader × List Access)
  | 0, _, _, _ => none
  | fuel + 1, w, lr, tr =>
    let tr1 := tr ++ [Access.memchr lr.eol_ ((lr.end_ : Int) - (lr.eol_ : Int))]
    match memchr lr.mem lr.eol_ newlineChar (lr.end_ - lr.eol_) with
    | some newline => some (w, { lr with eol_ := newline + 1 }, tr1)
    | none =>
      if lr.state_ ≠ State.kReading ∨ (lr.bol_ = 0 ∧ lr.end_ = lr.bufEnd_) then
        some (w, { lr with eol_ := lr.end_ }, tr1)
      else
        let mem1 := memmove lr.mem 0 lr.eol_ (lr.end_ - lr.eol_)
        let end1 := lr.end_ - (lr.eol_ - 0)
        let available := lr.bufEnd_ - end1
        let res := readFull w lr.fd_ available
        let mem2 := store mem1 end1 res.1.data
        let state2 :=
          if res.1.n < 0 then State.kError
          else if res.1.n < (available : Int) then State.kEof
          else lr.state_
        let n : Int := if res.1.n < 0 then 0 else res.1.n
        readLineLoopTrace readFull fuel res.2
          { lr with mem := mem2, bol_ := 0, eol_ := end1, end_ := end1 + n.toNat,
                    state_ := state2 }
          (tr1 ++ [Access.memmove 0 lr.eol_ ((lr.end_ : Int) - (lr.eol_ : Int)),
                   Access.readFull end1 ((lr.bufEnd_ : Int) - (end1 : Int))])

/-- `LineReader::readLine(line)` as `LineReader.readLine`, with the calls that
touch the buffer logged in order. -/
def LineReader.readLineTrace {σ : Type} (readFull : σ → Int → Nat → ReadFullResult × σ)
    (fuel : Nat) (w : σ) (lr : LineReader) :
    Option (State × List UInt8 × σ × LineReader × List Access) :=
  match readLineLoopTrace readFull fuel w { lr with bol_ := lr.eol_ } [] with
  | none => none
  | some (w1, lr1, tr) =>
    some (if lr1.eol_ ≠ lr1.bol_ then State.kReading else lr1.state_,
          (lr1.mem.drop lr1.bol_).take (lr1.eol_ - lr1.bol_), w1, lr1, tr)

/-- One `readLine` call of a sequence: the status returned, the line, the
reader after the call and the calls that touched the buffer. -/
structure CallRecord where
  state : State
  line : List UInt8
  reader : LineReader
  accesses : List Access
  deriving DecidableEq, Repr

/-- The records of `calls` successive `readLine` calls. -/
def readLineCalls {σ : Type} (readFull : σ → Int → Nat → ReadFullResult × σ) (fuel : Nat) :
    Nat → σ → LineReader → Option (List CallRecord)
  | 0, _, _ => some []
  | calls + 1, w, lr =>
    match lr.readLineTrace readFull fuel w with
    | none => none
    | some (st, line, w1, lr1, tr) =>
      (readLineCalls readFull fuel calls w1 lr1).map
        (fun rest => { state := st, line := line, reader := lr1, accesses := tr } :: rest)

/-- What `calls` successive calls are expected to return once the stream state
is `st`, a terminal one, and the buffer still holds the lines `pieces`: the
pieces in order, each with `kReading`, then empty lines with `st`. -/
def expectedAfterEnd (st : State) : List (List UInt8) → Nat → List (State × List UInt8)
  | _, 0 => []
  | [], calls + 1 => (st, []) :: expectedAfterEnd st [] calls
  | p :: ps, calls + 1 => (State.kReading, p) :: expectedAfterEnd st ps calls

/-- The bytes between `eol_` and `end_`: read, not yet returned. -/
def LineReader.unprocessed (lr : LineReader) : List UInt8 :=
  (lr.mem.drop lr.eol_).take (lr.end_ - lr.eol_)

/-- A reader at the end of its stream with `"ab\ncd"` left in a buffer of
eight bytes. -/
def endedReader : LineReader :=
  { fd_ := 3, mem := bytes "xxab\ncdx", bol_ := 0, eol_ := 2, end_ := 7,
    state_ := State.kEof }

/-- A `readFull` that must not be called: it answers with an error. -/
def neverRead (w : Nat) (_fd : Int) (_count : Nat) : ReadFullResult × Nat :=
  ({ n := -1, data := [] }, w + 1)


/-! ## Lists: the reference split, piece by piece -/

theorem splitLines_eq (s : List UInt8) (hs : s ≠ []) :
    splitLines s = s.take (s.indexOf newlineChar + 1)
      :: splitLines (s.drop (s.indexOf newlineChar + 1)) := by
  induction s with
  | nil => exact absurd rfl hs
  | cons c cs ih =>
    by_cases hc : c = newlineChar
    · subst hc
      simp [splitLines]
    · have hi : List.indexOf newlineChar (c :: cs) = List.indexOf newlineChar cs + 1 :=
        List.indexOf_cons_ne _ hc
      rw [hi]
      by_cases hcs : cs = []
      · subst hcs
        simp [splitLines, hc]
      · rw [splitLines, if_neg hc, ih hcs]
        simp

theorem chunkAux_fuel (n : Nat) (hn : 0 < n) :
    ∀ (fuel : Nat) (l : List UInt8), l.length ≤ fuel →
      chunkAux n fuel l = chunkAux n l.length l := by
  intro fuel
  induction fuel using Nat.strong_induction_on with
  | _ fuel ih =>
    intro l hl
    cases l with
    | nil => cases fuel <;> simp [chunkAux]
    | cons a t =>
      cases fuel with
      | zero => simp at hl
      | succ f =>
        have h1 : ((a :: t).drop n).length ≤ f := by
          simp only [List.length_drop, List.length_cons] at *
          omega
        have h2 : ((a :: t).drop n).length ≤ t.length := by
          simp only [List.length_drop, List.length_cons] at *
          omega
        simp only [chunkAux, List.length_cons]
        rw [ih f (Nat.lt_succ_self f) _ h1, ih t.length (by simp at hl; omega) _ h2]

theorem chunk_nil (n : Nat) : chunk n [] = [] := rfl

theorem chunk_cons (n : Nat) (hn : 0 < n) (l : List UInt8) (hl : l ≠ []) :
    chunk n l = l.take n :: chunk n (l.drop n) := by
  cases l with
  | nil => exact absurd rfl hl
  | cons a t =>
    have h2 : ((a :: t).drop n).length ≤ t.length := by
      simp only [List.length_drop, List.length_cons]
      omega
    simp only [chunk, List.length_cons, chunkAux]
    rw [chunkAux_fuel n hn t.length _ h2]
    simp

theorem referenceSplit_nil (n : Nat) : referenceSplit n [] = [] := rfl

theorem referenceSplit_line (n : Nat) (s : List UInt8) (hs : s ≠ []) :
    referenceSplit n s = chunk n (s.take (s.indexOf newlineChar + 1))
      ++ referenceSplit n (s.drop (s.indexOf newlineChar + 1)) := by
  unfold referenceSplit
  rw [splitLines_eq s hs]
  simp

theorem nextPiece_length_le (n : Nat) (s : List UInt8) : (nextPiece n s).length ≤ n := by
  unfold nextPiece
  simp only [List.length_take]
  omega

theorem nextPiece_ne_nil (n : Nat) (hn : 0 < n) (s : List UInt8) (hs : s ≠ []) :
    nextPiece n s ≠ [] := by
  cases s with
  | nil => exact absurd rfl hs
  | cons a t =>
    obtain ⟨m, rfl⟩ : ∃ m, n = m + 1 := ⟨n - 1, by omega⟩
    simp [nextPiece]

theorem referenceSplit_cons (n : Nat) (hn : 0 < n) (s : List UInt8) (hs : s ≠ []) :
    referenceSplit n s
      = nextPiece n s :: referenceSplit n (s.drop (nextPiece n s).length) := by
  obtain ⟨T, D, hTD, hT, hD⟩ : ∃ T D, s = T ++ D ∧ T = s.take n ∧ D = s.drop n :=
    ⟨s.take n, s.drop n, (List.take_append_drop n s).symm, rfl, rfl⟩
  have hTlen : T.length ≤ n := by rw [hT]; simp
  have hTne : T ≠ [] := by
    rw [hT]
    cases s with
    | nil => exact absurd rfl hs
    | cons a t =>
      obtain ⟨m, rfl⟩ : ∃ m, n = m + 1 := ⟨n - 1, by omega⟩
      simp
  have hnp : nextPiece n s = T.take (T.indexOf newlineChar + 1) := by
    unfold nextPiece; rw [← hT]
  rw [hnp, referenceSplit_line n s hs]
  by_cases hmem : newlineChar ∈ T
  · have hi : s.indexOf newlineChar = T.indexOf newlineChar := by
      rw [hTD]; exact List.indexOf_append_of_mem hmem
    have hlt : T.indexOf newlineChar < T.length := List.indexOf_lt_length.2 hmem
    have htake : s.take (T.indexOf newlineChar + 1) = T.take (T.indexOf newlineChar + 1) := by
      rw [hTD]; exact List.take_append_of_le_length (by omega)
    have hlen : (T.take (T.indexOf newlineChar + 1)).length = T.indexOf newlineChar + 1 := by
      simp; omega
    have hne : T.take (T.indexOf newlineChar + 1) ≠ [] := by
      intro h; rw [h] at hlen; simp at hlen
    rw [hi, htake, hlen, chunk_cons n hn _ hne]
    have h1 : (T.take (T.indexOf newlineChar + 1)).take n = T.take (T.indexOf newlineChar + 1) :=
      List.take_of_length_le (by rw [hlen]; omega)
    have h2 : (T.take (T.indexOf newlineChar + 1)).drop n = [] :=
      List.drop_of_length_le (by rw [hlen]; omega)
    rw [h1, h2, chunk_nil]
    rfl
  · have hidx : T.indexOf newlineChar = T.length := List.indexOf_of_not_mem hmem
    have hi : s.indexOf newlineChar = T.length + D.indexOf newlineChar := by
      rw [hTD]; exact List.indexOf_append_of_not_mem hmem
    have hTt : T.take (T.indexOf newlineChar + 1) = T := by
      rw [hidx]; exact List.take_of_length_le (by omega)
    have hdropT : s.drop T.length = D := by rw [hTD]; exact List.drop_left' rfl
    have htake : s.take (T.length + D.indexOf newlineChar + 1)
        = T ++ D.take (D.indexOf newlineChar + 1) := by
      rw [hTD, List.take_append_eq_append_take, List.take_of_length_le (by omega)]
      congr 2
      omega
    have hdrop : s.drop (T.length + D.indexOf newlineChar + 1)
        = D.drop (D.indexOf newlineChar + 1) := by
      rw [hTD, List.drop_append_eq_append_drop, List.drop_of_length_le (by omega)]
      simp only [List.nil_append]
      congr 1
      omega
    rw [hTt, hdropT, hi, htake, hdrop]
    by_cases hDnil : D = []
    · subst hDnil
      simp only [List.take_nil, List.append_nil, List.drop_nil, referenceSplit_nil]
      rw [chunk_cons n hn T hTne, List.take_of_length_le hTlen, List.drop_of_length_le hTlen,
        chunk_nil]
    · have hTn : T.length = n := by
        by_contra hlt
        apply hDnil
        rw [hD]
        apply List.drop_of_length_le
        have : (s.take n).length = T.length := by rw [hT]
        simp only [List.length_take] at this
        omega
      rw [chunk_cons n hn _ (by simp [hTne]), referenceSplit_line n D hDnil]
      have h1 : (T ++ D.take (D.indexOf newlineChar + 1)).take n = T := by
        rw [← hTn]; exact List.take_left' rfl
      have h2 : (T ++ D.take (D.indexOf newlineChar + 1)).drop n
          = D.take (D.indexOf newlineChar + 1) := by
        rw [← hTn]; exact List.drop_left' rfl
      rw [h1, h2]
      rfl

/-! ## One call of `readLine` -/

theorem Held.pending {lr : LineReader} {Q P : List UInt8} (h : Held lr Q P) : Pending lr P := by
  obtain ⟨A, B, hm, _, he, hE⟩ := h
  exact ⟨A ++ Q, B, by rw [hm], by rw [he]; simp, by rw [hE]; simp⟩

theorem Pending.window {lr : LineReader} {P : List UInt8} (h : Pending lr P) :
    (lr.mem.drop lr.eol_).take (lr.end_ - lr.eol_) = P := by
  obtain ⟨A, B, hm, he, hE⟩ := h
  rw [hm, he, hE, List.append_assoc, List.drop_left' rfl, Nat.add_sub_cancel_left,
    List.take_left' rfl]

theorem Pending.length_le {lr : LineReader} {P : List UInt8} (h : Pending lr P) :
    lr.eol_ ≤ lr.end_ ∧ lr.end_ ≤ lr.mem.length ∧ lr.end_ - lr.eol_ = P.length := by
  obtain ⟨A, B, hm, he, hE⟩ := h
  rw [hm, he, hE]
  simp only [List.length_append]
  omega

theorem Pending.full_iff {lr : LineReader} {P : List UInt8} (h : Pending lr P) :
    (lr.eol_ = 0 ∧ lr.end_ = lr.bufEnd_) ↔ P.length = lr.mem.length := by
  obtain ⟨A, B, hm, he, hE⟩ := h
  unfold LineReader.bufEnd_
  rw [hm, he, hE]
  simp only [List.length_append]
  omega

theorem memchr_pending {lr : LineReader} {P : List UInt8} (h : Pending lr P) (c : UInt8) :
    memchr lr.mem lr.eol_ c (lr.end_ - lr.eol_)
      = if c ∈ P then some (lr.eol_ + P.indexOf c) else none := by
  unfold memchr
  simp only [h.window]

theorem readLineLoop_found {σ : Type} (rd : σ → Int → Nat → ReadFullResult × σ)
    (fuel : Nat) (w : σ) (lr : LineReader) (P : List UInt8) (h : Pending lr P)
    (hmem : newlineChar ∈ P) :
    readLineLoop rd (fuel + 1) w lr
      = some (w, { lr with eol_ := lr.eol_ + P.indexOf newlineChar + 1 }) := by
  rw [readLineLoop, memchr_pending h, if_pos hmem]

theorem readLineLoop_stop {σ : Type} (rd : σ → Int → Nat → ReadFullResult × σ)
    (fuel : Nat) (w : σ) (lr : LineReader) (P : List UInt8) (h : Pending lr P)
    (hmem : newlineChar ∉ P)
    (hstop : lr.state_ ≠ State.kReading ∨ (lr.bol_ = 0 ∧ lr.end_ = lr.bufEnd_)) :
    readLineLoop rd (fuel + 1) w lr = some (w, { lr with eol_ := lr.end_ }) := by
  rw [readLineLoop, memchr_pending h, if_neg hmem]
  simp only [if_pos hstop]

theorem readLineLoop_refill {σ : Type} (rd : σ → Int → Nat → ReadFullResult × σ)
    (fuel : Nat) (w : σ) (lr : LineReader) (P : List UInt8) (h : Pending lr P)
    (hmem : newlineChar ∉ P)
    (hgo : ¬ (lr.state_ ≠ State.kReading ∨ (lr.bol_ = 0 ∧ lr.end_ = lr.bufEnd_))) :
    readLineLoop rd (fuel + 1) w lr
      = readLineLoop rd fuel (rd w lr.fd_ (lr.mem.length - P.length)).2
          { fd_ := lr.fd_,
            mem := store (P ++ lr.mem.drop P.length) P.length
                     (rd w lr.fd_ (lr.mem.length - P.length)).1.data,
            bol_ := 0,
            eol_ := P.length,
            end_ := P.length
              + (if (rd w lr.fd_ (lr.mem.length - P.length)).1.n < 0 then (0 : Int)
                 else (rd w lr.fd_ (lr.mem.length - P.length)).1.n).toNat,
            state_ :=
              if (rd w lr.fd_ (lr.mem.length - P.length)).1.n < 0 then State.kError
              else if (rd w lr.fd_ (lr.mem.length - P.length)).1.n
                  < ((lr.mem.length - P.length : Nat) : Int) then State.kEof
              else lr.state_ } := by
  rw [readLineLoop, memchr_pending h, if_neg hmem]
  simp only [if_neg hgo]
  have hw := h.window
  have hl := h.length_le
  have hw2 : List.take P.length (List.drop lr.eol_ lr.mem) = P := by
    rw [← hl.2.2]; exact hw
  simp only [memmove, Nat.sub_zero, List.take_zero, List.nil_append, Nat.zero_add,
    LineReader.bufEnd_, hl.2.2, hw2]


theorem take_indexOf_append {Q P : List UInt8} {c : UInt8} (hQ : c ∉ Q) :
    (Q ++ P).take ((Q ++ P).indexOf c + 1) = Q ++ P.take (P.indexOf c + 1) := by
  rw [List.indexOf_append_of_not_mem hQ, List.take_append_eq_append_take,
    List.take_of_length_le (by omega)]
  congr 2
  omega

theorem drop_indexOf_append {Q P : List UInt8} {c : UInt8} (hQ : c ∉ Q) :
    (Q ++ P).drop ((Q ++ P).indexOf c + 1) = P.drop (P.indexOf c + 1) := by
  rw [List.indexOf_append_of_not_mem hQ, List.drop_append_eq_append_drop,
    List.drop_of_length_le (by omega)]
  simp only [List.nil_append]
  congr 1
  omega

theorem readLineLoop_last {σ : Type} (rd : σ → Int → Nat → ReadFullResult × σ)
    (fuel : Nat) (w : σ) (lr : LineReader) (Q P : List UInt8) (h : Held lr Q P)
    (hQ : newlineChar ∉ Q)
    (hlast : newlineChar ∈ P ∨ lr.state_ ≠ State.kReading
      ∨ (lr.bol_ = 0 ∧ lr.end_ = lr.bufEnd_)) :
    ∃ lr1, readLineLoop rd (fuel + 1) w lr = some (w, lr1)
      ∧ lr1.mem = lr.mem ∧ lr1.bol_ = lr.bol_ ∧ lr1.state_ = lr.state_ ∧ lr1.fd_ = lr.fd_
      ∧ (lr1.mem.drop lr1.bol_).take (lr1.eol_ - lr1.bol_)
          = (Q ++ P).take ((Q ++ P).indexOf newlineChar + 1)
      ∧ lr1.eol_ = lr1.bol_ + ((Q ++ P).take ((Q ++ P).indexOf newlineChar + 1)).length
      ∧ Pending lr1 ((Q ++ P).drop ((Q ++ P).indexOf newlineChar + 1)) := by
  have hp := h.pending
  obtain ⟨A, B, hm, hb, he, hE⟩ := h
  rw [take_indexOf_append hQ, drop_indexOf_append hQ]
  by_cases hmem : newlineChar ∈ P
  · have hlt : P.indexOf newlineChar < P.length := List.indexOf_lt_length.2 hmem
    refine ⟨_, readLineLoop_found rd fuel w lr P hp hmem, rfl, rfl, rfl, rfl, ?_, ?_, ?_⟩
    · simp only [hm, hb, he]
      rw [List.append_assoc, List.append_assoc, List.drop_left' rfl]
      have e1 : A.length + Q.length + List.indexOf newlineChar P + 1 - A.length
          = Q.length + (List.indexOf newlineChar P + 1) := by omega
      rw [e1, ← List.append_assoc, List.take_append_eq_append_take,
        List.take_append_eq_append_take, List.take_of_length_le (by omega)]
      simp only [List.length_append]
      have e2 : Q.length + (List.indexOf newlineChar P + 1) - Q.length
          = List.indexOf newlineChar P + 1 := by omega
      have e3 : Q.length + (List.indexOf newlineChar P + 1)
          - (Q.length + P.length) = 0 := by omega
      rw [e2, e3]
      simp
    · simp only [hb, he, List.length_append, List.length_take]
      omega
    · refine ⟨A ++ Q ++ P.take (P.indexOf newlineChar + 1), B, ?_, ?_, ?_⟩
      · simp only [hm, List.append_assoc, List.take_append_drop]
      · simp only [he, List.length_append, List.length_take]
        omega
      · simp only [hE, List.length_append, List.length_take, List.length_drop]
        omega
  · have hstop : lr.state_ ≠ State.kReading ∨ (lr.bol_ = 0 ∧ lr.end_ = lr.bufEnd_) := by
      rcases hlast with h1 | h2
      · exact absurd h1 hmem
      · exact h2
    have hidx : P.indexOf newlineChar = P.length := List.indexOf_of_not_mem hmem
    have ht : P.take (P.indexOf newlineChar + 1) = P :=
      List.take_of_length_le (by omega)
    have hd : P.drop (P.indexOf newlineChar + 1) = [] :=
      List.drop_of_length_le (by omega)
    rw [ht, hd]
    refine ⟨_, readLineLoop_stop rd fuel w lr P hp hmem hstop, rfl, rfl, rfl, rfl, ?_, ?_, ?_⟩
    · simp only [hm, hb, hE]
      rw [List.append_assoc, List.append_assoc, List.drop_left' rfl]
      have e1 : A.length + Q.length + P.length - A.length = (Q ++ P).length := by
        simp only [List.length_append]; omega
      rw [e1, ← List.append_assoc, List.take_left' rfl]
    · simp only [hb, hE, List.length_append]
      omega
    · exact ⟨A ++ Q ++ P, B, by simp [hm], by simp only [hE, List.length_append],
        by simp only [hE, List.length_append, List.length_nil, Nat.add_zero]⟩


theorem take_indexOf_eq_nil {V : List UInt8} {c : UInt8}
    (h : V.take (V.indexOf c + 1) = []) : V = [] := by
  cases V with
  | nil => rfl
  | cons a t => simp at h

theorem store_length (mem : List UInt8) (dst : Nat) (data : List UInt8)
    (h : dst + data.length ≤ mem.length) : (store mem dst data).length = mem.length := by
  simp only [store, List.length_append, List.length_take, List.length_drop]
  omega

/-- One `readLine` call on a reader whose buffer holds the unprocessed bytes
`P`: with two passes of fuel it returns; the line is the visible bytes `V` cut
after their first newline, where `V` is `P` when the call does not read and
`P` followed by the bytes `readFull` delivered when it does. -/
theorem readLine_step {σ : Type} (rd : σ → Int → Nat → ReadFullResult × σ)
    (fuel : Nat) (w : σ) (lr : LineReader) (P : List UInt8) (hf : 2 ≤ fuel)
    (hP : Pending lr P) (hbuf : 0 < lr.mem.length)
    (hwf : (rd w lr.fd_ (lr.mem.length - P.length)).1.WellFormed
      (lr.mem.length - P.length)) :
    ∃ st line w1 lr1 V,
      lr.readLine rd fuel w = some (st, line, w1, lr1)
      ∧ line = V.take (V.indexOf newlineChar + 1)
      ∧ Pending lr1 (V.drop (V.indexOf newlineChar + 1))
      ∧ lr1.mem.length = lr.mem.length ∧ lr1.fd_ = lr.fd_
      ∧ lr1.eol_ = lr1.bol_ + line.length
      ∧ st = (if line ≠ [] then State.kReading else lr1.state_)
      ∧ (line = [] → lr1.state_ ≠ State.kReading)
      ∧ ((V = P ∧ w1 = w ∧ lr1.state_ = lr.state_
            ∧ (newlineChar ∈ P ∨ lr.state_ ≠ State.kReading ∨ P.length = lr.mem.length))
         ∨ (newlineChar ∉ P ∧ lr.state_ = State.kReading ∧ P.length < lr.mem.length
            ∧ V = P ++ (if (rd w lr.fd_ (lr.mem.length - P.length)).1.n < 0 then []
                        else (rd w lr.fd_ (lr.mem.length - P.length)).1.data)
            ∧ w1 = (rd w lr.fd_ (lr.mem.length - P.length)).2
            ∧ lr1.state_ =
                (if (rd w lr.fd_ (lr.mem.length - P.length)).1.n < 0 then State.kError
                 else if (rd w lr.fd_ (lr.mem.length - P.length)).1.n
                     < ((lr.mem.length - P.length : Nat) : Int) then State.kEof
                 else State.kReading))) := by
  obtain ⟨f, rfl⟩ : ∃ f, fuel = f + 2 := ⟨fuel - 2, by omega⟩
  have hlen := hP.length_le
  have hfull := hP.full_iff
  obtain ⟨A, B, hm, he, hE⟩ := hP
  have hP : Pending lr P := ⟨A, B, hm, he, hE⟩
  have hH0 : Held { lr with bol_ := lr.eol_ } [] P :=
    ⟨A, B, by simp [hm], he, by simp [he], by simp [hE]⟩
  have hP0 : Pending { lr with bol_ := lr.eol_ } P := hH0.pending
  have stEq : ∀ (lr1 : LineReader) (line : List UInt8), lr1.eol_ = lr1.bol_ + line.length →
      (if lr1.eol_ ≠ lr1.bol_ then State.kReading else lr1.state_)
        = (if line ≠ [] then State.kReading else lr1.state_) := by
    intro lr1 line h
    by_cases hl : line = []
    · subst hl
      simp at h
      simp [h]
    · have : line.length ≠ 0 := fun h0 => hl (List.length_eq_zero.1 h0)
      have h2 : lr1.eol_ ≠ lr1.bol_ := by omega
      simp [hl, h2]
  by_cases hlast : newlineChar ∈ P ∨ lr.state_ ≠ State.kReading
      ∨ (lr.eol_ = 0 ∧ lr.end_ = lr.bufEnd_)
  · obtain ⟨lr1, hrun, hmem1, hbol1, hst1, hfd1, hline, heol, hpend⟩ :=
      readLineLoop_last rd (f + 1) w { lr with bol_ := lr.eol_ } [] P hH0 (by simp) hlast
    simp only [List.nil_append] at hline heol hpend
    refine ⟨(if lr1.eol_ ≠ lr1.bol_ then State.kReading else lr1.state_), _, w, lr1, P, ?_, hline, hpend, by rw [hmem1], hfd1, ?_, ?_, ?_, ?_⟩
    · simp only [LineReader.readLine, hrun]
    · rw [hline]; exact heol
    · rw [hline]; exact stEq lr1 _ heol
    · intro hnil
      rw [hline] at hnil
      have hPnil : P = [] := take_indexOf_eq_nil hnil
      rw [hst1]
      rcases hlast with h1 | h2 | h3
      · rw [hPnil] at h1; simp at h1
      · exact h2
      · have := hfull.1 h3
        rw [hPnil] at this
        simp at this
        omega
    · left
      refine ⟨rfl, rfl, hst1, ?_⟩
      rcases hlast with h1 | h2 | h3
      · exact Or.inl h1
      · exact Or.inr (Or.inl h2)
      · exact Or.inr (Or.inr (hfull.1 h3))
  · have hnl : newlineChar ∉ P := fun h => hlast (Or.inl h)
    have hrd : lr.state_ = State.kReading := by
      by_contra h; exact hlast (Or.inr (Or.inl h))
    have hnf : P.length < lr.mem.length := by
      have h1 : ¬ (P.length = lr.mem.length) := fun h =>
        hlast (Or.inr (Or.inr (hfull.2 h)))
      omega
    have hgo : ¬ (({ lr with bol_ := lr.eol_ } : LineReader).state_ ≠ State.kReading
        ∨ (({ lr with bol_ := lr.eol_ } : LineReader).bol_ = 0
          ∧ ({ lr with bol_ := lr.eol_ } : LineReader).end_
            = ({ lr with bol_ := lr.eol_ } : LineReader).bufEnd_)) := by
      intro h
      rcases h with h | h
      · exact hlast (Or.inr (Or.inl h))
      · exact hlast (Or.inr (Or.inr h))
    have hstep := readLineLoop_refill rd (f + 1) w { lr with bol_ := lr.eol_ } P hP0 hnl hgo
    simp only at hstep
    generalize hres : rd w lr.fd_ (lr.mem.length - P.length) = res at hstep hwf ⊢
    obtain ⟨hdl, hn⟩ := hwf
    have hm1len : (P ++ lr.mem.drop P.length).length = lr.mem.length := by
      simp only [List.length_append, List.length_drop]; omega
    have hm2len : (store (P ++ lr.mem.drop P.length) P.length res.1.data).length
        = lr.mem.length := by
      rw [store_length _ _ _ (by rw [hm1len]; omega), hm1len]
    have hm2 : store (P ++ lr.mem.drop P.length) P.length res.1.data
        = P ++ res.1.data ++ (P ++ lr.mem.drop P.length).drop (P.length + res.1.data.length) := by
      simp only [store, List.take_left' rfl]
    by_cases hneg : res.1.n < 0
    · simp only [hneg, if_true, Int.toNat_zero, Nat.add_zero] at hstep ⊢
      have hH2 : Held
          { fd_ := lr.fd_, mem := store (P ++ lr.mem.drop P.length) P.length res.1.data,
            bol_ := 0, eol_ := P.length, end_ := P.length, state_ := State.kError } P [] :=
        ⟨[], res.1.data ++ (P ++ lr.mem.drop P.length).drop (P.length + res.1.data.length),
          by simp [hm2], rfl, by simp, by simp⟩
      obtain ⟨lr1, hrun, hmem1, hbol1, hst1, hfd1, hline, heol, hpend⟩ :=
        readLineLoop_last rd f res.2 _ P [] hH2 hnl (Or.inr (Or.inl (by simp)))
      simp only [List.append_nil] at hline heol hpend
      refine ⟨(if lr1.eol_ ≠ lr1.bol_ then State.kReading else lr1.state_), _, res.2, lr1, P, ?_, hline, hpend, by rw [hmem1, hm2len], hfd1, ?_, ?_, ?_, ?_⟩
      · simp only [LineReader.readLine, hstep, hrun]
      · rw [hline]; exact heol
      · rw [hline]; exact stEq lr1 _ heol
      · intro _
        rw [hst1]
        simp
      · right
        exact ⟨hnl, hrd, hnf, by simp, rfl, hst1⟩
    · have hnd : res.1.n = (res.1.data.length : Int) := by
        rcases hn with h | h
        · rw [h] at hneg; simp at hneg
        · exact h
      simp only [hneg, if_false] at hstep ⊢
      rw [hnd, Int.toNat_ofNat] at hstep
      have hH2 : Held
          { fd_ := lr.fd_, mem := store (P ++ lr.mem.drop P.length) P.length res.1.data,
            bol_ := 0, eol_ := P.length, end_ := P.length + res.1.data.length,
            state_ := if (res.1.data.length : Int) < ((lr.mem.length - P.length : Nat) : Int)
              then State.kEof else lr.state_ } P res.1.data :=
        ⟨[], (P ++ lr.mem.drop P.length).drop (P.length + res.1.data.length),
          by simp [hm2], rfl, by simp, by simp⟩
      have hlast2 : newlineChar ∈ res.1.data
          ∨ (if (res.1.data.length : Int) < ((lr.mem.length - P.length : Nat) : Int)
              then State.kEof else lr.state_) ≠ State.kReading
          ∨ ((0 : Nat) = 0 ∧ P.length + res.1.data.length
              = (store (P ++ lr.mem.drop P.length) P.length res.1.data).length) := by
        by_cases hshort : (res.1.data.length : Int) < ((lr.mem.length - P.length : Nat) : Int)
        · right; left; simp [hshort]
        · right; right
          refine ⟨rfl, ?_⟩
          rw [hm2len]
          have : ¬ (res.1.data.length < lr.mem.length - P.length) := by
            intro h; exact hshort (by exact_mod_cast h)
          omega
      obtain ⟨lr1, hrun, hmem1, hbol1, hst1, hfd1, hline, heol, hpend⟩ :=
        readLineLoop_last rd f res.2 _ P res.1.data hH2 hnl hlast2
      refine ⟨(if lr1.eol_ ≠ lr1.bol_ then State.kReading else lr1.state_), _, res.2, lr1, P ++ res.1.data, ?_, hline, hpend, by rw [hmem1, hm2len],
        hfd1, ?_, ?_, ?_, ?_⟩
      · simp only [LineReader.readLine, hstep, hrun]
      · rw [hline]; exact heol
      · rw [hline]; exact stEq lr1 _ heol
      · intro hnil
        rw [hline] at hnil
        have hV : P ++ res.1.data = [] := take_indexOf_eq_nil hnil
        have hd0 : res.1.data.length = 0 := by
          have := congrArg List.length hV
          simp only [List.length_append, List.length_nil] at this
          omega
        rw [hst1]
        have hshort : (res.1.data.length : Int) < ((lr.mem.length - P.length : Nat) : Int) := by
          rw [hd0]; exact_mod_cast (by omega : 0 < lr.mem.length - P.length)
        simp [hshort]
      · right
        refine ⟨hnl, hrd, hnf, rfl, rfl, ?_⟩
        rw [hst1, hnd, hrd]


theorem drop_indexOf_eq_drop_length (V : List UInt8) (c : UInt8) :
    V.drop (V.indexOf c + 1) = V.drop (V.take (V.indexOf c + 1)).length := by
  have hle : V.indexOf c ≤ V.length := List.indexOf_le_length
  by_cases h : V.indexOf c + 1 ≤ V.length
  · rw [List.length_take, Nat.min_eq_left h]
  · rw [List.length_take, Nat.min_eq_right (by omega), List.drop_of_length_le (by omega),
      List.drop_of_length_le (le_refl _)]

theorem take_append_drop_length (m : Nat) (s : List UInt8) :
    s.take m ++ s.drop (s.take m).length = s := by
  by_cases h : m ≤ s.length
  · rw [List.length_take, Nat.min_eq_left h, List.take_append_drop]
  · rw [List.take_of_length_le (by omega), List.drop_of_length_le (le_refl _),
      List.append_nil]

theorem nextPiece_nil (n : Nat) : nextPiece n [] = [] := by
  simp [nextPiece]

theorem nextPiece_prefix (n : Nat) (s : List UInt8) :
    nextPiece n s ++ s.drop (nextPiece n s).length = s := by
  unfold nextPiece
  rw [List.take_take]
  exact take_append_drop_length _ _

/-- One `readLine` call on a never-failing stream: it returns the next piece
of the reference split of what remains (buffered bytes, then unread bytes). -/
theorem readLine_stream (fuel : Nat) (w : List UInt8) (lr : LineReader) (P : List UInt8)
    (hf : 2 ≤ fuel) (hP : Pending lr P) (hbuf : 0 < lr.mem.length)
    (hst : lr.state_ = State.kReading ∨ (lr.state_ = State.kEof ∧ w = [])) :
    ∃ w1 lr1 P1,
      lr.readLine streamReadFull fuel w
        = some (if P ++ w = [] then State.kEof else State.kReading,
                nextPiece lr.mem.length (P ++ w), w1, lr1)
      ∧ Pending lr1 P1
      ∧ P1 ++ w1 = (P ++ w).drop (nextPiece lr.mem.length (P ++ w)).length
      ∧ lr1.mem.length = lr.mem.length
      ∧ (lr1.state_ = State.kReading ∨ (lr1.state_ = State.kEof ∧ w1 = [])) := by
  have hlen := hP.length_le
  have hPn : P.length ≤ lr.mem.length := by omega
  have hwf : (streamReadFull w lr.fd_ (lr.mem.length - P.length)).1.WellFormed
      (lr.mem.length - P.length) := by
    refine ⟨?_, Or.inr rfl⟩
    simp only [streamReadFull, List.length_take]
    omega
  obtain ⟨st, line, w1, lr1, V, hrun, hline, hpend, hmlen, _, _, hstv, hnil, hcase⟩ :=
    readLine_step streamReadFull fuel w lr P hf hP hbuf hwf
  have hT : (P ++ w).take lr.mem.length = P ++ w.take (lr.mem.length - P.length) := by
    rw [List.take_append_eq_append_take, List.take_of_length_le hPn]
  -- the line is the next piece, and what is left is the rest of the stream
  have key : line = nextPiece lr.mem.length (P ++ w)
      ∧ V.drop (V.indexOf newlineChar + 1) ++ w1 = (P ++ w).drop line.length
      ∧ (lr1.state_ = State.kReading ∨ (lr1.state_ = State.kEof ∧ w1 = [])) := by
    rcases hcase with ⟨hV, hw1, hs1, hwhy⟩ | ⟨hnl, hrd, hnf, hV, hw1, hs1⟩
    · subst hV hw1
      have hl2 : line.length ≤ V.length := by rw [hline, List.length_take]; omega
      refine ⟨?_, ?_, by rw [hs1]; exact hst⟩
      · rw [hline]
        unfold nextPiece
        rw [hT]
        rcases hwhy with h1 | h2 | h3
        · have hlt : V.indexOf newlineChar < V.length := List.indexOf_lt_length.2 h1
          rw [List.indexOf_append_of_mem h1, List.take_append_of_le_length (by omega)]
        · rcases hst with h | ⟨_, hw⟩
          · exact absurd h h2
          · subst hw; simp
        · rw [h3]; simp
      · rw [drop_indexOf_eq_drop_length, ← hline, List.drop_append_of_le_length hl2]
    · have hV2 : V = P ++ w.take (lr.mem.length - P.length) := by
        rw [hV]
        have : ¬ ((streamReadFull w lr.fd_ (lr.mem.length - P.length)).1.n < 0) := by
          simp only [streamReadFull, not_lt]
          exact Int.ofNat_nonneg _
        rw [if_neg this]
        rfl
      have hl2 : line.length ≤ V.length := by rw [hline, List.length_take]; omega
      have hsplit : P ++ w = V ++ w1 := by
        rw [hV2, hw1]
        simp only [streamReadFull, List.append_assoc, List.take_append_drop]
      refine ⟨?_, ?_, ?_⟩
      · rw [hline]
        unfold nextPiece
        rw [hT, ← hV2]
      · rw [drop_indexOf_eq_drop_length, ← hline, hsplit, List.drop_append_of_le_length hl2]
      · rw [hs1, hw1]
        simp only [streamReadFull, List.length_take]
        have hneg : ¬ (((min (lr.mem.length - P.length) w.length : Nat) : Int) < 0) := by
          simp
        rw [if_neg hneg]
        by_cases hshort : ((min (lr.mem.length - P.length) w.length : Nat) : Int)
            < ((lr.mem.length - P.length : Nat) : Int)
        · right
          rw [if_pos hshort]
          refine ⟨rfl, List.drop_of_length_le ?_⟩
          have : min (lr.mem.length - P.length) w.length < lr.mem.length - P.length := by
            exact_mod_cast hshort
          omega
        · left
          rw [if_neg hshort]
  obtain ⟨hk1, hk2, hk3⟩ := key
  refine ⟨w1, lr1, _, ?_, hpend, ?_, hmlen, hk3⟩
  · rw [hrun, hstv, hk1]
    by_cases hrem : P ++ w = []
    · have hnp : nextPiece lr.mem.length (P ++ w) = [] := by rw [hrem]; exact nextPiece_nil _
      have hs : lr1.state_ = State.kEof := by
        have h1 := hnil (by rw [hk1]; exact hnp)
        rcases hk3 with h | ⟨h, _⟩
        · exact absurd h h1
        · exact h
      simp [hrem, hs, nextPiece_nil]
    · have hnp := nextPiece_ne_nil lr.mem.length hbuf (P ++ w) hrem
      simp only [hrem, if_false, ne_eq, hnp, not_false_eq_true, if_true]
  · rw [hk2, hk1]


/-! ## Successive calls of `readLine` -/

theorem pending_new (fd : Int) (buf : List UInt8) : Pending (LineReader.new fd buf) [] :=
  ⟨[], buf, rfl, rfl, rfl⟩

theorem readLines_stream (fuel : Nat) (hf : 2 ≤ fuel) (n : Nat) (hn : 0 < n) :
    ∀ (calls : Nat) (w : List UInt8) (lr : LineReader) (P : List UInt8),
      Pending lr P → lr.mem.length = n →
      (lr.state_ = State.kReading ∨ (lr.state_ = State.kEof ∧ w = [])) →
      readLines streamReadFull fuel calls w lr
        = some (expectedCalls (referenceSplit n (P ++ w)) calls) := by
  intro calls
  induction calls with
  | zero =>
    intro w lr P _ _ _
    cases referenceSplit n (P ++ w) <;> rfl
  | succ c ih =>
    intro w lr P hP hlen hst
    obtain ⟨w1, lr1, P1, hrun, hP1, hrest, hlen1, hst1⟩ :=
      readLine_stream fuel w lr P hf hP (by omega) hst
    rw [hlen] at hrun hrest hlen1
    rw [readLines, hrun]
    simp only
    rw [ih w1 lr1 P1 hP1 hlen1 hst1, hrest]
    by_cases hrem : P ++ w = []
    · simp [hrem, nextPiece_nil, referenceSplit_nil, expectedCalls]
    · rw [referenceSplit_cons n hn _ hrem]
      simp [hrem, expectedCalls]

theorem referenceSplit_flatten (n : Nat) (hn : 0 < n) :
    ∀ (k : Nat) (s : List UInt8), s.length ≤ k →
      (referenceSplit n s).flatten = s ∧ (referenceSplit n s).length ≤ s.length := by
  intro k
  induction k with
  | zero =>
    intro s hs
    have : s = [] := List.length_eq_zero.1 (by omega)
    subst this
    exact ⟨rfl, le_refl _⟩
  | succ k ih =>
    intro s hs
    by_cases hnil : s = []
    · subst hnil
      exact ⟨rfl, le_refl _⟩
    · have hne := nextPiece_ne_nil n hn s hnil
      have hpos : 0 < (nextPiece n s).length := List.length_pos.2 hne
      have hdl : (s.drop (nextPiece n s).length).length ≤ k := by
        rw [List.length_drop]; omega
      obtain ⟨h1, h2⟩ := ih _ hdl
      rw [referenceSplit_cons n hn s hnil]
      refine ⟨?_, ?_⟩
      · rw [List.flatten_cons, h1]
        exact nextPiece_prefix n s
      · rw [List.length_cons]
        rw [List.length_drop] at h2
        have : 0 < s.length := List.length_pos.2 hnil
        omega

theorem drain_stream (fuel : Nat) (hf : 2 ≤ fuel) (n : Nat) (hn : 0 < n) :
    ∀ (calls : Nat) (w : List UInt8) (lr : LineReader) (P : List UInt8),
      Pending lr P → lr.mem.length = n →
      (lr.state_ = State.kReading ∨ (lr.state_ = State.kEof ∧ w = [])) →
      (referenceSplit n (P ++ w)).length < calls →
      drain streamReadFull fuel calls w lr = some (referenceSplit n (P ++ w) ++ [[]]) := by
  intro calls
  induction calls with
  | zero => intro w lr P _ _ _ h; omega
  | succ c ih =>
    intro w lr P hP hlen hst hc
    obtain ⟨w1, lr1, P1, hrun, hP1, hrest, hlen1, hst1⟩ :=
      readLine_stream fuel w lr P hf hP (by omega) hst
    rw [hlen] at hrun hrest hlen1
    rw [drain, hrun]
    by_cases hrem : P ++ w = []
    · simp [hrem, nextPiece_nil, referenceSplit_nil]
    · have hne := nextPiece_ne_nil n hn _ hrem
      rw [referenceSplit_cons n hn _ hrem, List.length_cons] at hc
      rw [← hrest] at hc
      have hgo : (if P ++ w = [] then State.kEof else State.kReading) = State.kReading
          ∨ nextPiece n (P ++ w) ≠ [] := Or.inr hne
      simp only [hgo, if_true]
      rw [ih w1 lr1 P1 hP1 hlen1 hst1 (by omega), hrest, referenceSplit_cons n hn _ hrem]
      rfl

theorem readLine_zero_buf {σ : Type} (rd : σ → Int → Nat → ReadFullResult × σ)
    (fuel : Nat) (w : σ) (fd : Int) :
    (LineReader.new fd []).readLine rd (fuel + 1) w
      = some (State.kReading, [], w, LineReader.new fd []) := by
  rfl

theorem drain_zero_buf {σ : Type} (rd : σ → Int → Nat → ReadFullResult × σ)
    (fuel : Nat) (w : σ) (fd : Int) :
    ∀ calls : Nat, drain rd fuel calls w (LineReader.new fd []) = none := by
  intro calls
  induction calls with
  | zero => rfl
  | succ c ih =>
    cases fuel with
    | zero => rfl
    | succ f =>
      rw [drain, readLine_zero_buf]
      simp only [true_or, if_true, ih]
      rfl


theorem referenceSplit_pieces (n : Nat) (hn : 0 < n) :
    ∀ (k : Nat) (s : List UInt8), s.length ≤ k →
      ∀ p ∈ referenceSplit n s, p ≠ [] ∧ p.length ≤ n := by
  intro k
  induction k with
  | zero =>
    intro s hs
    have : s = [] := List.length_eq_zero.1 (by omega)
    subst this
    intro p hp
    simp [referenceSplit_nil] at hp
  | succ k ih =>
    intro s hs p hp
    by_cases hnil : s = []
    · subst hnil
      simp [referenceSplit_nil] at hp
    · have hne := nextPiece_ne_nil n hn s hnil
      have hpos : 0 < (nextPiece n s).length := List.length_pos.2 hne
      have hdl : (s.drop (nextPiece n s).length).length ≤ k := by
        rw [List.length_drop]; omega
      rw [referenceSplit_cons n hn s hnil, List.mem_cons] at hp
      rcases hp with rfl | hp
      · exact ⟨hne, nextPiece_length_le n s⟩
      · exact ih _ hdl p hp

theorem pending_of_ordered (lr : LineReader) (h1 : lr.eol_ ≤ lr.end_)
    (h2 : lr.end_ ≤ lr.mem.length) :
    Pending lr ((lr.mem.drop lr.eol_).take (lr.end_ - lr.eol_)) := by
  refine ⟨lr.mem.take lr.eol_, (lr.mem.drop lr.eol_).drop (lr.end_ - lr.eol_), ?_, ?_, ?_⟩
  · rw [List.append_assoc, List.take_append_drop, List.take_append_drop]
  · rw [List.length_take]; omega
  · rw [List.length_take, List.length_take, List.length_drop]; omega

/-! ## The claims about `LineReader` -/

/-- C1: on a descriptor whose reads never fail, with a buffer of `bufSize > 0`
bytes, successive `readLine` calls return exactly the pieces of the reference
split, in order and each with `kReading`, and after them only empty lines with
`kEof`; every piece is non-empty and has at most `bufSize` bytes. -/
theorem readLine_yields_reference_split (stream buf : List UInt8) (fd : Int)
    (fuel calls : Nat) (hbuf : 0 < buf.length) (hf : 2 ≤ fuel) :
    readLines streamReadFull fuel calls stream (LineReader.new fd buf)
        = some (expectedCalls (referenceSplit buf.length stream) calls)
      ∧ ∀ p ∈ referenceSplit buf.length stream, p ≠ [] ∧ p.length ≤ buf.length := by
  refine ⟨?_, referenceSplit_pieces buf.length hbuf stream.length stream (le_refl _)⟩
  have h := readLines_stream fuel hf buf.length hbuf calls stream (LineReader.new fd buf) []
    (pending_new fd buf) rfl (Or.inl rfl)
  simpa using h

/-- Witness of C1: the input of `TEST(LineReader, Simple)` with a buffer of 10
bytes and of 80 bytes, and the lines the test expects. -/
theorem readLine_yields_reference_split_witness :
    (0 < (List.replicate 10 (0 : UInt8)).length ∧ 2 ≤ 2)
    ∧ (readLines streamReadFull 2 13 testInput (LineReader.new 3 (List.replicate 10 0))
        = some (expectedCalls
            (referenceSplit (List.replicate 10 (0 : UInt8)).length testInput) 13))
    ∧ expectedCalls (referenceSplit 10 testInput) 13
        = [(State.kReading, bytes "Meow\n"), (State.kReading, bytes "Hello worl"),
           (State.kReading, bytes "d\n"), (State.kReading, bytes "This is a "),
           (State.kReading, bytes "long line."), (State.kReading, bytes " It is lon"),
           (State.kReading, bytes "ger than t"), (State.kReading, bytes "he other l"),
           (State.kReading, bytes "ines.\n"), (State.kReading, bytes "\n"),
           (State.kReading, bytes "Incomplete"), (State.kReading, bytes " last line"),
           (State.kEof, [])]
    ∧ expectedCalls (referenceSplit 80 testInput) 6
        = [(State.kReading, bytes "Meow\n"), (State.kReading, bytes "Hello world\n"),
           (State.kReading,
             bytes "This is a long line. It is longer than the other lines.\n"),
           (State.kReading, bytes "\n"), (State.kReading, bytes "Incomplete last line"),
           (State.kEof, [])] :=
  ⟨⟨by decide, by decide⟩,
   (readLine_yields_reference_split testInput (List.replicate 10 0) 3 2 13
      (by decide) (by decide)).1,
   by decide, by decide⟩


/-- C2, amended to a buffer of `bufSize > 0` bytes: for every reader whose
cursors are in order and every behaviour of `readFull` within its contract, a
`readLine` call returns (two passes of its loop suffice), the returned status
is `kReading` if and only if the line is non-empty, and with an empty line the
status is the reader's stream state, which then is `kEof` or `kError`; the
cursors are in order again after the call. -/
theorem readLine_reading_iff_nonempty {σ : Type}
    (rd : σ → Int → Nat → ReadFullResult × σ) (w : σ) (lr : LineReader) (fuel : Nat)
    (hbuf : 0 < lr.mem.length) (hord : lr.eol_ ≤ lr.end_ ∧ lr.end_ ≤ lr.mem.length)
    (hrd : ∀ (w : σ) (fd : Int) (count : Nat), (rd w fd count).1.WellFormed count)
    (hf : 2 ≤ fuel) :
    ∃ st line w1 lr1,
      lr.readLine rd fuel w = some (st, line, w1, lr1)
      ∧ (st = State.kReading ↔ line ≠ [])
      ∧ (line = [] → st = lr1.state_ ∧ (st = State.kEof ∨ st = State.kError))
      ∧ (lr1.bol_ ≤ lr1.eol_ ∧ lr1.eol_ ≤ lr1.end_ ∧ lr1.end_ ≤ lr1.mem.length
          ∧ lr1.mem.length = lr.mem.length) := by
  obtain ⟨st, line, w1, lr1, V, hrun, _, hpend, hmlen, _, heol, hstv, hnil, _⟩ :=
    readLine_step rd fuel w lr _ hf (pending_of_ordered lr hord.1 hord.2) hbuf (hrd _ _ _)
  have hl := hpend.length_le
  refine ⟨st, line, w1, lr1, hrun, ?_, ?_, ⟨by omega, hl.1, hl.2.1, hmlen⟩⟩
  · by_cases h : line = []
    · have := hnil h
      simp [hstv, h, this]
    · simp [hstv, h]
  · intro h
    have hne := hnil h
    rw [hstv, if_neg (by simp [h])]
    refine ⟨rfl, ?_⟩
    cases hs : lr1.state_ with
    | kReading => exact absurd hs hne
    | kEof => exact Or.inl rfl
    | kError => exact Or.inr rfl

/-- Witness of C2: the first call of the test, buffer of 10 bytes. -/
theorem readLine_reading_iff_nonempty_witness :
    ∃ st line w1 lr1,
      (LineReader.new 3 (List.replicate 10 0)).readLine streamReadFull 2 testInput
        = some (st, line, w1, lr1)
      ∧ (st = State.kReading ↔ line ≠ [])
      ∧ (line = [] → st = lr1.state_ ∧ (st = State.kEof ∨ st = State.kError))
      ∧ (lr1.bol_ ≤ lr1.eol_ ∧ lr1.eol_ ≤ lr1.end_ ∧ lr1.end_ ≤ lr1.mem.length
          ∧ lr1.mem.length = (LineReader.new 3 (List.replicate 10 0)).mem.length) :=
  readLine_reading_iff_nonempty streamReadFull testInput
    (LineReader.new 3 (List.replicate 10 0)) 2 (by decide) (by decide)
    (fun w _ count => ⟨by simp [streamReadFull], Or.inr rfl⟩) (by decide)

/-- Counterexample to C2 as stated: with a buffer of 0 bytes the first call
returns `kReading` with an empty line. -/
theorem readLine_zero_buffer_reading_empty :
    (LineReader.new 3 []).readLine streamReadFull 2 testInput
      = some (State.kReading, [], testInput, LineReader.new 3 []) := by
  rfl

/-- C3, amended to a buffer of `bufSize > 0` bytes: on a descriptor whose reads
never fail, the caller's loop "call `readLine` while the status is `kReading`
or the line is non-empty" stops within `stream.length + 1` calls, and the
lines it was given, concatenated, are the stream's bytes. -/
theorem drain_concatenates_to_stream (stream buf : List UInt8) (fd : Int) (fuel : Nat)
    (hbuf : 0 < buf.length) (hf : 2 ≤ fuel) :
    ∃ lines,
      (∀ calls, stream.length < calls →
        drain streamReadFull fuel calls stream (LineReader.new fd buf) = some lines)
      ∧ lines.flatten = stream := by
  obtain ⟨hflat, hcount⟩ :=
    referenceSplit_flatten buf.length hbuf stream.length stream (le_refl _)
  refine ⟨referenceSplit buf.length stream ++ [[]], ?_, by simp [hflat]⟩
  intro calls hc
  have h := drain_stream fuel hf buf.length hbuf calls stream (LineReader.new fd buf) []
    (pending_new fd buf) rfl (Or.inl rfl) (by simpa using (by omega))
  simpa using h

/-- Witness of C3: the input of the test with a buffer of 10 bytes. -/
theorem drain_concatenates_to_stream_witness :
    (0 < (List.replicate 10 (0 : UInt8)).length ∧ 2 ≤ 2)
    ∧ ∃ lines,
        (∀ calls, testInput.length < calls →
          drain streamReadFull 2 calls testInput (LineReader.new 3 (List.replicate 10 0))
            = some lines)
        ∧ lines.flatten = testInput :=
  ⟨⟨by decide, by decide⟩,
   drain_concatenates_to_stream testInput (List.replicate 10 0) 3 2 (by decide) (by decide)⟩

/-- Counterexample to C3 as stated: with a buffer of 0 bytes the caller's loop
never stops, whatever number of calls it is allowed. -/
theorem drain_zero_buffer_never_stops :
    ¬ ∃ calls lines,
        drain streamReadFull 2 calls testInput (LineReader.new 3 []) = some lines := by
  rintro ⟨calls, lines, h⟩
  rw [drain_zero_buf] at h
  exact Option.noConfusion h


/-! ## `wrapNoInt`, `closeNoInt` and `File` -/

theorem wrapNoInt_run {σ : Type} (f : σ → Ret × σ) :
    ∀ (k fuel : Nat) (w : σ),
      (∀ i, i < k → (f (afterCalls f i w)).1.interrupted) →
      ¬ (f (afterCalls f k w)).1.interrupted → k < fuel →
      wrapNoInt f fuel w = some (f (afterCalls f k w)) := by
  intro k
  induction k with
  | zero =>
    intro fuel w _ hlast hf
    obtain ⟨g, rfl⟩ : ∃ g, fuel = g + 1 := ⟨fuel - 1, by omega⟩
    have h : ¬ ((f w).1.r = -1 ∧ (f w).1.errno = EINTR) := hlast
    simp only [wrapNoInt, afterCalls, if_neg h]
  | succ k ih =>
    intro fuel w hint hlast hf
    obtain ⟨g, rfl⟩ : ∃ g, fuel = g + 1 := ⟨fuel - 1, by omega⟩
    have h0 : (f w).1.r = -1 ∧ (f w).1.errno = EINTR := hint 0 (by omega)
    simp only [wrapNoInt, if_pos h0, afterCalls]
    exact ih g (f w).2 (fun i hi => hint (i + 1) (by omega)) hlast (by omega)

/-- C7: when the first `k` calls of the wrapped syscall are interrupted (return
`-1` with `errno == EINTR`) and the next one is not, `wrapNoInt` returns the
result of that call, return value and `errno` unchanged, and leaves the world
as it is after exactly `k + 1` calls; with fewer than `k + 1` calls allowed
it has not returned. -/
theorem wrapNoInt_returns_first_uninterrupted {σ : Type} (f : σ → Ret × σ) (w : σ)
    (k fuel : Nat)
    (hint : ∀ i, i < k → (f (afterCalls f i w)).1.interrupted)
    (hlast : ¬ (f (afterCalls f k w)).1.interrupted) :
    (k < fuel → wrapNoInt f fuel w
        = some ((f (afterCalls f k w)).1, afterCalls f (k + 1) w))
    ∧ (fuel ≤ k → wrapNoInt f fuel w = none) := by
  refine ⟨fun hf => ?_, ?_⟩
  · rw [wrapNoInt_run f k fuel w hint hlast hf]
    have : ∀ (j : Nat) (v : σ), afterCalls f (j + 1) v = (f (afterCalls f j v)).2 := by
      intro j
      induction j with
      | zero => intro v; rfl
      | succ j ih => intro v; exact ih (f v).2
    rw [this]
  · clear hlast
    induction fuel generalizing k w with
    | zero => intro _; rfl
    | succ g ih =>
      intro hf
      have h0 : (f w).1.r = -1 ∧ (f w).1.errno = EINTR := hint 0 (by omega)
      simp only [wrapNoInt, if_pos h0]
      exact ih (f w).2 (k - 1) (fun i hi => by
        have := hint (i + 1) (by omega)
        exact this) (by omega)

/-- Witness of C7: two interruptions, then the value 7 after three calls. -/
theorem wrapNoInt_returns_first_uninterrupted_witness :
    (5 > 2 → wrapNoInt twiceInterrupted 5 0 = some ({ r := 7, errno := 0 }, 3))
    ∧ (2 ≤ 2 → wrapNoInt twiceInterrupted 2 0 = none) :=
  ⟨(wrapNoInt_returns_first_uninterrupted twiceInterrupted 0 2 5
      (by decide) (by decide)).1,
   (wrapNoInt_returns_first_uninterrupted twiceInterrupted 0 2 2
      (by decide) (by decide)).2⟩

/-- C8: `closeNoInt` issues `close(fd)` exactly once, whatever its outcome; it
returns 0 when `close` succeeds or fails with `EINTR` and `-1` when `close`
fails with another error. -/
theorem closeNoInt_closes_once (s : Sys) (fd : Int) :
    (closeNoInt s fd).2.closed = s.closed ++ [fd]
    ∧ (closeNoInt s fd).1
        = (match s.closeOutcome s.closed.length with
           | none => 0
           | some e => if e = EINTR then 0 else -1) := by
  unfold closeNoInt Sys.close filterCloseReturn
  cases h : s.closeOutcome s.closed.length with
  | none => simp
  | some e =>
    by_cases he : e = EINTR
    · simp [he]
    · simp [he]

theorem File.call_empty (op : FileOp) (s : Sys) :
    File.call op File.empty s = (true, File.empty, s) := by
  cases op <;> rfl

theorem File.call_handle (op : FileOp) (f : File) (s : Sys) :
    (File.call op f s).2.1 = File.empty := by
  cases op
  · simp only [File.call, File.close, File.closeNoThrow, File.release, File.empty]
    split <;> split <;> rfl
  · rfl
  · rfl

theorem File.calls_empty (ops : List FileOp) (s : Sys) :
    File.calls ops File.empty s = (File.empty, s) := by
  induction ops with
  | nil => rfl
  | cons op ops ih => simp only [File.calls, File.call_empty, ih]

theorem File.destroy_closed (f : File) (s : Sys) :
    (f.destroy s).2.closed = s.closed ++ (if f.ownsFd_ = true then [f.fd_] else []) := by
  unfold File.destroy File.closeNoThrow Sys.close
  cases ho : f.ownsFd_
  · simp
  · cases hc : s.closeOutcome s.closed.length <;> simp

theorem File.call_closed (op : FileOp) (f : File) (s : Sys) :
    (File.call op f s).2.2.closed
      = s.closed ++ (if f.ownsFd_ = true ∧ op ≠ FileOp.release then [f.fd_] else []) := by
  cases op
  · unfold File.call File.close File.closeNoThrow Sys.close
    cases ho : f.ownsFd_
    · simp
    · cases hc : s.closeOutcome s.closed.length <;> simp
  · unfold File.call File.closeNoThrow Sys.close
    cases ho : f.ownsFd_
    · simp
    · cases hc : s.closeOutcome s.closed.length <;> simp
  · simp [File.call]

/-- C9: for a handle made by `File(d, ownsFd)` and any sequence of `close`,
`closeNoThrow` and `release` calls followed by its destruction, the `close`
syscalls issued are: none when the handle does not own `d`; none when it owns
`d` and the first call is `release`; otherwise exactly one, `close(d)`. -/
theorem File_closes_owned_descriptor_once (d : Int) (owns : Bool) (f : File)
    (ops : List FileOp) (s : Sys) (hf : File.wrap d owns = some f) :
    (File.lifetime ops f s).closed
      = s.closed ++ (if owns = true ∧ releasedFirst ops = false then [d] else []) := by
  have hfd : f = { fd_ := d, ownsFd_ := owns } := by
    unfold File.wrap at hf
    split at hf
    · exact (Option.some.inj hf).symm
    · exact Option.noConfusion hf
  subst hfd
  cases ops with
  | nil =>
    simp only [File.lifetime, File.calls, File.destroy_closed, releasedFirst, and_true]
  | cons op ops =>
    simp only [File.lifetime, File.calls]
    have h1 := File.call_handle op { fd_ := d, ownsFd_ := owns } s
    have h2 := File.call_closed op { fd_ := d, ownsFd_ := owns } s
    rw [h1, File.calls_empty, File.destroy_closed, h2]
    cases op <;> simp [releasedFirst, File.empty]

/-- Witness of C9: an owning handle on descriptor 5, closed twice, then
destroyed: one `close(5)`. -/
theorem File_closes_owned_descriptor_once_witness :
    File.wrap 5 true = some { fd_ := 5, ownsFd_ := true }
    ∧ (File.lifetime [FileOp.close, FileOp.closeNoThrow] { fd_ := 5, ownsFd_ := true }
        { errno := 0, closeOutcome := fun _ => some EBADF, closed := [] }).closed = [5] :=
  ⟨by decide,
   File_closes_owned_descriptor_once 5 true { fd_ := 5, ownsFd_ := true }
     [FileOp.close, FileOp.closeNoThrow]
     { errno := 0, closeOutcome := fun _ => some EBADF, closed := [] } (by decide)⟩

/-- C10: whatever the handle holds and whatever the `close` syscall answers,
after `close()` or `closeNoThrow()` (or `release()`) the handle is empty,
`fd() == -1` and not owning; a following `close()` or `closeNoThrow()` reports
success, leaves the handle empty and leaves the world as it was, issuing no
`close` syscall. -/
theorem File_close_idempotent (f : File) (s : Sys) (op1 op2 : FileOp) :
    (File.call op1 f s).2.1 = File.empty
    ∧ (File.call op1 f s).2.1.fd = -1
    ∧ (File.call op1 f s).2.1.ownsFd_ = false
    ∧ File.call op2 (File.call op1 f s).2.1 (File.call op1 f s).2.2
        = (true, File.empty, (File.call op1 f s).2.2) := by
  have h := File.call_handle op1 f s
  refine ⟨h, by rw [h]; rfl, by rw [h]; rfl, ?_⟩
  rw [h, File.call_empty]


/-! ## `wrapFull` -/

theorem incr_zero (offset : Option Int) : incr 0 offset = offset := by
  cases offset <;> simp [incr]

theorem incr_incr (a b : Int) (offset : Option Int) :
    incr b (incr a offset) = incr (a + b) offset := by
  cases offset
  · rfl
  · simp only [incr, Option.some.injEq]
    omega

theorem fullRunEnd_cons_zero (total : Int) (count : Nat) (v : Int) (c : IoCall)
    (calls : List IoCall) (hc : ¬ c.out.hardFailure) (h0 : c.transferred = 0)
    (h : FullRunEnd total count v calls) : FullRunEnd total count v (c :: calls) := by
  obtain ⟨h1, h2⟩ := h
  refine ⟨?_, ?_⟩
  · rintro ⟨x, hx, hh⟩
    rw [List.mem_cons] at hx
    rcases hx with rfl | hx
    · exact absurd hh hc
    · exact h1 ⟨x, hx, hh⟩
  · intro hno
    have hno1 : ¬ ∃ x ∈ calls, x.out.hardFailure := by
      rintro ⟨x, hx, hh⟩
      exact hno ⟨x, List.mem_cons_of_mem _ hx, hh⟩
    obtain ⟨e1, e2, e3⟩ := h2 hno1
    have hT : totalTransferred (c :: calls) = totalTransferred calls := by
      simp [totalTransferred, h0]
    rw [hT]
    refine ⟨e1, e2, ?_⟩
    rcases e3 with e3 | ⟨x, hx, m, hm⟩
    · exact Or.inl e3
    · exact Or.inr ⟨x, List.mem_cons_of_mem _ hx, m, hm⟩

theorem fullRunEnd_cons_ok (total : Int) (count : Nat) (v : Int) (c : IoCall)
    (calls : List IoCall) (hc : ¬ c.out.hardFailure) (hle : c.transferred ≤ count)
    (h : FullRunEnd (total + (c.transferred : Nat)) (count - c.transferred) v calls) :
    FullRunEnd total count v (c :: calls) := by
  obtain ⟨h1, h2⟩ := h
  refine ⟨?_, ?_⟩
  · rintro ⟨x, hx, hh⟩
    rw [List.mem_cons] at hx
    rcases hx with rfl | hx
    · exact absurd hh hc
    · exact h1 ⟨x, hx, hh⟩
  · intro hno
    have hno1 : ¬ ∃ x ∈ calls, x.out.hardFailure := by
      rintro ⟨x, hx, hh⟩
      exact hno ⟨x, List.mem_cons_of_mem _ hx, hh⟩
    obtain ⟨e1, e2, e3⟩ := h2 hno1
    have hT : totalTransferred (c :: calls) = c.transferred + totalTransferred calls := by
      simp [totalTransferred]
    rw [hT]
    refine ⟨?_, by omega, ?_⟩
    · rw [e1]; push_cast; omega
    · rcases e3 with e3 | ⟨x, hx, j, hj⟩
      · left; omega
      · exact Or.inr ⟨x, List.mem_cons_of_mem _ hx, j, hj⟩

theorem fullRunEnd_single (total : Int) (count : Nat) (c : IoCall)
    (hc : ¬ c.out.hardFailure) (hle : c.transferred ≤ count)
    (hstop : c.transferred = count ∨ ∃ k, c.out = Outcome.ok k ∧ c.transferred = 0) :
    FullRunEnd total count (total + (c.transferred : Nat)) [c] := by
  refine ⟨?_, ?_⟩
  · rintro ⟨x, hx, hh⟩
    rw [List.mem_singleton] at hx
    subst hx
    exact absurd hh hc
  · intro _
    have hT : totalTransferred [c] = c.transferred := by simp [totalTransferred]
    rw [hT]
    refine ⟨rfl, hle, ?_⟩
    rcases hstop with h | ⟨k, hk, h0⟩
    · exact Or.inl h
    · exact Or.inr ⟨c, List.mem_singleton.2 rfl, k, hk, h0⟩

/-- Every run of `wrapFull` that returns: the calls it issued and how it ended. -/
theorem wrapFull_safe :
    ∀ (fuel : Nat) (k : Kernel) (b count : Nat) (offset : Option Int) (total v : Int)
      (k1 : Kernel),
      wrapFull Kernel.io fuel k b count offset total = some (v, k1) →
      ∃ calls,
        k1.log = k.log ++ calls
        ∧ OfferedChain b count offset calls
        ∧ FullRunEnd total count v calls := by
  intro fuel
  induction fuel with
  | zero => intro k b count offset total v k1 h; simp [wrapFull] at h
  | succ g ih =>
    intro k b count offset total v k1 hrun
    cases ho : k.oracle k.log.length with
    | fail e =>
      by_cases he : e = EINTR
      · subst he
        by_cases hc : count = 0
        · subst hc
          simp only [wrapFull, Kernel.io, ho, Outcome.ret, if_true, ne_eq, not_true_eq_false,
            if_false, Option.some.injEq, Prod.mk.injEq] at hrun
          obtain ⟨rfl, rfl⟩ := hrun
          refine ⟨[IoCall.mk b 0 offset (Outcome.fail EINTR)], rfl, by simp [OfferedChain], ?_⟩
          have := fullRunEnd_single total 0 (IoCall.mk b 0 offset (Outcome.fail EINTR))
            (by simp [Outcome.hardFailure]) (Nat.zero_le _) (Or.inl rfl)
          simpa [IoCall.transferred, Outcome.transferred] using this
        · simp only [wrapFull, Kernel.io, ho, Outcome.ret, if_true, ne_eq, hc,
            not_false_eq_true] at hrun
          obtain ⟨calls, hlog, hchain, hend⟩ := ih _ _ _ _ _ _ _ hrun
          refine ⟨IoCall.mk b count offset (Outcome.fail EINTR) :: calls, ?_, ?_, ?_⟩
          · rw [hlog]; simp
          · simp only [OfferedChain, IoCall.transferred, Outcome.transferred, Nat.add_zero,
              Nat.sub_zero, Nat.cast_zero, incr_zero, true_and]
            exact hchain
          · exact fullRunEnd_cons_zero _ _ _ _ _ (by simp [Outcome.hardFailure]) rfl hend
      · simp only [wrapFull, Kernel.io, ho, Outcome.ret, if_true, he, if_false,
          Option.some.injEq, Prod.mk.injEq] at hrun
        obtain ⟨rfl, rfl⟩ := hrun
        refine ⟨[IoCall.mk b count offset (Outcome.fail e)], rfl, by simp [OfferedChain], ?_⟩
        refine ⟨fun _ => rfl, ?_⟩
        intro hno
        exact absurd ⟨_, List.mem_singleton.2 rfl, he⟩ hno
    | ok m =>
      have hr1 : ¬ (((min m count : Nat) : Int) = -1) := by omega
      have htr : (IoCall.mk b count offset (Outcome.ok m)).transferred = min m count := rfl
      by_cases hgo : (((min m count : Nat) : Int) ≠ 0) ∧ count - min m count ≠ 0
      · simp only [wrapFull, Kernel.io, ho, Outcome.ret, hr1, if_false,
          Int.toNat_ofNat] at hrun
        rw [if_pos hgo] at hrun
        obtain ⟨calls, hlog, hchain, hend⟩ := ih _ _ _ _ _ _ _ hrun
        refine ⟨IoCall.mk b count offset (Outcome.ok m) :: calls, ?_, ?_, ?_⟩
        · rw [hlog]; simp
        · simp only [OfferedChain, htr, true_and]
          exact hchain
        · exact fullRunEnd_cons_ok _ _ _ _ _ (by simp [Outcome.hardFailure])
            (by rw [htr]; exact Nat.min_le_right _ _) (by rw [htr]; exact hend)
      · simp only [wrapFull, Kernel.io, ho, Outcome.ret, hr1, if_false,
          Int.toNat_ofNat] at hrun
        rw [if_neg hgo] at hrun
        simp only [Option.some.injEq, Prod.mk.injEq] at hrun
        obtain ⟨rfl, rfl⟩ := hrun
        refine ⟨[IoCall.mk b count offset (Outcome.ok m)], rfl, by simp [OfferedChain], ?_⟩
        have := fullRunEnd_single total count (IoCall.mk b count offset (Outcome.ok m))
          (by simp [Outcome.hardFailure]) (by rw [htr]; exact Nat.min_le_right _ _)
          (by
            rw [htr]
            by_cases h0 : min m count = 0
            · exact Or.inr ⟨m, rfl, h0⟩
            · left
              have h1 : ((min m count : Nat) : Int) ≠ 0 := by exact_mod_cast h0
              have : ¬ (count - min m count ≠ 0) := fun h => hgo ⟨h1, h⟩
              omega)
        rw [htr] at this
        exact this

/-- A run of `wrapFull` returns once the interruptions have come to an end and
it is allowed one call more than there are interruptions and bytes. -/
theorem wrapFull_live (K : Nat) :
    ∀ (fuel : Nat) (k : Kernel) (b count : Nat) (offset : Option Int) (total : Int),
      (∀ i, K ≤ i → k.oracle i ≠ Outcome.fail EINTR) →
      (K - k.log.length) + count + 1 ≤ fuel →
      (wrapFull Kernel.io fuel k b count offset total).isSome = true := by
  intro fuel
  induction fuel with
  | zero => intro k b count offset total _ hf; omega
  | succ g ih =>
    intro k b count offset total hK hf
    cases ho : k.oracle k.log.length with
    | fail e =>
      by_cases he : e = EINTR
      · subst he
        have hlt : k.log.length < K := by
          by_contra h
          exact hK k.log.length (by omega) ho
        by_cases hc : count = 0
        · simp [wrapFull, Kernel.io, ho, Outcome.ret, hc]
        · simp only [wrapFull, Kernel.io, ho, Outcome.ret, if_true, ne_eq, hc,
            not_false_eq_true]
          exact ih (Kernel.mk k.oracle EINTR
              (k.log ++ [IoCall.mk b count offset (Outcome.fail EINTR)]))
            b count offset total hK
            (by simp only [List.length_append, List.length_singleton]; omega)
      · simp [wrapFull, Kernel.io, ho, Outcome.ret, he]
    | ok m =>
      have hr1 : ¬ (((min m count : Nat) : Int) = -1) := by omega
      simp only [wrapFull, Kernel.io, ho, Outcome.ret, hr1, if_false, Int.toNat_ofNat]
      by_cases hgo : (((min m count : Nat) : Int) ≠ 0) ∧ count - min m count ≠ 0
      · have h0 : min m count ≠ 0 := by exact_mod_cast hgo.1
        rw [if_pos hgo]
        exact ih (Kernel.mk k.oracle k.errno
            (k.log ++ [IoCall.mk b count offset (Outcome.ok m)]))
          (b + min m count) (count - min m count) (incr ((min m count : Nat) : Int) offset)
          (total + ((min m count : Nat) : Int)) hK
          (by simp only [List.length_append, List.length_singleton]; omega)
      · rw [if_neg hgo]
        rfl

theorem offeredChain_index :
    ∀ (calls : List IoCall) (b count : Nat) (offset : Option Int),
      OfferedChain b count offset calls →
      ∀ (i : Nat) (c : IoCall), calls[i]? = some c →
        c.b = b + totalTransferred (calls.take i)
        ∧ c.count = count - totalTransferred (calls.take i)
        ∧ c.offset = incr (totalTransferred (calls.take i) : Nat) offset := by
  intro calls
  induction calls with
  | nil => intro b count offset _ i c h; simp at h
  | cons x xs ih =>
    intro b count offset hch i c h
    obtain ⟨h1, h2, h3, h4⟩ := hch
    cases i with
    | zero =>
      simp at h
      subst h
      simp [totalTransferred, h1, h2, h3, incr_zero]
    | succ j =>
      simp at h
      obtain ⟨e1, e2, e3⟩ := ih _ _ _ h4 j c h
      have hT : totalTransferred ((x :: xs).take (j + 1))
          = x.transferred + totalTransferred (xs.take j) := by
        simp [totalTransferred]
      rw [hT]
      refine ⟨by omega, by omega, ?_⟩
      rw [e3, incr_incr]
      push_cast
      rfl


/-! ## `wrapvFull` -/

theorem iovec_bytes_length (mem : Nat → UInt8) (e : iovec) :
    (e.bytes mem).length = e.iov_len := by
  simp [iovec.bytes]

theorem iovec_bytes_drop (mem : Nat → UInt8) (e : iovec) (r : Nat) :
    (iovec.bytes mem e).drop r
      = iovec.bytes mem { iov_base := e.iov_base + r, iov_len := e.iov_len - r } := by
  apply List.ext_getElem
  · simp [iovec.bytes]
  · intro i h1 h2
    simp only [iovec.bytes, List.getElem_drop, List.getElem_map, List.getElem_range]
    congr 1
    omega

theorem iovBytes_cons (mem : Nat → UInt8) (e : iovec) (rest : List iovec) :
    iovBytes mem (e :: rest) = e.bytes mem ++ iovBytes mem rest := by
  simp [iovBytes]

theorem iovLen_cons (e : iovec) (rest : List iovec) :
    iovLen (e :: rest) = e.iov_len + iovLen rest := by
  simp [iovLen]

theorem iovLen_take_le (iov : List iovec) (n : Nat) : iovLen (iov.take n) ≤ iovLen iov := by
  induction iov generalizing n with
  | nil => simp [iovLen]
  | cons e rest ih =>
    cases n with
    | zero => simp [iovLen]
    | succ m =>
      rw [List.take_succ_cons, iovLen_cons, iovLen_cons]
      have := ih m
      omega

theorem advanceHead_zero (iov : List iovec) : advanceHead 0 iov = iov := by
  cases iov <;> simp [advanceHead]

/-- What the inner loop of `wrapvFull` does to an array with `iov.length`
entries after a transfer of `r` bytes, `r` at most the total length. -/
theorem advanceIov_spec :
    ∀ (iov : List iovec) (r : Nat), r ≤ iovLen iov →
      ∃ iov1 j p,
        advanceIov iov iov.length r = some (iov1, iov1.length)
        ∧ (∀ mem : Nat → UInt8, iovBytes mem iov1 = (iovBytes mem iov).drop r)
        ∧ iovLen iov1 = iovLen iov - r
        ∧ j ≤ iov.length ∧ iov1.length = iov.length - j
        ∧ iovLen (iov.take j) + p = r
        ∧ iov1 = advanceHead p (iov.drop j)
        ∧ (p = 0 ∨ ∃ e rest, iov.drop j = e :: rest ∧ p < e.iov_len) := by
  intro iov
  induction iov with
  | nil =>
    intro r hr
    have : r = 0 := by simpa [iovLen] using hr
    subst this
    exact ⟨[], 0, 0, by simp [advanceIov], by simp [iovBytes], by simp [iovLen], le_refl _,
      rfl, by simp [iovLen], rfl, Or.inl rfl⟩
  | cons e rest ih =>
    intro r hr
    rw [iovLen_cons] at hr
    by_cases h0 : r = 0
    · subst h0
      exact ⟨e :: rest, 0, 0, by simp [advanceIov], by simp, by simp, Nat.zero_le _, rfl,
        by simp [iovLen], by simp [advanceHead_zero], Or.inl rfl⟩
    · by_cases hge : r ≥ e.iov_len
      · obtain ⟨iov1, j, p, hrun, hbytes, hlen, hj, hl1, hsum, hstruct, hp⟩ :=
          ih (r - e.iov_len) (by omega)
        refine ⟨iov1, j + 1, p, ?_, ?_, ?_, ?_, ?_, ?_, ?_, ?_⟩
        · simp only [advanceIov, List.length_cons, ne_eq, h0, not_false_eq_true,
            Nat.add_one_ne_zero, and_self, if_true, hge, Nat.add_sub_cancel]
          exact hrun
        · intro mem
          have hd : (iovec.bytes mem e).drop r = [] :=
            List.drop_of_length_le (by rw [iovec_bytes_length]; exact hge)
          rw [hbytes mem, iovBytes_cons, List.drop_append_eq_append_drop, iovec_bytes_length,
            hd, List.nil_append]
        · rw [hlen, iovLen_cons]; clear hp; omega
        · simp only [List.length_cons]; clear hp; omega
        · simp only [List.length_cons]; clear hp; omega
        · rw [List.take_succ_cons, iovLen_cons]; clear hp; omega
        · simpa using hstruct
        · simpa using hp
      · refine ⟨{ iov_base := e.iov_base + r, iov_len := e.iov_len - r } :: rest, 0, r,
          ?_, ?_, ?_, ?_, ?_, ?_, ?_, ?_⟩
        · simp only [advanceIov, List.length_cons, ne_eq, h0, not_false_eq_true,
            Nat.add_one_ne_zero, and_self, if_true, hge, if_false]
        · intro mem
          rw [iovBytes_cons, iovBytes_cons, List.drop_append_of_le_length
            (by rw [iovec_bytes_length]; omega), iovec_bytes_drop]
        · rw [iovLen_cons, iovLen_cons]
          simp only
          omega
        · exact Nat.zero_le _
        · rfl
        · simp [iovLen]
        · rfl
        · exact Or.inr ⟨e, rest, rfl, by omega⟩

/-- Every run of `wrapvFull` on an array of `iov.length` entries that returns:
the calls it issued. -/
theorem wrapvFull_safe :
    ∀ (fuel : Nat) (k : VKernel) (iov : List iovec) (offset : Option Int) (total v : Int)
      (k1 : VKernel),
      wrapvFull VKernel.iov fuel k iov iov.length offset total = some (v, k1) →
      ∃ calls, k1.log = k.log ++ calls ∧ IovChain iov offset calls := by
  intro fuel
  induction fuel with
  | zero => intro k iov offset total v k1 h; simp [wrapvFull] at h
  | succ g ih =>
    intro k iov offset total v k1 hrun
    cases ho : k.oracle k.log.length with
    | fail e =>
      by_cases he : e = EINTR
      · subst he
        have hz : (IovCall.mk iov (min iov.length 16) offset
            (Outcome.fail EINTR)).transferred = 0 := rfl
        by_cases hc : iov.length = 0
        · simp only [wrapvFull, VKernel.iov, ho, Outcome.ret, if_true, ne_eq, hc,
            not_true_eq_false, if_false, Option.some.injEq, Prod.mk.injEq] at hrun
          obtain ⟨_, rfl⟩ := hrun
          exact ⟨[IovCall.mk iov (min iov.length 16) offset (Outcome.fail EINTR)],
            by simp [hc], by simp [IovChain]⟩
        · simp only [wrapvFull, VKernel.iov, ho, Outcome.ret, if_true, ne_eq, hc,
            not_false_eq_true] at hrun
          obtain ⟨calls, hlog, hchain⟩ := ih _ _ _ _ _ _ hrun
          refine ⟨IovCall.mk iov (min iov.length 16) offset (Outcome.fail EINTR) :: calls,
            ?_, ?_⟩
          · rw [hlog]; simp
          · refine ⟨rfl, rfl, rfl, Or.inr ⟨iov, ?_, ?_⟩⟩
            · rw [hz]
              cases iov <;> simp [advanceIov]
            · rw [hz]
              simpa [incr_zero] using hchain
      · simp only [wrapvFull, VKernel.iov, ho, Outcome.ret, if_true, he, if_false,
          Option.some.injEq, Prod.mk.injEq] at hrun
        obtain ⟨_, rfl⟩ := hrun
        exact ⟨[IovCall.mk iov (min iov.length 16) offset (Outcome.fail e)], rfl,
          by simp [IovChain]⟩
    | ok m =>
      have hr1 : ¬ (((min m (iovLen (iov.take (min iov.length 16))) : Nat) : Int) = -1) := by
        omega
      have hle : min m (iovLen (iov.take (min iov.length 16))) ≤ iovLen iov :=
        le_trans (Nat.min_le_right _ _) (iovLen_take_le _ _)
      by_cases hz : ((min m (iovLen (iov.take (min iov.length 16))) : Nat) : Int) = 0
      · simp only [wrapvFull, VKernel.iov, ho, Outcome.ret, hr1, if_false, hz, if_true,
          Option.some.injEq, Prod.mk.injEq] at hrun
        obtain ⟨_, rfl⟩ := hrun
        exact ⟨[IovCall.mk iov (min iov.length 16) offset (Outcome.ok m)], rfl,
          by simp [IovChain]⟩
      · obtain ⟨iov1, j, p, hadv, hx1, hlen1, hx2⟩ :=
          advanceIov_spec iov (min m (iovLen (iov.take (min iov.length 16)))) hle
        clear hx1 hx2
        by_cases hc1 : iov1.length = 0
        · simp only [wrapvFull, VKernel.iov, ho, Outcome.ret, hr1, if_false, hz,
            Int.toNat_ofNat, hadv, ne_eq, hc1, not_true_eq_false, Option.some.injEq,
            Prod.mk.injEq] at hrun
          obtain ⟨_, rfl⟩ := hrun
          exact ⟨[IovCall.mk iov (min iov.length 16) offset (Outcome.ok m)], rfl,
            by simp [IovChain]⟩
        · simp only [wrapvFull, VKernel.iov, ho, Outcome.ret, hr1, if_false, hz,
            Int.toNat_ofNat, hadv, ne_eq, hc1, not_false_eq_true, if_true] at hrun
          obtain ⟨calls, hlog, hchain⟩ := ih _ _ _ _ _ _ hrun
          refine ⟨IovCall.mk iov (min iov.length 16) offset (Outcome.ok m) :: calls, ?_, ?_⟩
          · rw [hlog]; simp
          · exact ⟨rfl, rfl, rfl, Or.inr ⟨iov1, hadv, hchain⟩⟩

/-- A run of `wrapvFull` on an array of `iov.length` entries returns once the
interruptions have come to an end and it is allowed one call more than there
are interruptions and bytes. -/
theorem wrapvFull_live (K : Nat) :
    ∀ (fuel : Nat) (k : VKernel) (iov : List iovec) (offset : Option Int) (total : Int),
      (∀ i, K ≤ i → k.oracle i ≠ Outcome.fail EINTR) →
      (K - k.log.length) + iovLen iov + 1 ≤ fuel →
      (wrapvFull VKernel.iov fuel k iov iov.length offset total).isSome = true := by
  intro fuel
  induction fuel with
  | zero => intro k iov offset total _ hf; omega
  | succ g ih =>
    intro k iov offset total hK hf
    cases ho : k.oracle k.log.length with
    | fail e =>
      by_cases he : e = EINTR
      · subst he
        have hlt : k.log.length < K := by
          by_contra h
          exact hK k.log.length (by omega) ho
        by_cases hc : iov.length = 0
        · simp [wrapvFull, VKernel.iov, ho, Outcome.ret, hc]
        · simp only [wrapvFull, VKernel.iov, ho, Outcome.ret, if_true, ne_eq, hc,
            not_false_eq_true]
          exact ih (VKernel.mk k.oracle EINTR
              (k.log ++ [IovCall.mk iov (min iov.length 16) offset (Outcome.fail EINTR)]))
            iov offset total hK
            (by simp only [List.length_append, List.length_singleton]; omega)
      · simp [wrapvFull, VKernel.iov, ho, Outcome.ret, he]
    | ok m =>
      have hr1 : ¬ (((min m (iovLen (iov.take (min iov.length 16))) : Nat) : Int) = -1) := by
        omega
      have hle : min m (iovLen (iov.take (min iov.length 16))) ≤ iovLen iov :=
        le_trans (Nat.min_le_right _ _) (iovLen_take_le _ _)
      by_cases hz : ((min m (iovLen (iov.take (min iov.length 16))) : Nat) : Int) = 0
      · simp only [wrapvFull, VKernel.iov, ho, Outcome.ret, hr1, if_false, hz, if_true]
        rfl
      · obtain ⟨iov1, j, p, hadv, hx1, hlen1, hx2⟩ :=
          advanceIov_spec iov (min m (iovLen (iov.take (min iov.length 16)))) hle
        clear hx1 hx2
        have hz0 : min m (iovLen (iov.take (min iov.length 16))) ≠ 0 := by
          intro h
          exact hz (by exact_mod_cast h)
        by_cases hc1 : iov1.length = 0
        · simp only [wrapvFull, VKernel.iov, ho, Outcome.ret, hr1, if_false, hz,
            Int.toNat_ofNat, hadv, ne_eq, hc1, not_true_eq_false]
          rfl
        · simp only [wrapvFull, VKernel.iov, ho, Outcome.ret, hr1, if_false, hz,
            Int.toNat_ofNat, hadv, ne_eq, hc1, not_false_eq_true, if_true]
          exact ih (VKernel.mk k.oracle k.errno
              (k.log ++ [IovCall.mk iov (min iov.length 16) offset (Outcome.ok m)]))
            iov1 (incr ((min m (iovLen (iov.take (min iov.length 16))) : Nat) : Int) offset)
            (total + ((min m (iovLen (iov.take (min iov.length 16))) : Nat) : Int)) hK
            (by simp only [List.length_append, List.length_singleton]; omega)

theorem iovChain_index :
    ∀ (calls : List IovCall) (iov : List iovec) (offset : Option Int),
      IovChain iov offset calls →
      ∀ (i : Nat) (c : IovCall), calls[i]? = some c →
        c.passed = min c.iov.length 16
        ∧ c.iov.length ≤ iov.length
        ∧ (∀ mem : Nat → UInt8,
            iovBytes mem c.iov = (iovBytes mem iov).drop (totalTransferredV (calls.take i)))
        ∧ c.offset = incr (totalTransferredV (calls.take i) : Nat) offset := by
  intro calls
  induction calls with
  | nil => intro iov offset _ i c h; simp at h
  | cons x xs ih =>
    intro iov offset hch i c h
    obtain ⟨h1, h2, h3, h4⟩ := hch
    cases i with
    | zero =>
      simp at h
      subst h
      subst h1
      refine ⟨h2, le_refl _, fun mem => by simp [totalTransferredV], ?_⟩
      simp [totalTransferredV, h3, incr_zero]
    | succ j =>
      simp at h
      rcases h4 with hnil | ⟨iov1, hadv, hrest⟩
      · subst hnil; simp at h
      · have hle : x.transferred ≤ iovLen iov := by
          unfold IovCall.transferred IovCall.offered Outcome.transferred
          rw [h1]
          cases x.out with
          | ok m => exact le_trans (Nat.min_le_right _ _) (iovLen_take_le _ _)
          | fail e => exact Nat.zero_le _
        obtain ⟨l1, j1, p1, hadv1, hbytes, _, hj1, hl1, hx⟩ :=
          advanceIov_spec iov x.transferred hle
        clear hx
        have heq : l1 = iov1 := by
          rw [hadv] at hadv1
          exact ((Prod.mk.inj (Option.some.inj hadv1)).1).symm
        subst heq
        obtain ⟨e1, e2, e3, e4⟩ := ih _ _ hrest j c h
        have hT : totalTransferredV ((x :: xs).take (j + 1))
            = x.transferred + totalTransferredV (xs.take j) := by
          simp [totalTransferredV]
        rw [hT]
        refine ⟨e1, by omega, ?_, ?_⟩
        · intro mem
          rw [e3 mem, hbytes mem, List.drop_drop]
        · rw [e4, incr_incr]
          push_cast
          rfl


/-! ## `readFull` on a descriptor whose reads never fail -/

theorem take_take_drop (s : List UInt8) (m count : Nat) (hm : m ≤ count) :
    s.take m ++ (s.drop m).take (count - (s.take m).length) = s.take count
    ∧ (s.drop m).drop (count - (s.take m).length) = s.drop count := by
  by_cases h : m ≤ s.length
  · have hr : (s.take m).length = m := by rw [List.length_take]; omega
    rw [hr]
    refine ⟨?_, ?_⟩
    · have : count = m + (count - m) := by omega
      conv_rhs => rw [this, List.take_add]
    · rw [List.drop_drop]
      congr 1
      omega
  · have h1 : s.take m = s := List.take_of_length_le (by omega)
    have h2 : s.drop m = [] := List.drop_of_length_le (by omega)
    rw [h1, h2]
    simp only [List.take_nil, List.append_nil, List.drop_nil]
    exact ⟨(List.take_of_length_le (by omega)).symm, (List.drop_of_length_le (by omega)).symm⟩

theorem readFull_stream_run (K : Nat) :
    ∀ (fuel : Nat) (w : ReadFd) (count : Nat) (total : Int),
      (∀ i e, w.oracle i = Outcome.fail e → e = EINTR ∧ i < K) →
      (∀ i, w.oracle i ≠ Outcome.ok 0) →
      (K - w.calls) + count + 1 ≤ fuel →
      ∃ w1,
        wrapFull ReadFd.read fuel w w.stored.length count none total
          = some (total + ((w.stream.take count).length : Nat), w1)
        ∧ w1.stored = w.stored ++ w.stream.take count
        ∧ w1.stream = w.stream.drop count := by
  intro fuel
  induction fuel with
  | zero => intro w count total _ _ hf; omega
  | succ g ih =>
    intro w count total hfail hpos hf
    cases ho : w.oracle w.calls with
    | fail e =>
      obtain ⟨he, hlt⟩ := hfail _ _ ho
      subst he
      by_cases hc : count = 0
      · subst hc
        refine ⟨ReadFd.mk w.stream w.oracle (w.calls + 1) EINTR w.stored, ?_, ?_, ?_⟩
        · simp [wrapFull, ReadFd.read, ho]
        · simp
        · simp
      · obtain ⟨w1, hrun, hs, hr⟩ :=
          ih (ReadFd.mk w.stream w.oracle (w.calls + 1) EINTR w.stored) count total
            hfail hpos (by simp only; omega)
        refine ⟨w1, ?_, hs, hr⟩
        simp only [wrapFull, ReadFd.read, ho, if_true, ne_eq, hc, not_false_eq_true]
        exact hrun
    | ok k =>
      have hk : k ≠ 0 := by
        intro h
        rw [h] at ho
        exact hpos _ ho
      have hr1 : ¬ ((((w.stream.take (min k count)).length : Nat) : Int) = -1) := by omega
      have hlen : (w.stream.take (min k count)).length ≤ count := by
        rw [List.length_take]; omega
      obtain ⟨hL1, hL2⟩ := take_take_drop w.stream (min k count) count (Nat.min_le_right _ _)
      have hst : w.stored.take w.stored.length = w.stored := List.take_length _
      by_cases hgo : ((((w.stream.take (min k count)).length : Nat) : Int) ≠ 0)
          ∧ count - (w.stream.take (min k count)).length ≠ 0
      · have h0 : (w.stream.take (min k count)).length ≠ 0 := by exact_mod_cast hgo.1
        obtain ⟨w1, hrun, hs, hr⟩ :=
          ih (ReadFd.mk (w.stream.drop (min k count)) w.oracle (w.calls + 1) w.errno
                (w.stored ++ w.stream.take (min k count)))
            (count - (w.stream.take (min k count)).length)
            (total + (((w.stream.take (min k count)).length : Nat) : Int))
            hfail hpos (by simp only; omega)
        simp only at hrun hs hr
        refine ⟨w1, ?_, ?_, ?_⟩
        · simp only [wrapFull, ReadFd.read, ho, hr1, if_false, Int.toNat_ofNat, hst]
          rw [if_pos hgo]
          simp only [incr]
          rw [List.length_append] at hrun
          rw [hrun]
          congr 2
          rw [← hL1, List.length_append]
          push_cast
          omega
        · rw [hs, List.append_assoc, hL1]
        · rw [hr, hL2]
      · have hrlen : (w.stream.take (min k count)).length
            = min (min k count) w.stream.length := List.length_take _ _
        have hcase : count - (w.stream.take (min k count)).length = 0
            ∨ w.stream.drop (min k count) = [] := by
          by_cases h0 : (w.stream.take (min k count)).length = 0
          · by_cases hs0 : w.stream.length = 0
            · right
              rw [List.length_eq_zero.1 hs0]
              simp
            · left
              omega
          · left
            have h1 : (((w.stream.take (min k count)).length : Nat) : Int) ≠ 0 := by
              exact_mod_cast h0
            have : ¬ (count - (w.stream.take (min k count)).length ≠ 0) :=
              fun h => hgo ⟨h1, h⟩
            omega
        have hT : (w.stream.drop (min k count)).take
            (count - (w.stream.take (min k count)).length) = [] := by
          rcases hcase with h | h
          · rw [h, List.take_zero]
          · rw [h, List.take_nil]
        have hD : (w.stream.drop (min k count)).drop
            (count - (w.stream.take (min k count)).length)
              = w.stream.drop (min k count) := by
          rcases hcase with h | h
          · rw [h, List.drop_zero]
          · rw [h, List.drop_nil]
        rw [hT, List.append_nil] at hL1
        rw [hD] at hL2
        refine ⟨ReadFd.mk (w.stream.drop (min k count)) w.oracle (w.calls + 1) w.errno
            (w.stored ++ w.stream.take (min k count)), ?_, ?_, ?_⟩
        · simp only [wrapFull, ReadFd.read, ho, hr1, if_false, Int.toNat_ofNat, hst]
          rw [if_neg hgo, hL1]
        · simp only
          rw [hL1]
        · exact hL2

/-- On a descriptor whose reads never fail (they may be interrupted, and may
deliver fewer bytes than asked for, but at least one while the stream has
any), `readFull(fd, buf, count)` returns and is `streamReadFull`: it returns
the number of bytes it stored, which are the next `count` bytes of the stream
or all that is left of it. -/
theorem readFull_eq_streamReadFull (stream : List UInt8) (oracle : Nat → Outcome)
    (errno0 : Int) (fd : Int) (count K fuel : Nat)
    (hfail : ∀ i e, oracle i = Outcome.fail e → e = EINTR ∧ i < K)
    (hpos : ∀ i, oracle i ≠ Outcome.ok 0) (hf : K + count + 1 ≤ fuel) :
    ∃ w1,
      readFull fuel (ReadFd.mk stream oracle 0 errno0 []) count
        = some ((streamReadFull stream fd count).1.n, w1)
      ∧ w1.stored = (streamReadFull stream fd count).1.data
      ∧ w1.stream = (streamReadFull stream fd count).2 := by
  obtain ⟨w1, hrun, hs, hr⟩ :=
    readFull_stream_run K fuel (ReadFd.mk stream oracle 0 errno0 []) count 0 hfail hpos
      (by simp only; omega)
  refine ⟨w1, ?_, by simpa using hs, hr⟩
  simp only [readFull, streamReadFull]
  simpa using hrun


/-! ## The claims about `wrapFull` and `wrapvFull` -/

/-- C4: for every requested count and every sequence of outcomes of the
primitive, a run of `wrapFull` (`readFull`, `writeFull` without offset,
`pwriteFull` with one) that returns, returns `-1` exactly when a call failed
with an error other than `EINTR`; otherwise it returns the sum of the bytes
transferred, which is at most `count` and equals `count` unless a call
reported 0 bytes; and every call was offered the buffer position, the count
and the file offset advanced by the bytes transferred before it.  The run
does return when the interruptions come to an end, within one call more than
there are interruptions and bytes. -/
theorem wrapFull_returns_total_or_failure (oracle : Nat → Outcome) (errno0 : Int)
    (b count : Nat) (offset : Option Int) :
    (∀ (fuel : Nat) (v : Int) (k1 : Kernel),
      wrapFull Kernel.io fuel (Kernel.mk oracle errno0 []) b count offset 0 = some (v, k1) →
      (v = -1 ↔ ∃ c ∈ k1.log, c.out.hardFailure)
      ∧ (v ≠ -1 →
          v = (totalTransferred k1.log : Nat)
          ∧ totalTransferred k1.log ≤ count
          ∧ (totalTransferred k1.log = count
              ∨ ∃ c ∈ k1.log, ∃ m, c.out = Outcome.ok m ∧ c.transferred = 0))
      ∧ (∀ i c, k1.log[i]? = some c →
          c.b = b + totalTransferred (k1.log.take i)
          ∧ c.count = count - totalTransferred (k1.log.take i)
          ∧ c.offset = incr (totalTransferred (k1.log.take i) : Nat) offset))
    ∧ (∀ K fuel : Nat, (∀ i, K ≤ i → oracle i ≠ Outcome.fail EINTR) →
        K + count + 1 ≤ fuel →
        ∃ v k1, wrapFull Kernel.io fuel (Kernel.mk oracle errno0 []) b count offset 0
          = some (v, k1)) := by
  refine ⟨?_, ?_⟩
  · intro fuel v k1 hrun
    obtain ⟨calls, hlog, hchain, hend1, hend2⟩ := wrapFull_safe fuel _ _ _ _ _ _ _ hrun
    simp only [List.nil_append] at hlog
    rw [← hlog] at hchain hend1 hend2
    refine ⟨⟨?_, hend1⟩, ?_, offeredChain_index _ _ _ _ hchain⟩
    · intro hv
      by_contra hno
      have := (hend2 hno).1
      omega
    · intro hv
      have hno : ¬ ∃ c ∈ k1.log, c.out.hardFailure := fun h => hv (hend1 h)
      obtain ⟨e1, e2, e3⟩ := hend2 hno
      exact ⟨by simpa using e1, e2, e3⟩
  · intro K fuel hK hf
    have h := wrapFull_live K fuel (Kernel.mk oracle errno0 []) b count offset 0 hK
      (by simp only [List.length_nil]; omega)
    obtain ⟨r, hr⟩ := Option.isSome_iff_exists.1 h
    exact ⟨r.1, r.2, hr⟩

/-- An instance of C4: `pwriteFull` of 5 bytes at offset 100, interrupted once,
the kernel then taking 3 bytes a call: three calls, 5 bytes in all. -/
theorem wrapFull_returns_total_or_failure_witness :
    (∃ v k1, wrapFull Kernel.io 7 (Kernel.mk interruptedThenThree 0 []) 0 5 (some 100) 0
        = some (v, k1))
    ∧ (wrapFull Kernel.io 7 (Kernel.mk interruptedThenThree 0 []) 0 5 (some 100) 0).map
        (fun p => (p.1, p.2.log))
      = some (5, [IoCall.mk 0 5 (some 100) (Outcome.fail EINTR),
                  IoCall.mk 0 5 (some 100) (Outcome.ok 3),
                  IoCall.mk 3 2 (some 103) (Outcome.ok 3)]) :=
  ⟨(wrapFull_returns_total_or_failure interruptedThenThree 0 0 5 (some 100)).2 1 7
     (by
       intro i hi
       have h : ¬ i = 0 := by omega
       simp [interruptedThenThree, h])
     (by decide),
   by decide⟩

/-- C6: (1) on an array of `l.length` entries and after a transfer of `r`
bytes, `r` at most their total length, the inner loop of `wrapvFull` never
reads past the array; it drops the first `j` entries, which the transfer
consumed whole, and advances the base of the next entry by the `p` bytes
consumed of it, reducing its length by `p`; read as bytes, what remains is
what was there with its first `r` bytes removed.  (2) In every run of
`wrapvFull` that returns, every call of the primitive was passed
`min(remaining entry count, 16)` entries, and the entries remaining at that
call, read as bytes, are the buffers' bytes without those transferred before.
(3) The run does return when the interruptions come to an end. -/
theorem wrapvFull_caps_and_advances (oracle : Nat → Outcome) (errno0 : Int)
    (iov : List iovec) (offset : Option Int) :
    (∀ (l : List iovec) (r : Nat), r ≤ iovLen l →
      ∃ l1 j p,
        advanceIov l l.length r = some (l1, l1.length)
        ∧ (∀ mem : Nat → UInt8, iovBytes mem l1 = (iovBytes mem l).drop r)
        ∧ j ≤ l.length ∧ l1.length = l.length - j
        ∧ iovLen (l.take j) + p = r
        ∧ l1 = advanceHead p (l.drop j)
        ∧ (p = 0 ∨ ∃ e rest, l.drop j = e :: rest ∧ p < e.iov_len))
    ∧ (∀ (fuel : Nat) (v : Int) (k1 : VKernel),
        wrapvFull VKernel.iov fuel (VKernel.mk oracle errno0 []) iov iov.length offset 0
          = some (v, k1) →
        ∀ i c, k1.log[i]? = some c →
          c.passed = min c.iov.length 16
          ∧ c.iov.length ≤ iov.length
          ∧ (∀ mem : Nat → UInt8,
              iovBytes mem c.iov
                = (iovBytes mem iov).drop (totalTransferredV (k1.log.take i)))
          ∧ c.offset = incr (totalTransferredV (k1.log.take i) : Nat) offset)
    ∧ (∀ K fuel : Nat, (∀ i, K ≤ i → oracle i ≠ Outcome.fail EINTR) →
        K + iovLen iov + 1 ≤ fuel →
        ∃ v k1, wrapvFull VKernel.iov fuel (VKernel.mk oracle errno0 []) iov iov.length
          offset 0 = some (v, k1)) := by
  refine ⟨?_, ?_, ?_⟩
  · intro l r hr
    obtain ⟨l1, j, p, h1, h2, _, h4, h5, h6, h7, h8⟩ := advanceIov_spec l r hr
    exact ⟨l1, j, p, h1, h2, h4, h5, h6, h7, h8⟩
  · intro fuel v k1 hrun
    obtain ⟨calls, hlog, hchain⟩ := wrapvFull_safe fuel _ _ _ _ _ _ hrun
    simp only [List.nil_append] at hlog
    rw [← hlog] at hchain
    exact iovChain_index _ _ _ hchain
  · intro K fuel hK hf
    have h := wrapvFull_live K fuel (VKernel.mk oracle errno0 []) iov offset 0 hK
      (by simp only [List.length_nil]; omega)
    obtain ⟨r, hr⟩ := Option.isSome_iff_exists.1 h
    exact ⟨r.1, r.2, hr⟩


/-- An instance of C6: three buffers of 2, 0 and 3 bytes, the first call
interrupted, the kernel then taking 3 bytes a call: the calls see the array
whole twice, and then its last entry advanced by one byte. -/
theorem wrapvFull_caps_and_advances_witness :
    (∃ v k1, wrapvFull VKernel.iov 7 (VKernel.mk interruptedThenThree 0 []) threeBuffers
        threeBuffers.length none 0 = some (v, k1))
    ∧ (wrapvFull VKernel.iov 7 (VKernel.mk interruptedThenThree 0 []) threeBuffers
          threeBuffers.length none 0).map (fun p => (p.1, p.2.log))
      = some (5, [IovCall.mk threeBuffers 3 none (Outcome.fail EINTR),
                  IovCall.mk threeBuffers 3 none (Outcome.ok 3),
                  IovCall.mk [iovec.mk 21 2] 1 none (Outcome.ok 3)]) :=
  ⟨(wrapvFull_caps_and_advances interruptedThenThree 0 threeBuffers none).2.2 1 7
      (by
        intro i hi
        have h : ¬ i = 0 := by omega
        simp [interruptedThenThree, h])
      (by decide),
   by decide⟩

/-- C5, the code at its failing input: seventeen buffers, sixteen empty ones
and then one of one byte, on a descriptor that never fails, is never
interrupted and takes every byte it is offered.  `writevFull` passes the
sixteen empty entries, is answered 0, takes that for the end of the stream
and returns 0 after this one call: nothing is written, of 1 byte. -/
theorem writevFull_stops_on_sixteen_empty_entries :
    (wrapvFull VKernel.iov 3 (VKernel.mk takesAll 0 []) sixteenEmptyThenOne
        sixteenEmptyThenOne.length none 0).map (fun p => (p.1, p.2.log))
      = some (0, [IovCall.mk sixteenEmptyThenOne 16 none (Outcome.ok 4096)])
    ∧ iovLen sixteenEmptyThenOne = 1
    ∧ iovBytes (fun _ => 120) sixteenEmptyThenOne = [120]
    ∧ bytesWritten (fun _ => 120)
        [IovCall.mk sixteenEmptyThenOne 16 none (Outcome.ok 4096)] = [] := by
  decide


/-! ## The handle: closing, moving, releasing, its invariant -/

theorem File.closeNoThrow_handle (f : File) (s : Sys) : (f.closeNoThrow s).2.1 = File.empty := rfl

theorem File.inv_empty : File.empty.Inv := by decide

/-- C12: move-constructing `B` from a handle `A` that holds descriptor `v`
with ownership `o` gives `B.fd() = v` with ownership `o` and leaves `A` empty
(descriptor -1, not owning); the move reaches no syscall, and destroying `A`
afterwards issues no `close`, while destroying `B` closes `v` exactly when
`o` holds. -/
theorem File_move_construct_transfers (v : Int) (o : Bool) (s : Sys) :
    (File.moveConstruct (File.mk v o)).1.fd = v
    ∧ (File.moveConstruct (File.mk v o)).1.ownsFd_ = o
    ∧ (File.moveConstruct (File.mk v o)).2 = File.empty
    ∧ (File.moveConstruct (File.mk v o)).2.fd = -1
    ∧ (File.moveConstruct (File.mk v o)).2.ownsFd_ = false
    ∧ ((File.moveConstruct (File.mk v o)).2.destroy s).2 = s
    ∧ ((File.moveConstruct (File.mk v o)).1.destroy s).2.closed
        = s.closed ++ (if o = true then [v] else []) := by
  refine ⟨rfl, rfl, rfl, rfl, rfl, ?_, ?_⟩
  · simp [File.moveConstruct, File.release, File.destroy, File.closeNoThrow]
  · exact File.destroy_closed (File.mk v o) s

/-- C13: `release()` returns the descriptor the handle held (-1 for the empty
handle), changes nothing in the world (no `close` is issued), and leaves the
handle empty and not owning; a `release()` that follows returns -1. -/
theorem File_release_hands_over (f : File) (s : Sys) :
    (f.release).1 = f.fd
    ∧ (File.empty.release).1 = -1
    ∧ (f.release).2 = File.empty
    ∧ (f.release).2.fd = -1 ∧ (f.release).2.ownsFd_ = false
    ∧ (File.call FileOp.release f s).2.2 = s
    ∧ ((f.release).2.destroy s).2 = s
    ∧ ((f.release).2.release).1 = -1 := by
  refine ⟨rfl, rfl, rfl, rfl, rfl, rfl, ?_, rfl⟩
  simp [File.release, File.destroy, File.closeNoThrow]

/-- C14: the invariant "an owning handle holds a descriptor other than -1, and
the descriptor is at least -1" holds after the default constructor, after
the wrapping constructor whenever its two checks pass, and after the opening
constructor whenever `open` succeeds; and every operation keeps it, for both
handles involved: move construction, move assignment (between two handles and
of a handle to itself), `swap`, `close`, `closeNoThrow` and `release`. -/
theorem File_invariant_kept :
    File.empty.Inv
    ∧ (∀ fd owns f, File.wrap fd owns = some f → f.Inv)
    ∧ (∀ fd owns, fd ≥ -1 → (fd ≠ -1 ∨ owns = false) → (File.wrap fd owns).isSome = true)
    ∧ (∀ name flags mode errno k f,
        File.open name flags mode errno (Outcome.ok k) = Except.ok f → f.Inv)
    ∧ (∀ a : File, a.Inv → (File.moveConstruct a).1.Inv ∧ (File.moveConstruct a).2.Inv)
    ∧ (∀ (a b : File) (s : Sys), b.Inv →
        (File.moveAssign a b s).1.Inv ∧ (File.moveAssign a b s).2.1.Inv)
    ∧ (∀ (a : File) (s : Sys), (File.moveAssignSelf a s).1.Inv)
    ∧ (∀ a b : File, a.Inv → b.Inv → (File.swap a b).1.Inv ∧ (File.swap a b).2.Inv)
    ∧ (∀ (op : FileOp) (a : File) (s : Sys), (File.call op a s).2.1.Inv) := by
  refine ⟨File.inv_empty, ?_, ?_, ?_, ?_, ?_, ?_, ?_, ?_⟩
  · intro fd owns f h
    unfold File.wrap at h
    split at h
    · rename_i hc
      cases h
      refine ⟨hc.1, fun ho => ?_⟩
      rcases hc.2 with h1 | h1
      · exact h1
      · exact absurd ho h1
    · cases h
  · intro fd owns h1 h2
    have hc : fd ≥ -1 ∧ (fd ≠ -1 ∨ ¬ owns = true) :=
      ⟨h1, h2.imp id (fun h => by simp [h])⟩
    simp only [File.wrap, if_pos hc, Option.isSome_some]
  · intro name flags mode errno k f h
    have hk : ¬ ((k : Int) = -1) := by omega
    simp only [File.open, if_neg hk] at h
    cases h
    exact ⟨by show (k : Int) ≥ -1; omega, fun _ => hk⟩
  · intro a ha
    exact ⟨ha, File.inv_empty⟩
  · intro a b s hb
    exact ⟨hb, File.inv_empty⟩
  · intro a s
    exact File.inv_empty
  · intro a b ha hb
    exact ⟨hb, ha⟩
  · intro op a s
    rw [File.call_handle]
    exact File.inv_empty

/-! ## Locking without blocking -/

theorem flock_afterCalls (fd : Int) (op : Nat) :
    ∀ (i : Nat) (s : FlockSys),
      (∀ j, j < i → s.flockOutcome (s.flocked.length + j) = some EINTR) →
      afterCalls (fun w => w.flock fd op) i s
        = FlockSys.mk (if i = 0 then s.errno else EINTR) s.flockOutcome
            (s.flocked ++ List.replicate i (fd, op)) := by
  intro i
  induction i with
  | zero => intro s _; simp [afterCalls]
  | succ i ih =>
    intro s h
    have h0 : s.flockOutcome s.flocked.length = some EINTR := by simpa using h 0 (by omega)
    have hs : (s.flock fd op).2 = FlockSys.mk EINTR s.flockOutcome (s.flocked ++ [(fd, op)]) := by
      simp [FlockSys.flock, h0]
    simp only [afterCalls]
    rw [hs, ih]
    · simp only [List.append_assoc, List.singleton_append, Nat.add_one_ne_zero, if_false]
      congr 1
      split <;> rfl
    · intro j hj
      have := h (j + 1) (by omega)
      simpa [Nat.add_assoc, Nat.add_comm 1 j] using this

theorem flockNoInt_run (fd : Int) (op : Nat) (s : FlockSys) (k fuel : Nat)
    (hint : ∀ j, j < k → s.flockOutcome (s.flocked.length + j) = some EINTR)
    (hlast : s.flockOutcome (s.flocked.length + k) ≠ some EINTR) (hf : k < fuel) :
    flockNoInt fuel s fd op
      = some ((match s.flockOutcome (s.flocked.length + k) with
                | none => 0
                | some _ => -1),
              FlockSys.mk
                (match s.flockOutcome (s.flocked.length + k) with
                  | none => if k = 0 then s.errno else EINTR
                  | some e => e)
                s.flockOutcome (s.flocked ++ List.replicate (k + 1) (fd, op))) := by
  have ha := flock_afterCalls fd op k s hint
  have hrun := wrapNoInt_run (fun w : FlockSys => w.flock fd op) k fuel s
    (fun i hi => by
      rw [flock_afterCalls fd op i s (fun j hj => hint j (by omega))]
      simp [FlockSys.flock, hint i hi, Ret.interrupted])
    (by
      rw [ha]
      cases ho : s.flockOutcome (s.flocked.length + k) with
      | none => simp [FlockSys.flock, ho, Ret.interrupted]
      | some e =>
        have he : e ≠ EINTR := fun h => hlast (by rw [ho, h])
        simp [FlockSys.flock, ho, Ret.interrupted, he]) hf
  unfold flockNoInt
  rw [hrun, ha]
  cases ho : s.flockOutcome (s.flocked.length + k) with
  | none => simp [FlockSys.flock, ho, List.replicate_succ']
  | some e => simp [FlockSys.flock, ho, List.replicate_succ']

/-- How `doTryLock` ends, given the outcome of the `flock` call that was not
interrupted. -/
theorem doTryLock_run (f : File) (op : Nat) (s : FlockSys) (k fuel : Nat)
    (hint : ∀ j, j < k → s.flockOutcome (s.flocked.length + j) = some EINTR)
    (hlast : s.flockOutcome (s.flocked.length + k) ≠ some EINTR) (hf : k < fuel) :
    f.doTryLock fuel s op
      = some ((match s.flockOutcome (s.flocked.length + k) with
                | none => TryLock.returned true
                | some e =>
                  if e = EWOULDBLOCK then TryLock.returned false
                  else TryLock.threw (SystemError.mk e (bytes "flock() failed (try_lock)"))),
              FlockSys.mk
                (match s.flockOutcome (s.flocked.length + k) with
                  | none => if k = 0 then s.errno else EINTR
                  | some e => e)
                s.flockOutcome
                (s.flocked ++ List.replicate (k + 1) (f.fd_, op ||| LOCK_NB))) := by
  unfold File.doTryLock
  rw [flockNoInt_run f.fd_ (op ||| LOCK_NB) s k fuel hint hlast hf]
  cases ho : s.flockOutcome (s.flocked.length + k) with
  | none => simp
  | some e =>
    by_cases hw : e = EWOULDBLOCK
    · simp [hw]
    · simp [hw]

theorem doTryLock_none (f : File) (op : Nat) (s : FlockSys) (k fuel : Nat)
    (hint : ∀ j, j < k → s.flockOutcome (s.flocked.length + j) = some EINTR) (hf : fuel ≤ k) :
    f.doTryLock fuel s op = none := by
  have h : wrapNoInt (fun w : FlockSys => w.flock f.fd_ (op ||| LOCK_NB)) fuel s = none := by
    induction fuel generalizing k s with
    | zero => rfl
    | succ g ih =>
      have h0 : s.flockOutcome s.flocked.length = some EINTR := by simpa using hint 0 (by omega)
      have hi : ((s.flock f.fd_ (op ||| LOCK_NB)).1.r = -1
          ∧ (s.flock f.fd_ (op ||| LOCK_NB)).1.errno = EINTR) := by
        simp [FlockSys.flock, h0]
      simp only [wrapNoInt, if_pos hi]
      apply ih (s.flock f.fd_ (op ||| LOCK_NB)).2 (k - 1)
      · intro j hj
        have := hint (j + 1) (by omega)
        simpa [FlockSys.flock, h0, Nat.add_assoc, Nat.add_comm 1 j] using this
      · omega
  simp [File.doTryLock, flockNoInt, h]

/-- C15: when the first `k` calls of `flock` are interrupted and the next one
is not, `try_lock()` and `try_lock_shared()` return, having issued `flock`
exactly `k + 1` times on the handle's descriptor with `LOCK_EX | LOCK_NB` and
`LOCK_SH | LOCK_NB`. They return true when that last call succeeds, return
false without throwing when it fails with `EWOULDBLOCK`, and throw the OS
error it set for every other failure; with at most `k` calls allowed they
have not returned. -/
theorem try_lock_outcomes (f : File) (s : FlockSys) (k fuel : Nat)
    (hint : ∀ j, j < k → s.flockOutcome (s.flocked.length + j) = some EINTR)
    (hlast : s.flockOutcome (s.flocked.length + k) ≠ some EINTR) :
    (k < fuel →
      f.try_lock fuel s
        = some ((match s.flockOutcome (s.flocked.length + k) with
                  | none => TryLock.returned true
                  | some e =>
                    if e = EWOULDBLOCK then TryLock.returned false
                    else TryLock.threw (SystemError.mk e (bytes "flock() failed (try_lock)"))),
                FlockSys.mk
                  (match s.flockOutcome (s.flocked.length + k) with
                    | none => if k = 0 then s.errno else EINTR
                    | some e => e)
                  s.flockOutcome
                  (s.flocked ++ List.replicate (k + 1) (f.fd_, LOCK_EX ||| LOCK_NB)))
      ∧ f.try_lock_shared fuel s
        = some ((match s.flockOutcome (s.flocked.length + k) with
                  | none => TryLock.returned true
                  | some e =>
                    if e = EWOULDBLOCK then TryLock.returned false
                    else TryLock.threw (SystemError.mk e (bytes "flock() failed (try_lock)"))),
                FlockSys.mk
                  (match s.flockOutcome (s.flocked.length + k) with
                    | none => if k = 0 then s.errno else EINTR
                    | some e => e)
                  s.flockOutcome
                  (s.flocked ++ List.replicate (k + 1) (f.fd_, LOCK_SH ||| LOCK_NB))))
    ∧ (fuel ≤ k → f.try_lock fuel s = none ∧ f.try_lock_shared fuel s = none) :=
  ⟨fun hf => ⟨doTryLock_run f LOCK_EX s k fuel hint hlast hf,
      doTryLock_run f LOCK_SH s k fuel hint hlast hf⟩,
   fun hf => ⟨doTryLock_none f LOCK_EX s k fuel hint hf,
      doTryLock_none f LOCK_SH s k fuel hint hf⟩⟩

/-- Witness of C15: two interruptions, then the lock is held by another
process: both calls return false after three `flock` calls. -/
theorem try_lock_outcomes_witness :
    (File.mk 3 true).try_lock 3 blockedAfterTwo
      = some (TryLock.returned false,
          FlockSys.mk EWOULDBLOCK blockedAfterTwo.flockOutcome [(3, 6), (3, 6), (3, 6)])
    ∧ (File.mk 3 true).try_lock_shared 3 blockedAfterTwo
      = some (TryLock.returned false,
          FlockSys.mk EWOULDBLOCK blockedAfterTwo.flockOutcome [(3, 5), (3, 5), (3, 5)]) :=
  (try_lock_outcomes (File.mk 3 true) blockedAfterTwo 2 3 (by decide) (by decide)).1
    (by decide)


/-! ## The opening constructor and its message -/

theorem digitsValue_append (base : Nat) (ds : List UInt8) (d : UInt8) :
    digitsValue base (ds ++ [d]) = base * digitsValue base ds + (d.toNat - 48) := by
  simp [digitsValue, List.foldl_append]

theorem digit_toNat (base n : Nat) (hb : base ≤ 10) (h0 : 0 < base) :
    ((48 + n % base).toUInt8).toNat = 48 + n % base := by
  have : n % base < base := Nat.mod_lt _ h0
  show (48 + n % base) % 256 = 48 + n % base
  exact Nat.mod_eq_of_lt (by omega)

/-- The digits written stand for the number: read back in the same base they
give it, and each is one of the first `base` digit characters. -/
theorem digitsAux_spec (base : Nat) (hb2 : 2 ≤ base) (hb : base ≤ 10) :
    ∀ (fuel n : Nat) (acc : List UInt8), n < fuel →
      ∃ ds, digitsAux base fuel n acc = ds ++ acc ∧ digitsValue base ds = n ∧ ds ≠ []
        ∧ ∀ d ∈ ds, 48 ≤ d.toNat ∧ d.toNat < 48 + base := by
  intro fuel
  induction fuel with
  | zero => intro n acc h; omega
  | succ fuel ih =>
    intro n acc h
    have hd := digit_toNat base n hb (by omega)
    have hm : n % base < base := Nat.mod_lt _ (by omega)
    by_cases hq : n / base = 0
    · refine ⟨[(48 + n % base).toUInt8], ?_, ?_, by simp, ?_⟩
      · simp [digitsAux, hq]
      · have hlt : n < base := (Nat.div_eq_zero_iff (by omega)).mp hq
        simp only [digitsValue, List.foldl_cons, List.foldl_nil, hd, Nat.mul_zero, Nat.zero_add,
          Nat.add_sub_cancel_left]
        exact Nat.mod_eq_of_lt hlt
      · intro d hmem
        simp only [List.mem_singleton] at hmem
        rw [hmem, hd]
        omega
    · have hlt : n / base < fuel := by
        have h1 : n / base < n := Nat.div_lt_self (by
          rcases Nat.eq_zero_or_pos n with h0 | h0
          · simp [h0] at hq
          · exact h0) (by omega)
        omega
      obtain ⟨ds, h1, h2, _, h4⟩ := ih (n / base) ((48 + n % base).toUInt8 :: acc) hlt
      refine ⟨ds ++ [(48 + n % base).toUInt8], ?_, ?_, by simp, ?_⟩
      · simp [digitsAux, hq, h1]
      · rw [digitsValue_append, h2, hd, Nat.add_sub_cancel_left]
        exact Nat.div_add_mod n base
      · intro d hmem
        rcases List.mem_append.mp hmem with hmem | hmem
        · exact h4 d hmem
        · simp only [List.mem_singleton] at hmem
          rw [hmem, hd]
          omega

theorem octal_spec (mode : Nat) :
    digitsValue 8 (octal mode) = mode ∧ ∀ d ∈ octal mode, 48 ≤ d.toNat ∧ d.toNat ≤ 55 := by
  obtain ⟨ds, h1, h2, _, h4⟩ := digitsAux_spec 8 (by omega) (by omega) (mode + 1) mode []
    (by omega)
  have : octal mode = ds := by simpa [octal] using h1
  rw [this]
  exact ⟨h2, fun d hd => ⟨(h4 d hd).1, by have := (h4 d hd).2; omega⟩⟩

/-- C16: when `open` returns -1, the constructor throws the OS error that
carries the `errno` set by `open`, with a message that contains the path and
the mode written in octal after a leading `'0'` (`0666` for mode 0666, as
`TEST(File, UsefulError)` expects); when `open` returns a descriptor, the
handle holds that descriptor and owns it. -/
theorem File_open_reports_or_owns (name : List UInt8) (flags : Int) (mode : Nat) (errno : Int) :
    (∀ e, File.open name flags mode errno (Outcome.fail e)
        = Except.error (SystemError.mk e (openMessage name flags mode)))
    ∧ List.IsInfix name (openMessage name flags mode)
    ∧ List.IsInfix (bytes "0" ++ octal mode) (openMessage name flags mode)
    ∧ digitsValue 8 (octal mode) = mode
    ∧ (∀ d ∈ octal mode, 48 ≤ d.toNat ∧ d.toNat ≤ 55)
    ∧ bytes "0" ++ octal 0o666 = bytes "0666"
    ∧ openMessage (bytes "does_not_exist.txt") 0 0o666
        = bytes "open(does_not_exist.txt, 0, 0666 failed"
    ∧ (∀ k : Nat, File.open name flags mode errno (Outcome.ok k)
        = Except.ok (File.mk (k : Int) true)) := by
  refine ⟨fun e => rfl, ?_, ?_, (octal_spec mode).1, (octal_spec mode).2, by decide, by decide, ?_⟩
  · exact ⟨bytes "open(", bytes ", " ++ decimal flags ++ bytes ", " ++ (bytes "0" ++ octal mode)
      ++ bytes " failed", by simp [openMessage]⟩
  · exact ⟨bytes "open(" ++ name ++ bytes ", " ++ decimal flags ++ bytes ", ", bytes " failed",
      by simp [openMessage]⟩
  · intro k
    have hk : ¬ ((k : Int) = -1) := by omega
    simp only [File.open, if_neg hk]


/-! ## readFile -/

theorem resize_length (out : List UInt8) (n : Nat) : (resize out n).length = n := by
  simp only [resize, List.length_append, List.length_take, List.length_replicate]
  omega

theorem resize_of_le (out : List UInt8) (n : Nat) (h : n ≤ out.length) :
    resize out n = out.take n := by
  simp [resize, Nat.sub_eq_zero_of_le h]

theorem resize_take (out : List UInt8) (n k : Nat) (hk : k ≤ n) (hl : k ≤ out.length) :
    (resize out n).take k = out.take k := by
  unfold resize
  rw [List.take_append_of_le_length (by rw [List.length_take]; omega), List.take_take]
  congr 1
  omega

theorem store_take_before (mem : List UInt8) (dst : Nat) (data : List UInt8)
    (h : dst ≤ mem.length) : (store mem dst data).take dst = mem.take dst := by
  unfold store
  rw [List.append_assoc, List.take_append_of_le_length (by rw [List.length_take]; omega)]
  rw [List.take_of_length_le (by rw [List.length_take]; omega)]

theorem store_take_after (mem : List UInt8) (dst : Nat) (data : List UInt8)
    (h : dst ≤ mem.length) :
    (store mem dst data).take (dst + data.length) = mem.take dst ++ data := by
  unfold store
  have hl : (mem.take dst ++ data).length = dst + data.length := by
    rw [List.length_append, List.length_take]; omega
  rw [← hl, List.take_left']
  rfl

theorem delivered_append (reads : List ReadFullResult) (r : ReadFullResult) :
    delivered (reads ++ [r]) = delivered reads ++ (if r.n = -1 then [] else r.data) := by
  unfold delivered
  by_cases h : r.n = -1
  · simp [List.filter_append, h]
  · simp [List.filter_append, h]

/-- What holds wherever the loop of `readFile` is left, for a `readFull` within
its contract: the first `soFar` bytes of the container are the bytes the
successful calls delivered, `soFar` does not exceed the container's size,
no size asked of `resize` exceeds `num_bytes`, only the last call of
`readFull` can have failed, the loop returns false exactly when it did, and
it throws only when a `resize` was refused. -/
theorem readFileLoop_safe {σ : Type} (grants : Nat → Nat → Bool)
    (readFull : σ → Int → Nat → ReadFullResult × σ)
    (fd : Int) (nb : Nat) (hwf : ∀ w c, ((readFull w fd c).1).WellFormed c) :
    ∀ (fuel : Nat) (w : σ) (out : List UInt8) (soFar : Nat) (resized : List Nat)
      (reads : List ReadFullResult) (e : ReadFileExit σ),
      soFar ≤ out.length → out.length ≤ nb → out.take soFar = delivered reads →
      (∀ x ∈ reads, x.n ≠ -1) → (∀ n ∈ resized, n ≤ nb) →
      readFileLoop grants readFull fd nb fuel w out soFar resized reads = some e →
        e.soFar ≤ e.out.length ∧ e.out.length ≤ nb ∧ e.out.take e.soFar = delivered e.reads
        ∧ (∀ n ∈ e.resized, n ≤ nb)
        ∧ (∀ x ∈ e.reads.dropLast, x.n ≠ -1)
        ∧ (e.ret = ReadFileEnd.returned false ↔ ∃ x ∈ e.reads, x.n = -1)
        ∧ (e.ret = ReadFileEnd.threw → ∃ i n, n ∈ e.resized ∧ grants i n = false) := by
  intro fuel
  induction fuel with
  | zero => intro w out soFar resized reads e _ _ _ _ _ h; simp [readFileLoop] at h
  | succ fuel ih =>
    intro w out soFar resized reads e hs hn ht hr hz h
    unfold readFileLoop at h
    by_cases hlt : soFar < out.length
    · rw [if_pos hlt] at h
      have hw := hwf w (out.length - soFar)
      have hst : (store out soFar (readFull w fd (out.length - soFar)).1.data).length
          = out.length := store_length _ _ _ (by have := hw.1; omega)
      simp only at h
      by_cases hfail : (readFull w fd (out.length - soFar)).1.n = -1
      · rw [if_pos hfail] at h
        cases h
        refine ⟨by simp only [hst]; exact hs, by simp only [hst]; exact hn, ?_, hz, ?_, ?_,
          fun h => by cases h⟩
        · simp only [store_take_before _ _ _ hs, delivered_append, hfail, if_true,
            List.append_nil, ht]
        · simpa using hr
        · simp only [true_iff]
          exact ⟨_, by simp, hfail⟩
      · rw [if_neg hfail] at h
        have hnl : (readFull w fd (out.length - soFar)).1.n
            = ((readFull w fd (out.length - soFar)).1.data.length : Int) := by
          rcases hw.2 with h1 | h1
          · exact absurd h1 hfail
          · exact h1
        have hto : (readFull w fd (out.length - soFar)).1.n.toNat
            = (readFull w fd (out.length - soFar)).1.data.length := by
          rw [hnl]; exact Int.toNat_ofNat _
        rw [hto, hst] at h
        have hall : ∀ x ∈ reads ++ [(readFull w fd (out.length - soFar)).1], x.n ≠ -1 := by
          intro x hx
          rcases List.mem_append.mp hx with hx | hx
          · exact hr x hx
          · simp only [List.mem_singleton] at hx
            rw [hx]; exact hfail
        have htk : (store out soFar (readFull w fd (out.length - soFar)).1.data).take
            (soFar + (readFull w fd (out.length - soFar)).1.data.length)
            = delivered (reads ++ [(readFull w fd (out.length - soFar)).1]) := by
          rw [store_take_after _ _ _ hs, delivered_append, if_neg hfail, ht]
        have hdrop : ∀ x ∈ (reads ++ [(readFull w fd (out.length - soFar)).1]).dropLast,
            x.n ≠ -1 := by
          simpa using hr
        have hnofail : ¬ ∃ x ∈ reads ++ [(readFull w fd (out.length - soFar)).1], x.n = -1 := by
          simp only [not_exists, not_and]
          exact fun x hx => hall x hx
        by_cases hshort : soFar + (readFull w fd (out.length - soFar)).1.data.length < out.length
        · rw [if_pos hshort] at h
          cases h
          refine ⟨by simp only [hst]; omega, by simp only [hst]; exact hn, htk, hz, hdrop, ?_,
            fun h => by cases h⟩
          simp only [ReadFileEnd.returned.injEq, Bool.true_eq_false, false_iff]
          exact hnofail
        · rw [if_neg hshort] at h
          have hfull : soFar + (readFull w fd (out.length - soFar)).1.data.length = out.length := by
            have := hw.1; omega
          have hgrow : out.length ≤ min (out.length * 3 / 2) nb := by
            have : out.length ≤ out.length * 3 / 2 := by omega
            exact le_min this hn
          have hz2 : ∀ n ∈ resized ++ [min (out.length * 3 / 2) nb], n ≤ nb := by
            intro n hn2
            rcases List.mem_append.mp hn2 with hn2 | hn2
            · exact hz n hn2
            · simp only [List.mem_singleton] at hn2
              rw [hn2]; exact min_le_right _ _
          by_cases hg : min (out.length * 3 / 2) nb
              ≤ (store out soFar (readFull w fd (out.length - soFar)).1.data).length
              ∨ grants resized.length (min (out.length * 3 / 2) nb) = true
          · simp only [tryResize, if_pos hg] at h
            refine ih _ _ _ _ _ e ?_ ?_ ?_ hall hz2 h
            · rw [resize_length, hfull]; exact hgrow
            · rw [resize_length]; exact min_le_right _ _
            · rw [resize_take _ _ _ (by rw [hfull]; exact hgrow) (by rw [hst, hfull]), htk]
          · simp only [tryResize, if_neg hg, Option.some.injEq] at h
            subst h
            refine ⟨by simp only [hst]; omega, by simp only [hst]; exact hn, ?_, hz2, hdrop, ?_,
              fun _ => ⟨resized.length, min (out.length * 3 / 2) nb, by simp, ?_⟩⟩
            · exact htk
            · simp only [false_iff, reduceCtorEq]
              exact hnofail
            · have := (not_or.mp hg).2
              simpa using this
    · rw [if_neg hlt] at h
      cases h
      refine ⟨hs, hn, ht, hz, ?_, ?_, fun h => by cases h⟩
      · intro x hx
        exact hr x (List.mem_of_mem_dropLast hx)
      · simp only [ReadFileEnd.returned.injEq, Bool.true_eq_false, false_iff, not_exists, not_and]
        exact fun x hx => hr x hx

/-- The loop of `readFile` is left within `num_bytes - out.size() + 2` tests:
every pass that does not leave it makes the container larger, or leaves it
full so that the next test ends the loop; a refused `resize` leaves it at
once. -/
theorem readFileLoop_live {σ : Type} (grants : Nat → Nat → Bool)
    (readFull : σ → Int → Nat → ReadFullResult × σ)
    (fd : Int) (nb : Nat) (hwf : ∀ w c, ((readFull w fd c).1).WellFormed c) :
    ∀ (fuel : Nat) (w : σ) (out : List UInt8) (soFar : Nat) (resized : List Nat)
      (reads : List ReadFullResult),
      soFar ≤ out.length → out.length ≤ nb →
      (nb - out.length + 2 ≤ fuel ∨ (out.length ≤ soFar ∧ 1 ≤ fuel)) →
      (readFileLoop grants readFull fd nb fuel w out soFar resized reads).isSome = true := by
  intro fuel
  induction fuel with
  | zero => intro w out soFar resized reads _ _ h; omega
  | succ fuel ih =>
    intro w out soFar resized reads hs hn hf
    unfold readFileLoop
    by_cases hlt : soFar < out.length
    · rw [if_pos hlt]
      have hw := hwf w (out.length - soFar)
      have hst : (store out soFar (readFull w fd (out.length - soFar)).1.data).length
          = out.length := store_length _ _ _ (by have := hw.1; omega)
      simp only
      by_cases hfail : (readFull w fd (out.length - soFar)).1.n = -1
      · rw [if_pos hfail]; rfl
      · rw [if_neg hfail]
        have hnl : (readFull w fd (out.length - soFar)).1.n
            = ((readFull w fd (out.length - soFar)).1.data.length : Int) := by
          rcases hw.2 with h1 | h1
          · exact absurd h1 hfail
          · exact h1
        have hto : (readFull w fd (out.length - soFar)).1.n.toNat
            = (readFull w fd (out.length - soFar)).1.data.length := by
          rw [hnl]; exact Int.toNat_ofNat _
        rw [hto, hst]
        by_cases hshort : soFar + (readFull w fd (out.length - soFar)).1.data.length < out.length
        · rw [if_pos hshort]; rfl
        · rw [if_neg hshort]
          have hfull : soFar + (readFull w fd (out.length - soFar)).1.data.length = out.length := by
            have := hw.1; omega
          have hgrow : out.length ≤ min (out.length * 3 / 2) nb := by
            have : out.length ≤ out.length * 3 / 2 := by omega
            exact le_min this hn
          by_cases hgr : min (out.length * 3 / 2) nb
              ≤ (store out soFar (readFull w fd (out.length - soFar)).1.data).length
              ∨ grants resized.length (min (out.length * 3 / 2) nb) = true
          · simp only [tryResize, if_pos hgr]
            apply ih
            · rw [resize_length, hfull]; exact hgrow
            · rw [resize_length]; exact min_le_right _ _
            · rw [resize_length, hfull]
              have hmin : min (out.length * 3 / 2) nb ≤ nb := min_le_right _ _
              rcases Nat.lt_or_ge (out.length) (min (out.length * 3 / 2) nb) with hg | hg
              · left
                rcases hf with hf | hf
                · omega
                · omega
              · right
                refine ⟨hg, ?_⟩
                rcases hf with hf | hf
                · omega
                · omega
          · simp only [tryResize, if_neg hgr]
            rfl
    · rw [if_neg hlt]; rfl

theorem streamReadFull_wellFormed (fd : Int) (w : List UInt8) (c : Nat) :
    ((streamReadFull w fd c).1).WellFormed c := by
  simp only [streamReadFull, ReadFullResult.WellFormed, List.length_take]
  exact ⟨by omega, Or.inr trivial⟩

/-- The loop of `readFile` on a descriptor whose reads never fail: started with
the first `soFar` bytes of the file in the container, within
`L - soFar + 1` tests it is left with the first `min L num_bytes` bytes,
when the container can be made as large as `3 L / 2` bytes. -/
theorem readFileLoop_stream (grants : Nat → Nat → Bool) (fd : Int) (nb : Nat)
    (content : List UInt8)
    (hgr : ∀ i n, n ≤ content.length * 3 / 2 → grants i n = true) :
    ∀ (fuel : Nat) (out : List UInt8) (soFar : Nat) (resized : List Nat)
      (reads : List ReadFullResult),
      soFar ≤ out.length → out.length ≤ nb → soFar ≤ content.length →
      (2 ≤ out.length ∨ out.length = nb) → (soFar < out.length ∨ out.length = nb) →
      out.take soFar = content.take soFar →
      content.length - soFar + 1 ≤ fuel →
      ∃ e, readFileLoop grants streamReadFull fd nb fuel (content.drop soFar) out soFar resized
              reads = some e
        ∧ e.ret = ReadFileEnd.returned true ∧ e.soFar = min content.length nb ∧ e.soFar ≤ e.out.length
        ∧ e.out.take e.soFar = content.take e.soFar := by
  intro fuel
  induction fuel with
  | zero => intro out soFar resized reads _ _ _ _ _ _ h; omega
  | succ fuel ih =>
    intro out soFar resized reads hs hn hL h2 hfullcap ht hf
    unfold readFileLoop
    by_cases hlt : soFar < out.length
    · rw [if_pos hlt]
      have hdl : ((content.drop soFar).take (out.length - soFar)).length
          = min (out.length - soFar) (content.length - soFar) := by
        rw [List.length_take, List.length_drop]
      have hst : (store out soFar ((content.drop soFar).take (out.length - soFar))).length
          = out.length := store_length _ _ _ (by rw [hdl]; omega)
      have hne : ¬ ((((content.drop soFar).take (out.length - soFar)).length : Int) = -1) := by
        omega
      simp only [streamReadFull, if_neg hne, Int.toNat_ofNat, hst]
      have htk : (store out soFar ((content.drop soFar).take (out.length - soFar))).take
          (soFar + ((content.drop soFar).take (out.length - soFar)).length)
          = content.take out.length := by
        rw [store_take_after _ _ _ hs, ht]
        have : out.length = soFar + (out.length - soFar) := by omega
        conv_rhs => rw [this, List.take_add]
      by_cases hshort : soFar + ((content.drop soFar).take (out.length - soFar)).length
          < out.length
      · rw [if_pos hshort]
        have hsf : soFar + ((content.drop soFar).take (out.length - soFar)).length
            = content.length := by rw [hdl] at hshort ⊢; omega
        refine ⟨_, rfl, rfl, ?_, ?_, ?_⟩
        · simp only [hsf]
          rw [hsf] at hshort
          omega
        · simp only [hst]; omega
        · simp only
          rw [htk, hsf, List.take_of_length_le (by rw [hsf] at hshort; omega),
            List.take_of_length_le (le_refl _)]
      · rw [if_neg hshort]
        have hfull : soFar + ((content.drop soFar).take (out.length - soFar)).length
            = out.length := by rw [hdl] at hshort ⊢; omega
        have hlenL : out.length ≤ content.length := by rw [hdl] at hfull; omega
        have hgrow : out.length ≤ min (out.length * 3 / 2) nb := by
          have : out.length ≤ out.length * 3 / 2 := by omega
          exact le_min this hn
        have hmin : min (out.length * 3 / 2) nb ≤ nb := min_le_right _ _
        rw [hfull] at htk ⊢
        have hw : List.drop (out.length - soFar) (List.drop soFar content)
            = content.drop out.length := by
          rw [List.drop_drop]; congr 1; omega
        rw [hw]
        have hgranted : min (out.length * 3 / 2) nb ≤ out.length
            ∨ grants resized.length (min (out.length * 3 / 2) nb) = true :=
          Or.inr (hgr _ _ (le_trans (min_le_left _ _)
            (Nat.div_le_div_right (Nat.mul_le_mul_right 3 hlenL))))
        simp only [tryResize, hst, if_pos hgranted]
        apply ih
        · rw [resize_length]; exact hgrow
        · rw [resize_length]; exact hmin
        · exact hlenL
        · rw [resize_length]
          rcases h2 with h2 | h2
          · left; omega
          · right; omega
        · rw [resize_length]
          rcases Nat.lt_or_ge (out.length) (min (out.length * 3 / 2) nb) with hg | hg
          · left; exact hg
          · right
            rcases h2 with h2 | h2
            · have : out.length < out.length * 3 / 2 := by omega
              rcases Nat.le_total (out.length * 3 / 2) nb with hc | hc
              · rw [min_eq_left hc] at hg; omega
              · exact min_eq_right hc
            · omega
        · rw [resize_take _ _ _ hgrow (by rw [hst]), htk]
        · omega
    · rw [if_neg hlt]
      have hcap : out.length = nb := by
        rcases hfullcap with h | h
        · exact absurd h hlt
        · exact h
      refine ⟨_, rfl, rfl, ?_, hs, ht⟩
      simp only
      omega

theorem firstSize_le (st_size : Int) (nb : Nat) : firstSize st_size nb ≤ nb :=
  min_le_right _ _

theorem firstSize_two (st_size : Int) (nb : Nat) :
    2 ≤ firstSize st_size nb ∨ firstSize st_size nb = nb := by
  have hx : 2 ≤ (if st_size > 0 then st_size.toNat + 1 else initialAlloc) := by
    split
    · omega
    · simp [initialAlloc]
  unfold firstSize
  rcases Nat.le_total (if st_size > 0 then st_size.toNat + 1 else initialAlloc) nb with h | h
  · left; rw [min_eq_left h]; exact hx
  · right; exact min_eq_right h

/-- C19 as amended: on a descriptor whose reads never fail, where `readFull`
comes back short only at the end of the stream, for every file content of
length `L`, every size `st_size` reported by `fstat`, every previous content
of `out` and every `num_bytes`, when the container can be made as large as
the first size asked for and as `3 L / 2` bytes: `readFile` returns within
`L + 1` loop tests, returns true and leaves in `out` the first
`min L num_bytes` bytes of the file; no size it asks of `resize` exceeds
`num_bytes`, and the assertion of its scope guard holds. -/
theorem readFile_reads_up_to_num_bytes (grants : Nat → Nat → Bool)
    (content out0 : List UInt8) (fd st_size : Int) (num_bytes extra : Nat)
    (hgr : ∀ i n, n ≤ max (firstSize st_size num_bytes) (content.length * 3 / 2) →
      grants i n = true) :
    ∃ r, readFile grants streamReadFull (content.length + 1 + extra) content fd (some st_size)
            out0 num_bytes = some r
      ∧ r.ret = ReadFileEnd.returned true
      ∧ r.out = content.take (min content.length num_bytes)
      ∧ (∀ n ∈ r.resized, n ≤ num_bytes)
      ∧ r.asserted = true := by
  have hlen := resize_length out0 (firstSize st_size num_bytes)
  have hcap := firstSize_le st_size num_bytes
  have hor := firstSize_two st_size num_bytes
  have hfirst : tryResize grants 0 out0 (firstSize st_size num_bytes)
      = some (resize out0 (firstSize st_size num_bytes)) := by
    simp only [tryResize, hgr 0 _ (le_max_left _ _), or_true, if_true]
  obtain ⟨e, he, hret, hsf, hle, htk⟩ := readFileLoop_stream grants fd num_bytes content
    (fun i n hn => hgr i n (le_trans hn (le_max_right _ _)))
    (content.length + 1 + extra) (resize out0 (firstSize st_size num_bytes)) 0
    [firstSize st_size num_bytes] []
    (Nat.zero_le _) (by rw [hlen]; exact hcap) (Nat.zero_le _) (by rw [hlen]; exact hor)
    (by rw [hlen]; rcases hor with h | h
        · left; omega
        · right; exact h)
    rfl (by omega)
  have hsafe := readFileLoop_safe grants streamReadFull fd num_bytes
    (fun w c => streamReadFull_wellFormed fd w c) (content.length + 1 + extra) content
    (resize out0 (firstSize st_size num_bytes)) 0 [firstSize st_size num_bytes] [] e
    (Nat.zero_le _) (by rw [hlen]; exact hcap) (by simp [delivered]) (by simp)
    (by intro n hn; simp only [List.mem_singleton] at hn; rw [hn]; exact hcap) he
  refine ⟨readFileScopeExit e, ?_, hret, ?_, ?_, ?_⟩
  · simp only [readFile, hfirst]
    rw [show List.drop 0 content = content from rfl] at he
    rw [he]
    rfl
  · simp only [readFileScopeExit]
    rw [resize_of_le _ _ hle, htk, hsf]
  · intro n hn
    simp only [readFileScopeExit] at hn
    rcases List.mem_append.mp hn with hn | hn
    · exact hsafe.2.2.2.1 n hn
    · simp only [List.mem_singleton] at hn
      rw [hn]
      exact le_trans hsafe.1 hsafe.2.1
  · simp only [readFileScopeExit, decide_eq_true_eq]
    exact hle

/-- Witness of C19 as amended: the file holds `"abc"`, `fstat` reports one byte
and the container can be made as large as eight bytes; `readFile` returns
true with `"abc"`. -/
theorem readFile_reads_up_to_num_bytes_witness :
    ∃ r, readFile (grantsUpTo 8) streamReadFull ((bytes "abc").length + 1 + 0) (bytes "abc") 3
            (some 1) [] 10 = some r
      ∧ r.ret = ReadFileEnd.returned true
      ∧ r.out = (bytes "abc").take (min (bytes "abc").length 10)
      ∧ (∀ n ∈ r.resized, n ≤ 10)
      ∧ r.asserted = true :=
  readFile_reads_up_to_num_bytes (grantsUpTo 8) (bytes "abc") [] 3 1 10 0
    (by
      intro i n hn
      have h4 : max (firstSize 1 10) ((bytes "abc").length * 3 / 2) = 4 := by decide
      rw [h4] at hn
      simp only [grantsUpTo, decide_eq_true_eq]
      omega)

/-- Counterexample to C19: the file holds the three bytes `"abc"`, `fstat`
reports a size of `2^62`, `num_bytes` is the default `2^64 - 1`, no syscall
fails, and the container cannot be made larger than `2^40` bytes. The first
`out.resize(2^62 + 1)` throws: `readFile` does not return true, the
exception leaves it, and `out` is empty. -/
theorem readFile_huge_hint_throws :
    (readFile (grantsUpTo (2 ^ 40)) streamReadFull 4 (bytes "abc") 3
        (some 4611686018427387904) [] 18446744073709551615).map
        (fun r => (r.ret, r.out, r.resized))
      = some (ReadFileEnd.threw, [], [4611686018427387905, 0]) := by
  decide

/-- C20 as amended: for every `readFull` within its contract, every answer of
`fstat`, every previous content of `out` and whatever `resize` is granted,
`readFile` is left within `num_bytes + 2` loop tests, and however it is
left, by a `return` or by the exception of a refused `resize`, the
container is cut to the counter `soFar` and holds exactly the bytes that the
successful calls of `readFull` delivered (none when `fstat` fails; what a
failing `readFull` had already stored is cut off); the assertion of the
scope guard holds; only the last call of `readFull` can have failed;
`readFile` returns false exactly when `fstat` failed or that call did; and
it throws only when a `resize` that it asked for, of at most `num_bytes`
bytes, was refused. -/
theorem readFile_sized_to_bytes_read {σ : Type} (grants : Nat → Nat → Bool)
    (readFull : σ → Int → Nat → ReadFullResult × σ) (fd : Int)
    (hwf : ∀ w c, ((readFull w fd c).1).WellFormed c)
    (w : σ) (st : Option Int) (out0 : List UInt8) (num_bytes : Nat) :
    (∀ fuel, num_bytes + 2 ≤ fuel →
      (readFile grants readFull fuel w fd st out0 num_bytes).isSome = true)
    ∧ (∀ fuel r, readFile grants readFull fuel w fd st out0 num_bytes = some r →
        r.out.length = r.soFar
        ∧ r.out = delivered r.reads
        ∧ r.asserted = true
        ∧ (∀ x ∈ r.reads.dropLast, x.n ≠ -1)
        ∧ (r.ret = ReadFileEnd.returned false ↔ st = none ∨ ∃ x ∈ r.reads, x.n = -1)
        ∧ (st = none → r.out = [] ∧ r.reads = [])
        ∧ (r.ret = ReadFileEnd.threw →
            ∃ i n, n ∈ r.resized ∧ n ≤ num_bytes ∧ grants i n = false)) := by
  cases st with
  | none =>
    refine ⟨fun fuel _ => rfl, fun fuel r h => ?_⟩
    simp only [readFile, Option.map_some', Option.some.injEq] at h
    subst h
    simp [readFileScopeExit, resize, delivered]
  | some st_size =>
    have hlen := resize_length out0 (firstSize st_size num_bytes)
    have hcap := firstSize_le st_size num_bytes
    by_cases hg : firstSize st_size num_bytes ≤ out0.length
        ∨ grants 0 (firstSize st_size num_bytes) = true
    · have hfirst : tryResize grants 0 out0 (firstSize st_size num_bytes)
          = some (resize out0 (firstSize st_size num_bytes)) := by
        simp only [tryResize, if_pos hg]
      refine ⟨fun fuel hf => ?_, fun fuel r h => ?_⟩
      · simp only [readFile, hfirst, Option.isSome_map']
        exact readFileLoop_live grants readFull fd num_bytes hwf _ _ _ _ _ _ (Nat.zero_le _)
          (by rw [hlen]; exact hcap) (Or.inl (by omega))
      · simp only [readFile, hfirst, Option.map_eq_some'] at h
        obtain ⟨e, he, hr⟩ := h
        have hsafe := readFileLoop_safe grants readFull fd num_bytes hwf fuel w
          (resize out0 (firstSize st_size num_bytes)) 0 [firstSize st_size num_bytes] [] e
          (Nat.zero_le _) (by rw [hlen]; exact hcap) (by simp [delivered]) (by simp)
          (by intro n hn; simp only [List.mem_singleton] at hn; rw [hn]; exact hcap) he
        subst hr
        simp only [readFileScopeExit, decide_eq_true_eq]
        refine ⟨?_, ?_, hsafe.1, hsafe.2.2.2.2.1, ?_, ?_, ?_⟩
        · rw [resize_length]
        · rw [resize_of_le _ _ hsafe.1, hsafe.2.2.1]
        · simp [hsafe.2.2.2.2.2.1]
        · intro h; cases h
        · intro ht
          obtain ⟨i, n, hn, hgi⟩ := hsafe.2.2.2.2.2.2 ht
          exact ⟨i, n, List.mem_append_left _ hn, hsafe.2.2.2.1 n hn, hgi⟩
    · have hfirst : tryResize grants 0 out0 (firstSize st_size num_bytes) = none := by
        simp only [tryResize, if_neg hg]
      refine ⟨fun fuel _ => by simp only [readFile, hfirst]; rfl, fun fuel r h => ?_⟩
      simp only [readFile, hfirst, Option.map_some', Option.some.injEq] at h
      subst h
      refine ⟨by simp [readFileScopeExit, resize_length],
        by simp [readFileScopeExit, resize, delivered], by simp [readFileScopeExit],
        by simp [readFileScopeExit], by simp [readFileScopeExit], (fun h => by cases h),
        fun _ => ⟨0, firstSize st_size num_bytes, by simp [readFileScopeExit], hcap, ?_⟩⟩
      have := (not_or.mp hg).2
      simpa using this

/-- Witness of C20 as amended: `fstat` reports one byte, the first `readFull`
fills the two bytes allocated, the second fails after it has stored a third;
`readFile` returns false and leaves the two bytes of the first call. -/
theorem readFile_sized_to_bytes_read_witness :
    ∃ r, readFile (grantsUpTo 8) failsSecond 5 0 3 (some 1) [] 10 = some r
      ∧ r.ret = ReadFileEnd.returned false ∧ r.out = [7, 7]
      ∧ (r.out.length = r.soFar
        ∧ r.out = delivered r.reads
        ∧ r.asserted = true
        ∧ (∀ x ∈ r.reads.dropLast, x.n ≠ -1)
        ∧ (r.ret = ReadFileEnd.returned false
            ↔ (some (1 : Int)) = none ∨ ∃ x ∈ r.reads, x.n = -1)
        ∧ ((some (1 : Int)) = none → r.out = [] ∧ r.reads = [])
        ∧ (r.ret = ReadFileEnd.threw →
            ∃ i n, n ∈ r.resized ∧ n ≤ 10 ∧ grantsUpTo 8 i n = false)) :=
  ⟨_, rfl, rfl, rfl,
    (readFile_sized_to_bytes_read (grantsUpTo 8) failsSecond 3
      (fun w c => by
        unfold failsSecond ReadFullResult.WellFormed
        split <;> simp)
      0 (some 1) [] 10).2 5 _ rfl⟩

/-- Counterexample to C20: `fstat` reports the largest size there is,
`2^63 - 1`, and `num_bytes` is the default `2^64 - 1`; no container takes
`2^63` bytes (here: none more than `2^40`). The first `out.resize(2^63)`
throws and the exception leaves `readFile`, which has read nothing of the
file `"abc"`; `out`, which held `"previous"`, is empty. -/
theorem readFile_raises_on_refused_resize :
    (readFile (grantsUpTo (2 ^ 40)) streamReadFull 4 (bytes "abc") 3
        (some 9223372036854775807) (bytes "previous") 18446744073709551615).map
        (fun r => (r.ret, r.out, r.reads))
      = some (ReadFileEnd.threw, [], []) := by
  decide


/-! ## writeFileAtomicNoThrow -/

theorem tempSuffix_eq : tempSuffix = bytes ".XXXXXX" := by decide

theorem takeWhile_append_stop (p : UInt8 → Bool) (a b : List UInt8) (c : UInt8)
    (ha : ∀ x ∈ a, p x = true) (hc : p c = false) :
    (a ++ c :: b).takeWhile p = a := by
  induction a with
  | nil => simp [List.takeWhile, hc]
  | cons x a ih =>
    have hx : p x = true := ha x (List.mem_cons_self _ _)
    simp only [List.cons_append, List.takeWhile_cons, hx, if_true]
    rw [ih (fun y hy => ha y (List.mem_cons_of_mem _ hy))]

theorem takeWhile_append_all (p : UInt8 → Bool) (a b : List UInt8)
    (ha : ∀ x ∈ a, p x = true) :
    (a ++ b).takeWhile p = a ++ b.takeWhile p := by
  induction a with
  | nil => rfl
  | cons x a ih =>
    have hx : p x = true := ha x (List.mem_cons_self _ _)
    simp only [List.cons_append, List.takeWhile_cons, hx, if_true]
    rw [ih (fun y hy => ha y (List.mem_cons_of_mem _ hy))]

/-- The path buffer holds the file name, a NUL, the file name again and the
seven characters `.XXXXXX`; no NUL follows them inside the vector. -/
theorem pathBuffer_eq (filename : List UInt8) :
    pathBuffer filename = filename ++ 0 :: (filename ++ bytes ".XXXXXX") := by
  have h7 : (bytes ".XXXXXX").length = 7 := by decide
  apply List.ext_getElem
  · simp only [pathBuffer, tempSuffix_eq, store, resize, List.length_append, List.length_take,
      List.length_drop, List.length_set, List.length_replicate, List.length_cons, h7,
      List.length_nil]
    omega
  · intro i h1 h2
    simp only [pathBuffer, tempSuffix_eq, store, resize, List.take_nil, List.nil_append,
      List.length_nil, Nat.sub_zero, List.take_zero, Nat.zero_add]
    simp only [List.length_append, List.length_cons, h7] at h2
    simp only [List.getElem_append, List.getElem_cons, List.length_take, List.length_append,
      List.length_drop, List.length_set, List.length_replicate, List.getElem_take,
      List.getElem_drop, List.getElem_set, List.getElem_replicate, h7]
    split_ifs <;> first | rfl | omega | (congr 1; omega)

theorem no_nul (filename : List UInt8) (hnul : (0 : UInt8) ∉ filename) :
    ∀ x ∈ filename, decide (x ≠ 0) = true := by
  intro x hx
  simp only [decide_eq_true_eq]
  intro h
  exact hnul (h ▸ hx)

/-- For a file name without a NUL, `filenameCStr` is the file name. -/
theorem filenameCStr_eq (filename beyond : List UInt8) (hnul : (0 : UInt8) ∉ filename) :
    filenameCStr filename beyond = filename := by
  unfold filenameCStr cstr
  rw [pathBuffer_eq, List.drop_zero, List.append_assoc, List.cons_append]
  exact takeWhile_append_stop _ _ _ _ (no_nul filename hnul) (by decide)

/-- For a file name without a NUL, the template `mkstemp` reads is the file
name, `.XXXXXX`, and whatever lies behind the vector up to the first NUL. -/
theorem tempTemplate_eq (filename beyond : List UInt8) (hnul : (0 : UInt8) ∉ filename) :
    tempTemplate filename beyond = filename ++ bytes ".XXXXXX" ++ cstr beyond 0 := by
  unfold tempTemplate cstr
  have hd : (pathBuffer filename ++ beyond).drop (filename.length + 1)
      = filename ++ (bytes ".XXXXXX" ++ beyond) := by
    rw [pathBuffer_eq]
    have : filename ++ 0 :: (filename ++ bytes ".XXXXXX") ++ beyond
        = (filename ++ [0]) ++ (filename ++ (bytes ".XXXXXX" ++ beyond)) := by simp
    rw [this, List.drop_left' (by simp)]
  rw [hd, List.drop_zero, takeWhile_append_all _ _ _ (no_nul filename hnul),
    takeWhile_append_all _ _ _ (by decide), List.append_assoc]

/-- The temporary file never has the name of the destination. -/
theorem tempName_ne (chosen filename beyond : List UInt8) (hnul : (0 : UInt8) ∉ filename) :
    tempName chosen (tempTemplate filename beyond) ≠ filename := by
  intro h
  have hl := congrArg List.length h
  have h7 : (bytes ".XXXXXX").length = 7 := by decide
  simp only [tempName, tempTemplate_eq filename beyond hnul, List.length_append, List.length_take,
    h7] at hl
  omega

theorem Fs.changeOpen_other (w : Fs) (fd : Int) (change : FileNode → FileNode)
    (q : List UInt8) (hq : w.pathOf fd ≠ some q) : w.changeOpen fd change q = w.files q := by
  cases hp : w.pathOf fd with
  | none => simp only [Fs.changeOpen, hp]
  | some path =>
    have hne : q ≠ path := fun h => hq (by rw [hp, h])
    cases hf : w.files path with
    | none => simp only [Fs.changeOpen, hp, hf]
    | some node => simp only [Fs.changeOpen, hp, hf, setFile, if_neg hne]

theorem Fs.writev_facts (fd : Int) (w : Fs) (iov : List iovec) (n : Nat) (off : Option Int) :
    (Fs.writev fd w iov n off).2.log = w.log ++ [(FsCall.writev fd iov n, (Fs.writev fd w iov n off).1)]
    ∧ (Fs.writev fd w iov n off).2.opened = w.opened
    ∧ (Fs.writev fd w iov n off).2.oracle = w.oracle
    ∧ (Fs.writev fd w iov n off).2.chosen = w.chosen
    ∧ (Fs.writev fd w iov n off).2.errno = (Fs.writev fd w iov n off).1.errno
    ∧ (∀ q, w.pathOf fd ≠ some q → (Fs.writev fd w iov n off).2.files q = w.files q)
    ∧ ((Fs.writev fd w iov n off).1.r = -1 ∨ 0 ≤ (Fs.writev fd w iov n off).1.r) := by
  refine ⟨rfl, rfl, rfl, rfl, rfl, ?_, ?_⟩
  · intro q hq
    exact Fs.changeOpen_other w fd _ q hq
  · simp only [Fs.writev]
    cases w.oracle w.log.length with
    | ok k => right; simp [Outcome.ret]
    | fail e => left; rfl

theorem Fs.pathOf_congr (w w2 : Fs) (fd : Int) (h : w2.opened = w.opened) :
    w2.pathOf fd = w.pathOf fd := by
  unfold Fs.pathOf; rw [h]

/-- What `writevFull` does to the world of `writeFileAtomicNoThrow`: it issues
`writev` calls on the descriptor and nothing else, touches no file but the
one the descriptor refers to, and returns -1 exactly when its last `writev`
failed, with `errno` as that call set it. -/
theorem writevFull_fs (fd : Int) :
    ∀ (fuel : Nat) (w : Fs) (iov : List iovec) (count : Nat) (off : Option Int) (total rc : Int)
      (w2 : Fs), 0 ≤ total →
      wrapvFull (Fs.writev fd) fuel w iov count off total = some (rc, w2) →
      ∃ writes, w2.log = w.log ++ writes
        ∧ (∀ c ∈ writes, ∃ iov1 n, c.1 = FsCall.writev fd iov1 n)
        ∧ w2.opened = w.opened ∧ w2.oracle = w.oracle ∧ w2.chosen = w.chosen
        ∧ (∀ q, w.pathOf fd ≠ some q → w2.files q = w.files q)
        ∧ (rc = -1 → ∃ pre c e, writes = pre ++ [(c, Ret.mk (-1) e)] ∧ e ≠ EINTR ∧ w2.errno = e)
        ∧ (rc ≠ -1 → ∀ c ∈ writes, ¬ (c.2.r = -1 ∧ c.2.errno ≠ EINTR)) := by
  intro fuel
  induction fuel with
  | zero => intro w iov count off total rc w2 _ h; simp [wrapvFull] at h
  | succ fuel ih =>
    intro w iov count off total rc w2 ht h
    obtain ⟨hlog, hop, hor, hch, herr, hfiles, hr⟩ := Fs.writev_facts fd w iov (min count 16) off
    have hrec : ∀ (iov1 : List iovec) (count1 : Nat) (off1 : Option Int) (total1 : Int),
        0 ≤ total1 →
        ¬ ((Fs.writev fd w iov (min count 16) off).1.r = -1
            ∧ (Fs.writev fd w iov (min count 16) off).1.errno ≠ EINTR) →
        wrapvFull (Fs.writev fd) fuel (Fs.writev fd w iov (min count 16) off).2 iov1 count1 off1
          total1 = some (rc, w2) →
        ∃ writes, w2.log = w.log ++ writes
        ∧ (∀ c ∈ writes, ∃ iov1 n, c.1 = FsCall.writev fd iov1 n)
        ∧ w2.opened = w.opened ∧ w2.oracle = w.oracle ∧ w2.chosen = w.chosen
        ∧ (∀ q, w.pathOf fd ≠ some q → w2.files q = w.files q)
        ∧ (rc = -1 → ∃ pre c e, writes = pre ++ [(c, Ret.mk (-1) e)] ∧ e ≠ EINTR ∧ w2.errno = e)
        ∧ (rc ≠ -1 → ∀ c ∈ writes, ¬ (c.2.r = -1 ∧ c.2.errno ≠ EINTR)) := by
      intro iov1 count1 off1 total1 ht1 hsoft hrun
      obtain ⟨writes, h1, h2, h3, h4, h5, h6, h7, h8⟩ := ih _ _ _ _ _ _ _ ht1 hrun
      refine ⟨(FsCall.writev fd iov (min count 16), (Fs.writev fd w iov (min count 16) off).1)
        :: writes, ?_, ?_, h3.trans hop, h4.trans hor, h5.trans hch, ?_, ?_, ?_⟩
      · rw [h1, hlog, List.append_assoc]; rfl
      · intro c hc
        rcases List.mem_cons.mp hc with hc | hc
        · exact ⟨iov, min count 16, by rw [hc]⟩
        · exact h2 c hc
      · intro q hq
        rw [h6 q (by rw [Fs.pathOf_congr w _ fd hop]; exact hq), hfiles q hq]
      · intro hrc
        obtain ⟨pre, c, e, hw, hne, he⟩ := h7 hrc
        exact ⟨_ :: pre, c, e, by rw [hw]; rfl, hne, he⟩
      · intro hrc c hc
        rcases List.mem_cons.mp hc with hc | hc
        · rw [hc]; exact hsoft
        · exact h8 hrc c hc
    have hone : ∀ (v : Int), (v = -1 → (Fs.writev fd w iov (min count 16) off).1.r = -1
          ∧ (Fs.writev fd w iov (min count 16) off).1.errno ≠ EINTR) →
        (v ≠ -1 → ¬ ((Fs.writev fd w iov (min count 16) off).1.r = -1
            ∧ (Fs.writev fd w iov (min count 16) off).1.errno ≠ EINTR)) →
        some (v, (Fs.writev fd w iov (min count 16) off).2) = some (rc, w2) →
        ∃ writes, w2.log = w.log ++ writes
        ∧ (∀ c ∈ writes, ∃ iov1 n, c.1 = FsCall.writev fd iov1 n)
        ∧ w2.opened = w.opened ∧ w2.oracle = w.oracle ∧ w2.chosen = w.chosen
        ∧ (∀ q, w.pathOf fd ≠ some q → w2.files q = w.files q)
        ∧ (rc = -1 → ∃ pre c e, writes = pre ++ [(c, Ret.mk (-1) e)] ∧ e ≠ EINTR ∧ w2.errno = e)
        ∧ (rc ≠ -1 → ∀ c ∈ writes, ¬ (c.2.r = -1 ∧ c.2.errno ≠ EINTR)) := by
      intro v hv1 hv2 heq
      simp only [Option.some.injEq, Prod.mk.injEq] at heq
      obtain ⟨hv, hw⟩ := heq
      subst hv; subst hw
      refine ⟨[(FsCall.writev fd iov (min count 16), (Fs.writev fd w iov (min count 16) off).1)],
        hlog, ?_, hop, hor, hch, hfiles, ?_, ?_⟩
      · intro c hc
        simp only [List.mem_singleton] at hc
        exact ⟨iov, min count 16, by rw [hc]⟩
      · intro hrc
        refine ⟨[], FsCall.writev fd iov (min count 16),
          (Fs.writev fd w iov (min count 16) off).1.errno, ?_, (hv1 hrc).2, herr⟩
        have := (hv1 hrc).1
        rw [← this]
        rfl
      · intro hrc c hc
        simp only [List.mem_singleton] at hc
        rw [hc]
        exact hv2 hrc
    unfold wrapvFull at h
    simp only at h
    by_cases hm : (Fs.writev fd w iov (min count 16) off).1.r = -1
    · rw [if_pos hm] at h
      by_cases hi : (Fs.writev fd w iov (min count 16) off).1.errno = EINTR
      · rw [if_pos hi] at h
        by_cases hc : count ≠ 0
        · rw [if_pos hc] at h
          exact hrec _ _ _ _ ht (fun hh => hh.2 hi) h
        · rw [if_neg hc] at h
          exact hone total (fun hv => by omega) (fun _ hh => hh.2 hi) h
      · rw [if_neg hi] at h
        exact hone _ (fun _ => ⟨hm, hi⟩) (fun hv => absurd hm hv) h
    · rw [if_neg hm] at h
      have hpos : 0 ≤ (Fs.writev fd w iov (min count 16) off).1.r := by
        rcases hr with h1 | h1
        · exact absurd h1 hm
        · exact h1
      by_cases hz : (Fs.writev fd w iov (min count 16) off).1.r = 0
      · rw [if_pos hz] at h
        exact hone total (fun hv => by omega) (fun _ hh => hm hh.1) h
      · rw [if_neg hz] at h
        cases ha : advanceIov iov count (Fs.writev fd w iov (min count 16) off).1.r.toNat with
        | none => rw [ha] at h; simp at h
        | some p =>
          obtain ⟨iov1, count1⟩ := p
          rw [ha] at h
          simp only at h
          by_cases hc : count1 ≠ 0
          · rw [if_pos hc] at h
            exact hrec _ _ _ _ (by omega) (fun hh => hm hh.1) h
          · rw [if_neg hc] at h
            exact hone _ (fun hv => by omega) (fun _ hh => hm hh.1) h

/-- On the world of `writeFileAtomicNoThrow`, `writevFull` on an array of
`iov.length` entries returns once the interruptions have come to an end and
it is allowed one call more than there are interruptions and bytes. -/
theorem writevFull_fs_live (fd : Int) (K : Nat) :
    ∀ (fuel : Nat) (w : Fs) (iov : List iovec) (off : Option Int) (total : Int),
      (∀ i, K ≤ i → w.oracle i ≠ Outcome.fail EINTR) →
      (K - w.log.length) + iovLen iov + 1 ≤ fuel →
      (wrapvFull (Fs.writev fd) fuel w iov iov.length off total).isSome = true := by
  intro fuel
  induction fuel with
  | zero => intro w iov off total _ hf; omega
  | succ g ih =>
    intro w iov off total hK hf
    cases ho : w.oracle w.log.length with
    | fail e =>
      by_cases he : e = EINTR
      · subst he
        have hlt : w.log.length < K := by
          by_contra h
          exact hK w.log.length (by omega) ho
        by_cases hc : iov.length = 0
        · simp [wrapvFull, Fs.writev, ho, Outcome.ret, hc]
        · simp only [wrapvFull, Fs.writev, ho, Outcome.ret, if_true, ne_eq, hc,
            not_false_eq_true]
          apply ih
          · exact hK
          · simp only [Fs.record, List.length_append, List.length_singleton]; omega
      · simp [wrapvFull, Fs.writev, ho, Outcome.ret, he]
    | ok m =>
      have hr1 : ¬ (((min m (iovLen (iov.take (min iov.length 16))) : Nat) : Int) = -1) := by
        omega
      have hle : min m (iovLen (iov.take (min iov.length 16))) ≤ iovLen iov :=
        le_trans (Nat.min_le_right _ _) (iovLen_take_le _ _)
      by_cases hz : ((min m (iovLen (iov.take (min iov.length 16))) : Nat) : Int) = 0
      · simp only [wrapvFull, Fs.writev, ho, Outcome.ret, hr1, if_false, hz, if_true]
        rfl
      · obtain ⟨iov1, j, p, hadv, hx1, hlen1, hx2⟩ :=
          advanceIov_spec iov (min m (iovLen (iov.take (min iov.length 16)))) hle
        clear hx1 hx2
        have hz0 : min m (iovLen (iov.take (min iov.length 16))) ≠ 0 := by
          intro h
          exact hz (by exact_mod_cast h)
        by_cases hc1 : iov1.length = 0
        · simp only [wrapvFull, Fs.writev, ho, Outcome.ret, hr1, if_false, hz,
            Int.toNat_ofNat, hadv, ne_eq, hc1, not_true_eq_false]
          rfl
        · simp only [wrapvFull, Fs.writev, ho, Outcome.ret, hr1, if_false, hz,
            Int.toNat_ofNat, hadv, ne_eq, hc1, not_false_eq_true, if_true]
          apply ih
          · exact hK
          · simp only [Fs.record, List.length_append, List.length_singleton]; omega

theorem Ret.eq_failed (x : Ret) (h : x.r = -1) : x = Ret.mk (-1) x.errno := by
  cases x; simp only at h; rw [h]

theorem Outcome.status_r (o : Outcome) (errno : Int) :
    (o.status errno).r = -1 ∨ (o.status errno).r = 0 := by
  cases o
  · right; rfl
  · left; rfl

theorem Fs.mkstemp_facts (w : Fs) (T : List UInt8) :
    (w.mkstemp T).2.2.log = w.log ++ [(FsCall.mkstemp T, (w.mkstemp T).1)]
    ∧ (w.mkstemp T).2.2.oracle = w.oracle
    ∧ ((w.mkstemp T).1.r = -1 → (w.mkstemp T).2.2.files = w.files)
    ∧ ((w.mkstemp T).1.r ≠ -1 →
        (w.mkstemp T).2.1 = tempName w.chosen T
        ∧ (w.mkstemp T).2.2.pathOf (w.mkstemp T).1.r = some (tempName w.chosen T)
        ∧ ∀ q, q ≠ tempName w.chosen T → (w.mkstemp T).2.2.files q = w.files q) := by
  by_cases h : (w.mkstempRet T).r = -1
  · simp only [Fs.mkstemp, if_pos h]
    exact ⟨rfl, rfl, fun _ => rfl, fun h2 => absurd h h2⟩
  · simp only [Fs.mkstemp, if_neg h]
    refine ⟨rfl, rfl, fun h2 => absurd h2 h, fun _ => ⟨trivial, ?_, ?_⟩⟩
    · simp [Fs.pathOf]
    · intro q hq
      simp [setFile, hq]

theorem Fs.fchmod_facts (w : Fs) (fd : Int) (mode : Nat) :
    (w.fchmod fd mode).2.log = w.log ++ [(FsCall.fchmod fd mode, (w.fchmod fd mode).1)]
    ∧ (w.fchmod fd mode).2.oracle = w.oracle
    ∧ (∀ q, w.pathOf fd ≠ some q → (w.fchmod fd mode).2.files q = w.files q)
    ∧ ((w.fchmod fd mode).1.r = -1 ∨ (w.fchmod fd mode).1.r = 0) := by
  refine ⟨rfl, rfl, ?_, Outcome.status_r _ _⟩
  intro q hq
  simp only [Fs.fchmod]
  split
  · rfl
  · exact Fs.changeOpen_other w fd _ q hq

theorem Fs.close_facts (w : Fs) (fd : Int) :
    (w.close fd).2.log = w.log ++ [(FsCall.close fd, (w.close fd).1)]
    ∧ (w.close fd).2.oracle = w.oracle
    ∧ (w.close fd).2.files = w.files
    ∧ ((w.close fd).1.r = -1 ∨ (w.close fd).1.r = 0) :=
  ⟨rfl, rfl, rfl, Outcome.status_r _ _⟩

theorem Fs.rename_facts (w : Fs) (old new : List UInt8) :
    (w.rename old new).2.log = w.log ++ [(FsCall.rename old new, (w.rename old new).1)]
    ∧ (w.rename old new).2.oracle = w.oracle
    ∧ ((w.rename old new).1.r = -1 → (w.rename old new).2.files = w.files)
    ∧ ((w.rename old new).1.r ≠ -1 → (w.rename old new).2.files new = w.files old)
    ∧ ((w.rename old new).1.r = -1 ∨ (w.rename old new).1.r = 0) := by
  refine ⟨rfl, rfl, ?_, ?_, Outcome.status_r _ _⟩
  · intro h
    have h2 : ((w.oracle w.log.length).status w.errno).r = -1 := h
    simp only [Fs.rename, if_pos h2]
  · intro h
    have h2 : ¬ ((w.oracle w.log.length).status w.errno).r = -1 := h
    simp only [Fs.rename, if_neg h2, if_true]

theorem Fs.unlink_facts (w : Fs) (path : List UInt8) :
    (w.unlink path).2.log = w.log ++ [(FsCall.unlink path, (w.unlink path).1)]
    ∧ (∀ q, q ≠ path → (w.unlink path).2.files q = w.files q)
    ∧ ((w.unlink path).1.r = 0 → (w.unlink path).2.files path = none) := by
  refine ⟨rfl, ?_, ?_⟩
  · intro q hq
    simp only [Fs.unlink]
    split
    · rfl
    · simp [setFile, hq]
  · intro h
    have hne : ¬ ((w.unlink path).1.r = -1) := by omega
    simp only [Fs.unlink] at hne ⊢
    rw [if_neg hne]
    simp [setFile]

/-- The scope guard on a path that did not reach `success = true`: it closes
the descriptor if it is still open, then unlinks the temporary file; no
other file changes, and the temporary file is gone when `unlink` succeeds. -/
theorem atomicScopeExit_failure (w : Fs) (fd : Int) (P : List UInt8) :
    ∃ pre u, (atomicScopeExit w fd false P).log = w.log ++ (pre ++ [(FsCall.unlink P, u)])
      ∧ (fd ≠ -1 → ∃ cl, pre = [(FsCall.close fd, cl)]) ∧ (fd = -1 → pre = [])
      ∧ (∀ q, q ≠ P → (atomicScopeExit w fd false P).files q = w.files q)
      ∧ (u.r = 0 → (atomicScopeExit w fd false P).files P = none) := by
  by_cases hfd : fd = -1
  · have h : atomicScopeExit w fd false P = (w.unlink P).2 := by
      simp [atomicScopeExit, hfd]
    obtain ⟨h1, h2, h3⟩ := Fs.unlink_facts w P
    refine ⟨[], (w.unlink P).1, by rw [h, h1]; rfl, fun h => absurd hfd h, fun _ => rfl, ?_, ?_⟩
    · intro q hq; rw [h]; exact h2 q hq
    · intro hu; rw [h]; exact h3 hu
  · have h : atomicScopeExit w fd false P = ((w.close fd).2.unlink P).2 := by
      simp [atomicScopeExit, hfd]
    obtain ⟨h1, h2, h3⟩ := Fs.unlink_facts (w.close fd).2 P
    obtain ⟨c1, _, c3, _⟩ := Fs.close_facts w fd
    refine ⟨[(FsCall.close fd, (w.close fd).1)], ((w.close fd).2.unlink P).1, ?_,
      fun _ => ⟨_, rfl⟩, fun h => absurd h hfd, ?_, ?_⟩
    · rw [h, h1, c1]; simp
    · intro q hq; rw [h, h2 q hq, c3]
    · intro hu; rw [h]; exact h3 hu

/-- Every run of `writeFileAtomicNoThrow` that returns, step by step. -/
theorem writeFileAtomicNoThrow_steps (fuel : Nat) (w : Fs) (filename beyond : List UInt8)
    (iov : List iovec) (count permissions : Nat) (v : Int) (w1 : Fs)
    (hrun : writeFileAtomicNoThrow fuel w filename beyond iov count permissions = some (v, w1)) :
    ∃ (m : Ret) (writes tail : List (FsCall × Ret)),
      w1.log = w.log ++ (FsCall.mkstemp (tempTemplate filename beyond), m) :: (writes ++ tail)
      ∧ (∀ c ∈ writes, ∃ iov1 n, c.1 = FsCall.writev m.r iov1 n)
      ∧ ((m.r = -1 ∧ v = m.errno ∧ writes = [] ∧ tail = [] ∧ w1.files = w.files)
        ∨ (m.r ≠ -1 ∧ ∃ pre c e cl u, writes = pre ++ [(c, Ret.mk (-1) e)] ∧ e ≠ EINTR ∧ v = e
            ∧ tail = [(FsCall.close m.r, cl),
                      (FsCall.unlink (tempName w.chosen (tempTemplate filename beyond)), u)]
            ∧ (∀ q, q ≠ tempName w.chosen (tempTemplate filename beyond) →
                  w1.files q = w.files q)
            ∧ (u.r = 0 → w1.files (tempName w.chosen (tempTemplate filename beyond)) = none))
        ∨ (m.r ≠ -1 ∧ (∀ c ∈ writes, ¬ (c.2.r = -1 ∧ c.2.errno ≠ EINTR)) ∧ ∃ e cl u, v = e
            ∧ tail = [(FsCall.fchmod m.r permissions, Ret.mk (-1) e), (FsCall.close m.r, cl),
                      (FsCall.unlink (tempName w.chosen (tempTemplate filename beyond)), u)]
            ∧ (∀ q, q ≠ tempName w.chosen (tempTemplate filename beyond) →
                  w1.files q = w.files q)
            ∧ (u.r = 0 → w1.files (tempName w.chosen (tempTemplate filename beyond)) = none))
        ∨ (m.r ≠ -1 ∧ (∀ c ∈ writes, ¬ (c.2.r = -1 ∧ c.2.errno ≠ EINTR)) ∧ ∃ e c u, v = e
            ∧ c.r = 0
            ∧ tail = [(FsCall.fchmod m.r permissions, c), (FsCall.close m.r, Ret.mk (-1) e),
                      (FsCall.unlink (tempName w.chosen (tempTemplate filename beyond)), u)]
            ∧ (∀ q, q ≠ tempName w.chosen (tempTemplate filename beyond) →
                  w1.files q = w.files q)
            ∧ (u.r = 0 → w1.files (tempName w.chosen (tempTemplate filename beyond)) = none))
        ∨ (m.r ≠ -1 ∧ (∀ c ∈ writes, ¬ (c.2.r = -1 ∧ c.2.errno ≠ EINTR)) ∧ ∃ e c d u, v = e
            ∧ c.r = 0 ∧ d.r = 0
            ∧ tail = [(FsCall.fchmod m.r permissions, c), (FsCall.close m.r, d),
                      (FsCall.rename (tempName w.chosen (tempTemplate filename beyond))
                        (filenameCStr filename beyond), Ret.mk (-1) e),
                      (FsCall.unlink (tempName w.chosen (tempTemplate filename beyond)), u)]
            ∧ (∀ q, q ≠ tempName w.chosen (tempTemplate filename beyond) →
                  w1.files q = w.files q)
            ∧ (u.r = 0 → w1.files (tempName w.chosen (tempTemplate filename beyond)) = none))
        ∨ (m.r ≠ -1 ∧ (∀ c ∈ writes, ¬ (c.2.r = -1 ∧ c.2.errno ≠ EINTR)) ∧ ∃ c d r, v = 0
            ∧ c.r = 0 ∧ d.r = 0 ∧ r.r = 0
            ∧ tail = [(FsCall.fchmod m.r permissions, c), (FsCall.close m.r, d),
                      (FsCall.rename (tempName w.chosen (tempTemplate filename beyond))
                        (filenameCStr filename beyond), r)])) := by
  obtain ⟨ml, mo, mfail, mok⟩ := Fs.mkstemp_facts w (tempTemplate filename beyond)
  unfold writeFileAtomicNoThrow at hrun
  simp only at hrun
  by_cases hm : (w.mkstemp (tempTemplate filename beyond)).1.r = -1
  · rw [if_pos hm] at hrun
    simp only [Option.some.injEq, Prod.mk.injEq] at hrun
    obtain ⟨hv, hw1⟩ := hrun
    subst hv; subst hw1
    exact ⟨(w.mkstemp (tempTemplate filename beyond)).1, [], [], by rw [ml]; rfl, by simp,
      Or.inl ⟨hm, rfl, rfl, rfl, mfail hm⟩⟩
  · rw [if_neg hm] at hrun
    obtain ⟨hname, hpath, hfilesm⟩ := mok hm
    rw [hname] at hrun
    cases hw : wrapvFull (Fs.writev (w.mkstemp (tempTemplate filename beyond)).1.r) fuel
        (w.mkstemp (tempTemplate filename beyond)).2.2 iov count none 0 with
    | none => rw [hw] at hrun; simp at hrun
    | some p =>
      obtain ⟨rc, w2⟩ := p
      rw [hw] at hrun
      simp only at hrun
      obtain ⟨writes, wl, wcalls, wop, wor, wch, wfiles, wfail, wok⟩ :=
        writevFull_fs _ _ _ _ _ _ _ _ _ (le_refl 0) hw
      have hother : ∀ q, q ≠ tempName w.chosen (tempTemplate filename beyond) →
          (w.mkstemp (tempTemplate filename beyond)).2.2.pathOf
            (w.mkstemp (tempTemplate filename beyond)).1.r ≠ some q := by
        intro q hq
        rw [hpath]
        intro h
        exact hq (Option.some.inj h).symm
      have hw2D : ∀ q, q ≠ tempName w.chosen (tempTemplate filename beyond) →
          w2.files q = w.files q := by
        intro q hq
        rw [wfiles q (hother q hq), hfilesm q hq]
      have hw2p : ∀ q, q ≠ tempName w.chosen (tempTemplate filename beyond) →
          w2.pathOf (w.mkstemp (tempTemplate filename beyond)).1.r ≠ some q := by
        intro q hq
        rw [Fs.pathOf_congr _ _ _ wop]; exact hother q hq
      have hbase : w2.log = w.log ++ (FsCall.mkstemp (tempTemplate filename beyond),
          (w.mkstemp (tempTemplate filename beyond)).1) :: writes := by
        rw [wl, ml]; simp
      by_cases hrc : rc = -1
      · rw [if_pos hrc] at hrun
        simp only [Option.some.injEq, Prod.mk.injEq] at hrun
        obtain ⟨hv, hw1⟩ := hrun
        obtain ⟨pre, c, e, hwr, hne, he⟩ := wfail hrc
        obtain ⟨spre, u, sl, sopen, _, sfiles, srem⟩ := atomicScopeExit_failure w2
          (w.mkstemp (tempTemplate filename beyond)).1.r
          (tempName w.chosen (tempTemplate filename beyond))
        obtain ⟨cl, hcl⟩ := sopen hm
        subst hcl
        refine ⟨_, writes, _, ?_, wcalls, Or.inr (Or.inl ⟨hm, pre, c, e, cl, u, hwr, hne,
          by rw [← hv, he], rfl, ?_, ?_⟩)⟩
        · rw [← hw1, sl, hbase]; simp
        · intro q hq
          rw [← hw1, sfiles q hq, hw2D q hq]
        · intro hu; rw [← hw1]; exact srem hu
      · rw [if_neg hrc] at hrun
        obtain ⟨cl1, co, cfiles, cr⟩ := Fs.fchmod_facts w2
          (w.mkstemp (tempTemplate filename beyond)).1.r permissions
        by_cases hc : (w2.fchmod (w.mkstemp (tempTemplate filename beyond)).1.r permissions).1.r
            = -1
        · rw [if_pos hc] at hrun
          simp only [Option.some.injEq, Prod.mk.injEq] at hrun
          obtain ⟨hv, hw1⟩ := hrun
          obtain ⟨spre, u, sl, sopen, _, sfiles, srem⟩ := atomicScopeExit_failure
            (w2.fchmod (w.mkstemp (tempTemplate filename beyond)).1.r permissions).2
            (w.mkstemp (tempTemplate filename beyond)).1.r
            (tempName w.chosen (tempTemplate filename beyond))
          obtain ⟨cl, hcl⟩ := sopen hm
          subst hcl
          refine ⟨_, writes, _, ?_, wcalls, Or.inr (Or.inr (Or.inl ⟨hm, wok hrc, _, cl, u,
            hv.symm, rfl, ?_, ?_⟩))⟩
          · rw [← hw1, sl, cl1, hbase, Ret.eq_failed _ hc]; simp
          · intro q hq
            rw [← hw1, sfiles q hq, cfiles q (hw2p q hq), hw2D q hq]
          · intro hu; rw [← hw1]; exact srem hu
        · rw [if_neg hc] at hrun
          have hc0 : (w2.fchmod (w.mkstemp (tempTemplate filename beyond)).1.r permissions).1.r
              = 0 := by
            rcases cr with h | h
            · exact absurd h hc
            · exact h
          obtain ⟨dl, do_, dfiles, dr⟩ := Fs.close_facts
            (w2.fchmod (w.mkstemp (tempTemplate filename beyond)).1.r permissions).2
            (w.mkstemp (tempTemplate filename beyond)).1.r
          by_cases hd : ((w2.fchmod (w.mkstemp (tempTemplate filename beyond)).1.r
              permissions).2.close (w.mkstemp (tempTemplate filename beyond)).1.r).1.r = -1
          · rw [if_pos hd] at hrun
            simp only [Option.some.injEq, Prod.mk.injEq] at hrun
            obtain ⟨hv, hw1⟩ := hrun
            obtain ⟨spre, u, sl, _, sclosed, sfiles, srem⟩ := atomicScopeExit_failure
              ((w2.fchmod (w.mkstemp (tempTemplate filename beyond)).1.r permissions).2.close
                (w.mkstemp (tempTemplate filename beyond)).1.r).2
              (-1) (tempName w.chosen (tempTemplate filename beyond))
            have hs := sclosed rfl
            subst hs
            refine ⟨_, writes, _, ?_, wcalls, Or.inr (Or.inr (Or.inr (Or.inl ⟨hm, wok hrc, _,
              _, u, hv.symm, hc0, rfl, ?_, ?_⟩)))⟩
            · rw [← hw1, sl, dl, cl1, hbase, Ret.eq_failed _ hd]; simp
            · intro q hq
              rw [← hw1, sfiles q hq, dfiles, cfiles q (hw2p q hq), hw2D q hq]
            · intro hu; rw [← hw1]; exact srem hu
          · rw [if_neg hd] at hrun
            have hd0 : ((w2.fchmod (w.mkstemp (tempTemplate filename beyond)).1.r
                permissions).2.close (w.mkstemp (tempTemplate filename beyond)).1.r).1.r
                = 0 := by
              rcases dr with h | h
              · exact absurd h hd
              · exact h
            obtain ⟨rl, ro, rfail, _, rr⟩ := Fs.rename_facts
              ((w2.fchmod (w.mkstemp (tempTemplate filename beyond)).1.r permissions).2.close
                (w.mkstemp (tempTemplate filename beyond)).1.r).2
              (tempName w.chosen (tempTemplate filename beyond))
                  (filenameCStr filename beyond)
            by_cases hr : (((w2.fchmod (w.mkstemp (tempTemplate filename beyond)).1.r
                permissions).2.close (w.mkstemp (tempTemplate filename beyond)).1.r).2.rename
                (tempName w.chosen (tempTemplate filename beyond))
                  (filenameCStr filename beyond)).1.r = -1
            · rw [if_pos hr] at hrun
              simp only [Option.some.injEq, Prod.mk.injEq] at hrun
              obtain ⟨hv, hw1⟩ := hrun
              obtain ⟨spre, u, sl, _, sclosed, sfiles, srem⟩ := atomicScopeExit_failure
                (((w2.fchmod (w.mkstemp (tempTemplate filename beyond)).1.r
                  permissions).2.close (w.mkstemp (tempTemplate filename beyond)).1.r).2.rename
                  (tempName w.chosen (tempTemplate filename beyond))
                  (filenameCStr filename beyond)).2
                (-1) (tempName w.chosen (tempTemplate filename beyond))
              have hs := sclosed rfl
              subst hs
              refine ⟨_, writes, _, ?_, wcalls, Or.inr (Or.inr (Or.inr (Or.inr (Or.inl ⟨hm,
                wok hrc, _, _, _, u, hv.symm, hc0, hd0, rfl, ?_, ?_⟩))))⟩
              · rw [← hw1, sl, rl, dl, cl1, hbase, Ret.eq_failed _ hr]; simp
              · intro q hq
                rw [← hw1, sfiles q hq, rfail hr, dfiles, cfiles q (hw2p q hq), hw2D q hq]
              · intro hu; rw [← hw1]; exact srem hu
            · rw [if_neg hr] at hrun
              simp only [Option.some.injEq, Prod.mk.injEq] at hrun
              obtain ⟨hv, hw1⟩ := hrun
              have hr0 : (((w2.fchmod (w.mkstemp (tempTemplate filename beyond)).1.r
                  permissions).2.close
                  (w.mkstemp (tempTemplate filename beyond)).1.r).2.rename
                  (tempName w.chosen (tempTemplate filename beyond))
                  (filenameCStr filename beyond)).1.r = 0 := by
                rcases rr with h | h
                · exact absurd h hr
                · exact h
              refine ⟨_, writes, _, ?_, wcalls, Or.inr (Or.inr (Or.inr (Or.inr (Or.inr ⟨hm,
                wok hrc, _, _, _, hv.symm, hc0, hd0, hr0, rfl⟩))))⟩
              rw [← hw1]
              simp only [atomicScopeExit, ne_eq, not_true_eq_false, if_false]
              rw [rl, dl, cl1, hbase]; simp

/-- `writeFileAtomicNoThrow` returns once `writevFull` does. -/
theorem writeFileAtomicNoThrow_returns (fuel K : Nat) (w : Fs) (filename beyond : List UInt8)
    (iov : List iovec) (permissions : Nat)
    (hK : ∀ i, K ≤ i → w.oracle i ≠ Outcome.fail EINTR) (hf : K + iovLen iov + 1 ≤ fuel) :
    (writeFileAtomicNoThrow fuel w filename beyond iov iov.length permissions).isSome = true := by
  obtain ⟨ml, mo, _, _⟩ := Fs.mkstemp_facts w (tempTemplate filename beyond)
  unfold writeFileAtomicNoThrow
  simp only
  by_cases hm : (w.mkstemp (tempTemplate filename beyond)).1.r = -1
  · rw [if_pos hm]; rfl
  · rw [if_neg hm]
    have hlive := writevFull_fs_live (w.mkstemp (tempTemplate filename beyond)).1.r K fuel
      (w.mkstemp (tempTemplate filename beyond)).2.2 iov none 0 (by rw [mo]; exact hK)
      (by omega)
    obtain ⟨p, hp⟩ := Option.isSome_iff_exists.mp hlive
    rw [hp]
    simp only
    split
    · rfl
    · split
      · rfl
      · split
        · rfl
        · split <;> rfl

/-- C18 as amended: `writeFileAtomicNoThrow` returns once the interruptions of
`writev` have come to an end, and every run that returns has issued
`mkstemp` on the template, then `writev` calls on the descriptor `mkstemp`
returned, and then ended in one of six ways. (1) `mkstemp` returned -1:
nothing more is issued, its `errno` is returned and no file has changed.
(2) the last `writev` returned -1 with an `errno` other than `EINTR`:
`close` and `unlink` of the temporary file follow. (3) `fchmod` returned
-1, (4) `close` returned -1, (5) `rename` returned -1: each is followed only
by what the scope guard issues, `close` if the descriptor is still open and
`unlink` of the temporary file. In (2) to (5) the value returned is the
`errno` of the failing call, every file other than the temporary one is
what it was before the call, and the temporary file is gone when `unlink`
succeeded (its result is not looked at). (6) every step succeeded: `rename`
of the temporary file to the destination is the last call and 0 is
returned. For a file name without a NUL the destination handed to `rename`
is the file name and the temporary file has another name, so that in (1) to
(5) the destination is what it was. -/
theorem writeFileAtomicNoThrow_failure_steps (fuel K : Nat) (w : Fs)
    (filename beyond : List UInt8) (iov : List iovec) (permissions : Nat) :
    ((∀ i, K ≤ i → w.oracle i ≠ Outcome.fail EINTR) → K + iovLen iov + 1 ≤ fuel →
      (writeFileAtomicNoThrow fuel w filename beyond iov iov.length permissions).isSome = true)
    ∧ (∀ (count : Nat) (v : Int) (w1 : Fs),
      writeFileAtomicNoThrow fuel w filename beyond iov count permissions = some (v, w1) →
      ∃ (m : Ret) (writes tail : List (FsCall × Ret)),
        w1.log = w.log ++ (FsCall.mkstemp (tempTemplate filename beyond), m) :: (writes ++ tail)
        ∧ (∀ c ∈ writes, ∃ iov1 n, c.1 = FsCall.writev m.r iov1 n)
        ∧ ((m.r = -1 ∧ v = m.errno ∧ writes = [] ∧ tail = [] ∧ w1.files = w.files)
          ∨ (m.r ≠ -1 ∧ ∃ pre c e cl u, writes = pre ++ [(c, Ret.mk (-1) e)] ∧ e ≠ EINTR ∧ v = e
              ∧ tail = [(FsCall.close m.r, cl),
                        (FsCall.unlink (tempName w.chosen (tempTemplate filename beyond)), u)]
              ∧ (∀ q, q ≠ tempName w.chosen (tempTemplate filename beyond) →
                  w1.files q = w.files q)
              ∧ (u.r = 0 → w1.files (tempName w.chosen (tempTemplate filename beyond)) = none))
          ∨ (m.r ≠ -1 ∧ (∀ c ∈ writes, ¬ (c.2.r = -1 ∧ c.2.errno ≠ EINTR)) ∧ ∃ e cl u, v = e
              ∧ tail = [(FsCall.fchmod m.r permissions, Ret.mk (-1) e), (FsCall.close m.r, cl),
                        (FsCall.unlink (tempName w.chosen (tempTemplate filename beyond)), u)]
              ∧ (∀ q, q ≠ tempName w.chosen (tempTemplate filename beyond) →
                  w1.files q = w.files q)
              ∧ (u.r = 0 → w1.files (tempName w.chosen (tempTemplate filename beyond)) = none))
          ∨ (m.r ≠ -1 ∧ (∀ c ∈ writes, ¬ (c.2.r = -1 ∧ c.2.errno ≠ EINTR)) ∧ ∃ e c u, v = e
              ∧ c.r = 0
              ∧ tail = [(FsCall.fchmod m.r permissions, c), (FsCall.close m.r, Ret.mk (-1) e),
                        (FsCall.unlink (tempName w.chosen (tempTemplate filename beyond)), u)]
              ∧ (∀ q, q ≠ tempName w.chosen (tempTemplate filename beyond) →
                  w1.files q = w.files q)
              ∧ (u.r = 0 → w1.files (tempName w.chosen (tempTemplate filename beyond)) = none))
          ∨ (m.r ≠ -1 ∧ (∀ c ∈ writes, ¬ (c.2.r = -1 ∧ c.2.errno ≠ EINTR)) ∧ ∃ e c d u, v = e
              ∧ c.r = 0 ∧ d.r = 0
              ∧ tail = [(FsCall.fchmod m.r permissions, c), (FsCall.close m.r, d),
                        (FsCall.rename (tempName w.chosen (tempTemplate filename beyond))
                          (filenameCStr filename beyond), Ret.mk (-1) e),
                        (FsCall.unlink (tempName w.chosen (tempTemplate filename beyond)), u)]
              ∧ (∀ q, q ≠ tempName w.chosen (tempTemplate filename beyond) →
                  w1.files q = w.files q)
              ∧ (u.r = 0 → w1.files (tempName w.chosen (tempTemplate filename beyond)) = none))
          ∨ (m.r ≠ -1 ∧ (∀ c ∈ writes, ¬ (c.2.r = -1 ∧ c.2.errno ≠ EINTR)) ∧ ∃ c d r, v = 0
              ∧ c.r = 0 ∧ d.r = 0 ∧ r.r = 0
              ∧ tail = [(FsCall.fchmod m.r permissions, c), (FsCall.close m.r, d),
                        (FsCall.rename (tempName w.chosen (tempTemplate filename beyond))
                          (filenameCStr filename beyond), r)])))
    ∧ ((0 : UInt8) ∉ filename →
        filenameCStr filename beyond = filename
        ∧ tempName w.chosen (tempTemplate filename beyond) ≠ filename) :=
  ⟨fun hK hf => writeFileAtomicNoThrow_returns fuel K w filename beyond iov permissions hK hf,
   fun count v w1 hrun =>
    writeFileAtomicNoThrow_steps fuel w filename beyond iov count permissions v w1 hrun,
   fun hnul => ⟨filenameCStr_eq filename beyond hnul, tempName_ne w.chosen filename beyond hnul⟩⟩

/-- Witness of C18 as amended: the file `"f"` holds `"old"`; three bytes are to be written
and `fchmod` fails with `errno` 5. The call returns 5 after `mkstemp`,
`writev`, `fchmod`, `close` and `unlink`; `"f"` still holds `"old"` and the
temporary file is gone. -/
theorem writeFileAtomicNoThrow_failure_steps_witness :
    (writeFileAtomicNoThrow 5 (failsAt 2) (bytes "f") [0] [iovec.mk 0 3] 1 0o600).isSome = true
    ∧ (writeFileAtomicNoThrow 5 (failsAt 2) (bytes "f") [0] [iovec.mk 0 3] 1 0o600).map
        (fun p => (p.1, p.2.log.map (fun c => c.1), p.2.files (bytes "f"),
          p.2.files (bytes "f.Ab3dE9")))
      = some (5, [FsCall.mkstemp (bytes "f.XXXXXX"), FsCall.writev 4096 [iovec.mk 0 3] 1,
                  FsCall.fchmod 4096 0o600, FsCall.close 4096, FsCall.unlink (bytes "f.Ab3dE9")],
              some (FileNode.mk (bytes "old") 0o644), none) :=
  ⟨(writeFileAtomicNoThrow_failure_steps 5 0 (failsAt 2) (bytes "f") [0] [iovec.mk 0 3]
      0o600).1
      (by
        intro i _
        by_cases h : i = 2 <;> simp [failsAt, h, EINTR])
      (by decide),
   by decide⟩

/-- Counterexample to C18: the file `"f"` holds `"old"`; three bytes are to be
written, `fchmod` fails with `errno` 5 and the `unlink` of the scope guard
fails with `errno` 13. The call returns 5 after `mkstemp`, `writev`,
`fchmod`, `close` and `unlink`, and the temporary file is still there, with
the three bytes written to it. -/
theorem writeFileAtomicNoThrow_keeps_temp_when_unlink_fails :
    (writeFileAtomicNoThrow 5 chmodAndUnlinkFail (bytes "f") [0] [iovec.mk 0 3] 1 0o644).map
        (fun p => (p.1, p.2.log, p.2.files (bytes "f"), p.2.files (bytes "f.Ab3dE9")))
      = some (5, [(FsCall.mkstemp (bytes "f.XXXXXX"), Ret.mk 4096 0),
                  (FsCall.writev 4096 [iovec.mk 0 3] 1, Ret.mk 3 0),
                  (FsCall.fchmod 4096 0o644, Ret.mk (-1) 5),
                  (FsCall.close 4096, Ret.mk 0 5),
                  (FsCall.unlink (bytes "f.Ab3dE9"), Ret.mk (-1) 13)],
              some (FileNode.mk (bytes "old") 0o644),
              some (FileNode.mk (bytes "xxx") 0o600)) := by
  decide

/-- C17 (evaluation of the code): the file `"f"` holds `"old"`; one buffer of
three bytes `"xxx"` is to be written with mode 0600, every call succeeds,
and `writev` is answered 0 at its first call, a write that takes no byte.
`writevFull` returns 0, which `writeFileAtomicNoThrow` does not compare with
the three bytes it asked for: it renames the empty temporary file onto `"f"`
and returns 0. The same happens with no unusual answer at all for sixteen
empty buffers followed by one of one byte, where `writevFull` stops short. -/
theorem writeFileAtomicNoThrow_accepts_short_write :
    (writeFileAtomicNoThrow 5 zeroByteWrite (bytes "f") [0] [iovec.mk 0 3] 1 0o600).map
        (fun p => (p.1, p.2.files (bytes "f")))
      = some (0, some (FileNode.mk [] 0o600))
    ∧ iovBytes zeroByteWrite.mem [iovec.mk 0 3] = bytes "xxx"
    ∧ (writeFileAtomicNoThrow 5 oneOldFile (bytes "f") [0] sixteenEmptyThenOne 17 0o600).map
        (fun p => (p.1, p.2.files (bytes "f")))
      = some (0, some (FileNode.mk [] 0o600))
    ∧ iovBytes oneOldFile.mem sixteenEmptyThenOne = bytes "x" := by
  decide


/-! ## The cursors, the accesses and the passes of `readLine` -/

theorem memchr_bound (mem : List UInt8) (s : Nat) (c : UInt8) (n p : Nat)
    (h : memchr mem s c n = some p) : s ≤ p ∧ p < s + n ∧ p < mem.length := by
  unfold memchr at h
  simp only at h
  split at h
  · rename_i hc
    have hlt := List.indexOf_lt_length.2 hc
    simp only [List.length_take, List.length_drop] at hlt
    simp only [Option.some.injEq] at h
    omega
  · cases h

theorem memmove_length (mem : List UInt8) (src n : Nat) (h : src + n ≤ mem.length) :
    (memmove mem 0 src n).length = mem.length := by
  simp only [memmove, List.take_zero, List.nil_append, List.length_append, List.length_take,
    List.length_drop, Nat.zero_add]
  omega

/-- The traced loop is the loop: without the log it is `readLineLoop`. -/
theorem readLineLoopTrace_erase {σ : Type} (rd : σ → Int → Nat → ReadFullResult × σ) :
    ∀ (fuel : Nat) (w : σ) (lr : LineReader) (tr : List Access),
      (readLineLoopTrace rd fuel w lr tr).map (fun r => (r.1, r.2.1))
        = readLineLoop rd fuel w lr := by
  intro fuel
  induction fuel with
  | zero => intro w lr tr; rfl
  | succ fuel ih =>
    intro w lr tr
    unfold readLineLoopTrace readLineLoop
    cases memchr lr.mem lr.eol_ newlineChar (lr.end_ - lr.eol_) with
    | some newline => rfl
    | none =>
      simp only
      split
      · rfl
      · exact ih _ _ _

/-- The traced call is the call: without the log it is `readLine`. -/
theorem readLineTrace_erase {σ : Type} (rd : σ → Int → Nat → ReadFullResult × σ)
    (fuel : Nat) (w : σ) (lr : LineReader) :
    (lr.readLineTrace rd fuel w).map (fun r => (r.1, r.2.1, r.2.2.1, r.2.2.2.1))
      = lr.readLine rd fuel w := by
  have h := readLineLoopTrace_erase rd fuel w { lr with bol_ := lr.eol_ } []
  unfold LineReader.readLineTrace LineReader.readLine
  rw [← h]
  cases readLineLoopTrace rd fuel w { lr with bol_ := lr.eol_ } [] with
  | none => rfl
  | some r => rfl

/-- A pass that leaves the loop: the reader is ordered when it was, and only the
search has touched the buffer. -/
theorem readLineLoopTrace_exit {σ : Type} (rd : σ → Int → Nat → ReadFullResult × σ)
    (fuel : Nat) (w : σ) (lr : LineReader) (tr0 : List Access) (h1 : lr.eol_ ≤ lr.end_)
    (hexit : (memchr lr.mem lr.eol_ newlineChar (lr.end_ - lr.eol_)).isSome = true
      ∨ lr.state_ ≠ State.kReading ∨ (lr.bol_ = 0 ∧ lr.end_ = lr.bufEnd_)) :
    ∃ e, readLineLoopTrace rd (fuel + 1) w lr tr0
        = some (w, { lr with eol_ := e },
            tr0 ++ [Access.memchr lr.eol_ ((lr.end_ : Int) - (lr.eol_ : Int))])
      ∧ lr.eol_ ≤ e ∧ e ≤ lr.end_
      ∧ ((memchr lr.mem lr.eol_ newlineChar (lr.end_ - lr.eol_)).isSome = false → e = lr.end_)
      := by
  cases hm : memchr lr.mem lr.eol_ newlineChar (lr.end_ - lr.eol_) with
  | some p =>
    have hp := memchr_bound _ _ _ _ _ hm
    refine ⟨p + 1, ?_, by omega, by omega, fun h => by simp at h⟩
    rw [readLineLoopTrace]
    simp only [hm]
  | none =>
    have hstop : lr.state_ ≠ State.kReading ∨ (lr.bol_ = 0 ∧ lr.end_ = lr.bufEnd_) := by
      rcases hexit with h | h
      · rw [hm] at h; simp at h
      · exact h
    refine ⟨lr.end_, ?_, h1, le_refl _, fun _ => rfl⟩
    rw [readLineLoopTrace]
    simp only [hm, if_pos hstop]

/-- Every `readLine` loop entered with ordered cursors, on a `readFull` within
its contract, is left within two passes. Either it has not read: the one
access is the search, and the world, the state, the buffer and `end_` are
what they were. Or the stream state was `kReading` and it has compacted and
read once, asking for the free room `bufSize - (end_ - eol_)`, which is
at least one byte, and searched a second time in what was read. -/
theorem readLineLoopTrace_shape {σ : Type} (rd : σ → Int → Nat → ReadFullResult × σ)
    (f : Nat) (w : σ) (lr : LineReader) (tr0 : List Access)
    (hb : lr.bol_ ≤ lr.eol_) (h1 : lr.eol_ ≤ lr.end_) (h2 : lr.end_ ≤ lr.mem.length)
    (hwf : (rd w lr.fd_ (lr.mem.length - (lr.end_ - lr.eol_))).1.WellFormed
      (lr.mem.length - (lr.end_ - lr.eol_))) :
    ∃ w1 lr1 tr, readLineLoopTrace rd (f + 2) w lr tr0 = some (w1, lr1, tr0 ++ tr)
      ∧ lr1.bol_ ≤ lr1.eol_ ∧ lr1.eol_ ≤ lr1.end_ ∧ lr1.end_ ≤ lr1.mem.length
      ∧ lr1.mem.length = lr.mem.length ∧ lr1.fd_ = lr.fd_
      ∧ ((tr = [Access.memchr lr.eol_ ((lr.end_ : Int) - (lr.eol_ : Int))]
            ∧ w1 = w ∧ lr1.state_ = lr.state_ ∧ lr1.mem = lr.mem ∧ lr1.end_ = lr.end_
            ∧ lr1.bol_ = lr.bol_
            ∧ (lr.state_ = State.kReading → lr.eol_ < lr1.eol_
                ∨ (lr.bol_ = 0 ∧ lr.end_ = lr.mem.length)))
         ∨ (lr.state_ = State.kReading ∧ lr.end_ - lr.eol_ < lr.mem.length
            ∧ w1 = (rd w lr.fd_ (lr.mem.length - (lr.end_ - lr.eol_))).2
            ∧ ∃ n2 : Nat, (lr.end_ - lr.eol_) + n2 ≤ lr.mem.length
              ∧ tr = [Access.memchr lr.eol_ ((lr.end_ : Int) - (lr.eol_ : Int)),
                      Access.memmove 0 lr.eol_ ((lr.end_ : Int) - (lr.eol_ : Int)),
                      Access.readFull (lr.end_ - lr.eol_)
                        ((lr.mem.length : Int) - ((lr.end_ - lr.eol_ : Nat) : Int)),
                      Access.memchr (lr.end_ - lr.eol_) (n2 : Int)])) := by
  by_cases hexit : (memchr lr.mem lr.eol_ newlineChar (lr.end_ - lr.eol_)).isSome = true
      ∨ lr.state_ ≠ State.kReading ∨ (lr.bol_ = 0 ∧ lr.end_ = lr.bufEnd_)
  · obtain ⟨e, hrun, he1, he2, he3⟩ := readLineLoopTrace_exit rd (f + 1) w lr tr0 h1 hexit
    refine ⟨w, { lr with eol_ := e }, _, hrun, by simp only; omega, he2, h2, rfl, rfl,
      Or.inl ⟨rfl, rfl, rfl, rfl, rfl, rfl, ?_⟩⟩
    intro hk
    simp only
    rcases hexit with h | h | h
    · left
      cases hm : memchr lr.mem lr.eol_ newlineChar (lr.end_ - lr.eol_) with
      | none => rw [hm] at h; simp at h
      | some p =>
        have hp := memchr_bound _ _ _ _ _ hm
        rw [readLineLoopTrace] at hrun
        simp only [hm, Option.some.injEq, Prod.mk.injEq] at hrun
        have : p + 1 = e := by
          have := congrArg LineReader.eol_ hrun.2.1
          simpa using this
        omega
    · exact absurd hk h
    · right; exact h
  · have hnone : memchr lr.mem lr.eol_ newlineChar (lr.end_ - lr.eol_) = none := by
      cases hm : memchr lr.mem lr.eol_ newlineChar (lr.end_ - lr.eol_) with
      | none => rfl
      | some p => exact absurd (Or.inl (by rw [hm]; rfl)) hexit
    have hgo : ¬ (lr.state_ ≠ State.kReading ∨ (lr.bol_ = 0 ∧ lr.end_ = lr.bufEnd_)) :=
      fun h => hexit (Or.inr h)
    have hk : lr.state_ = State.kReading := by
      by_contra h
      exact hgo (Or.inl h)
    have hroom : lr.end_ - lr.eol_ < lr.mem.length := by
      by_contra h
      apply hgo
      right
      unfold LineReader.bufEnd_
      omega
    have hdl := hwf.1
    have hml : (memmove lr.mem 0 lr.eol_ (lr.end_ - lr.eol_)).length = lr.mem.length :=
      memmove_length _ _ _ (by omega)
    have hsl : (store (memmove lr.mem 0 lr.eol_ (lr.end_ - lr.eol_)) (lr.end_ - lr.eol_)
        (rd w lr.fd_ (lr.mem.length - (lr.end_ - lr.eol_))).1.data).length = lr.mem.length := by
      rw [store_length _ _ _ (by rw [hml]; omega), hml]
    have hn : (if (rd w lr.fd_ (lr.mem.length - (lr.end_ - lr.eol_))).1.n < 0 then (0 : Int)
        else (rd w lr.fd_ (lr.mem.length - (lr.end_ - lr.eol_))).1.n).toNat
          ≤ lr.mem.length - (lr.end_ - lr.eol_) := by
      rcases hwf.2 with h | h
      · rw [h]; simp
      · rw [h]
        simp only [Int.natCast_nonneg, not_lt.mpr, if_false, Int.toNat_ofNat]
        exact hdl
    have hstep : readLineLoopTrace rd (f + 2) w lr tr0
        = readLineLoopTrace rd (f + 1) (rd w lr.fd_ (lr.mem.length - (lr.end_ - lr.eol_))).2
            { lr with
              mem := store (memmove lr.mem 0 lr.eol_ (lr.end_ - lr.eol_)) (lr.end_ - lr.eol_)
                (rd w lr.fd_ (lr.mem.length - (lr.end_ - lr.eol_))).1.data,
              bol_ := 0, eol_ := lr.end_ - lr.eol_,
              end_ := (lr.end_ - lr.eol_)
                + (if (rd w lr.fd_ (lr.mem.length - (lr.end_ - lr.eol_))).1.n < 0 then (0 : Int)
                   else (rd w lr.fd_ (lr.mem.length - (lr.end_ - lr.eol_))).1.n).toNat,
              state_ :=
                if (rd w lr.fd_ (lr.mem.length - (lr.end_ - lr.eol_))).1.n < 0 then State.kError
                else if (rd w lr.fd_ (lr.mem.length - (lr.end_ - lr.eol_))).1.n
                    < ((lr.mem.length - (lr.end_ - lr.eol_) : Nat) : Int) then State.kEof
                else lr.state_ }
            (tr0 ++ [Access.memchr lr.eol_ ((lr.end_ : Int) - (lr.eol_ : Int))]
              ++ [Access.memmove 0 lr.eol_ ((lr.end_ : Int) - (lr.eol_ : Int)),
                  Access.readFull (lr.end_ - lr.eol_)
                    ((lr.mem.length : Int) - ((lr.end_ - lr.eol_ : Nat) : Int))]) := by
      rw [readLineLoopTrace]
      simp only [hnone, if_neg hgo]
      simp only [Nat.sub_zero, LineReader.bufEnd_]
    rw [hstep]
    obtain ⟨e, hrun, he1, he2, he3⟩ := readLineLoopTrace_exit rd f
      (rd w lr.fd_ (lr.mem.length - (lr.end_ - lr.eol_))).2
      ({ lr with
              mem := store (memmove lr.mem 0 lr.eol_ (lr.end_ - lr.eol_)) (lr.end_ - lr.eol_)
                (rd w lr.fd_ (lr.mem.length - (lr.end_ - lr.eol_))).1.data,
              bol_ := 0, eol_ := lr.end_ - lr.eol_,
              end_ := (lr.end_ - lr.eol_)
                + (if (rd w lr.fd_ (lr.mem.length - (lr.end_ - lr.eol_))).1.n < 0 then (0 : Int)
                   else (rd w lr.fd_ (lr.mem.length - (lr.end_ - lr.eol_))).1.n).toNat,
              state_ :=
                if (rd w lr.fd_ (lr.mem.length - (lr.end_ - lr.eol_))).1.n < 0 then State.kError
                else if (rd w lr.fd_ (lr.mem.length - (lr.end_ - lr.eol_))).1.n
                    < ((lr.mem.length - (lr.end_ - lr.eol_) : Nat) : Int) then State.kEof
                else lr.state_ } : LineReader)
      (tr0 ++ [Access.memchr lr.eol_ ((lr.end_ : Int) - (lr.eol_ : Int))]
        ++ [Access.memmove 0 lr.eol_ ((lr.end_ : Int) - (lr.eol_ : Int)),
            Access.readFull (lr.end_ - lr.eol_)
              ((lr.mem.length : Int) - ((lr.end_ - lr.eol_ : Nat) : Int))])
      (Nat.le_add_right _ _)
      (by
        right
        by_cases hst : (if (rd w lr.fd_ (lr.mem.length - (lr.end_ - lr.eol_))).1.n < 0
            then State.kError
            else if (rd w lr.fd_ (lr.mem.length - (lr.end_ - lr.eol_))).1.n
                < ((lr.mem.length - (lr.end_ - lr.eol_) : Nat) : Int) then State.kEof
            else lr.state_) = State.kReading
        · right
          refine ⟨rfl, ?_⟩
          simp only [LineReader.bufEnd_, hsl]
          by_cases hneg : (rd w lr.fd_ (lr.mem.length - (lr.end_ - lr.eol_))).1.n < 0
          · rw [if_pos hneg] at hst; cases hst
          · rw [if_neg hneg] at hst
            by_cases hshort : (rd w lr.fd_ (lr.mem.length - (lr.end_ - lr.eol_))).1.n
                < ((lr.mem.length - (lr.end_ - lr.eol_) : Nat) : Int)
            · rw [if_pos hshort] at hst; cases hst
            · rw [if_neg hneg]
              rw [if_neg hneg] at hn
              omega
        · left; exact hst)
    rw [hrun]
    refine ⟨(rd w lr.fd_ (lr.mem.length - (lr.end_ - lr.eol_))).2,
      { ({ lr with
              mem := store (memmove lr.mem 0 lr.eol_ (lr.end_ - lr.eol_)) (lr.end_ - lr.eol_)
                (rd w lr.fd_ (lr.mem.length - (lr.end_ - lr.eol_))).1.data,
              bol_ := 0, eol_ := lr.end_ - lr.eol_,
              end_ := (lr.end_ - lr.eol_)
                + (if (rd w lr.fd_ (lr.mem.length - (lr.end_ - lr.eol_))).1.n < 0 then (0 : Int)
                   else (rd w lr.fd_ (lr.mem.length - (lr.end_ - lr.eol_))).1.n).toNat,
              state_ :=
                if (rd w lr.fd_ (lr.mem.length - (lr.end_ - lr.eol_))).1.n < 0 then State.kError
                else if (rd w lr.fd_ (lr.mem.length - (lr.end_ - lr.eol_))).1.n
                    < ((lr.mem.length - (lr.end_ - lr.eol_) : Nat) : Int) then State.kEof
                else lr.state_ } : LineReader) with eol_ := e },
      [Access.memchr lr.eol_ ((lr.end_ : Int) - (lr.eol_ : Int)),
       Access.memmove 0 lr.eol_ ((lr.end_ : Int) - (lr.eol_ : Int)),
       Access.readFull (lr.end_ - lr.eol_)
         ((lr.mem.length : Int) - ((lr.end_ - lr.eol_ : Nat) : Int)),
       Access.memchr (lr.end_ - lr.eol_)
         ((((lr.end_ - lr.eol_ + (if (rd w lr.fd_ (lr.mem.length - (lr.end_ - lr.eol_))).1.n < 0
          then (0 : Int)
          else (rd w lr.fd_ (lr.mem.length - (lr.end_ - lr.eol_))).1.n).toNat)
        - (lr.end_ - lr.eol_) : Nat) : Nat) : Int)],
      ?_, Nat.zero_le _, he2, ?_, hsl, rfl, Or.inr ⟨hk, hroom, rfl, _, ?_, rfl⟩⟩
    · simp only [List.append_assoc, List.cons_append, List.nil_append, List.singleton_append,
        Nat.add_sub_cancel_left, Nat.cast_add, add_sub_cancel_left]
    · simp only [hsl]; omega
    · omega

/-- One `readLine` call on a reader with ordered cursors, for a `readFull`
within its contract: it returns within two passes, leaves the cursors
ordered and the buffer as long as it was, touches only bytes of the buffer,
searches at most twice and reads at most once, and asks `readFull` for at
least one byte and at most `bufSize`. -/
theorem readLineTrace_step {σ : Type} (rd : σ → Int → Nat → ReadFullResult × σ)
    (f : Nat) (w : σ) (lr : LineReader) (hord : lr.Ordered)
    (hwf : (rd w lr.fd_ (lr.mem.length - (lr.end_ - lr.eol_))).1.WellFormed
      (lr.mem.length - (lr.end_ - lr.eol_))) :
    ∃ st line w1 lr1 tr, lr.readLineTrace rd (f + 2) w = some (st, line, w1, lr1, tr)
      ∧ lr1.Ordered ∧ lr1.mem.length = lr.mem.length ∧ lr1.fd_ = lr.fd_
      ∧ (∀ a ∈ tr, a.InBounds lr.mem.length)
      ∧ (tr.filter Access.isSearch).length ≤ 2
      ∧ (tr.filter Access.isRead).length ≤ 1
      ∧ (∀ dst count, Access.readFull dst count ∈ tr →
          1 ≤ count ∧ count ≤ (lr.mem.length : Int)) := by
  obtain ⟨_, _, h1, h2⟩ := hord
  unfold LineReader.bufEnd_ at h2
  obtain ⟨w1, lr1, tr, hrun, o1, o2, o3, hlen, hfd, hcase⟩ :=
    readLineLoopTrace_shape rd f w { lr with bol_ := lr.eol_ } [] (le_refl _) h1 h2 hwf
  simp only [List.nil_append] at hrun
  simp only at hlen hfd hcase
  refine ⟨if lr1.eol_ ≠ lr1.bol_ then State.kReading else lr1.state_,
    (lr1.mem.drop lr1.bol_).take (lr1.eol_ - lr1.bol_), w1, lr1, tr,
    by simp only [LineReader.readLineTrace, hrun],
    ⟨Nat.zero_le _, o1, o2, o3⟩, hlen, hfd, ?_, ?_, ?_, ?_⟩
  · rcases hcase with ⟨ht, _⟩ | ⟨_, hroom, _, n2, hn2, ht⟩
    · intro a ha
      rw [ht] at ha
      simp only [List.mem_singleton] at ha
      subst ha
      simp only [Access.InBounds]
      omega
    · intro a ha
      rw [ht] at ha
      simp only [List.mem_cons, List.mem_singleton, List.not_mem_nil, or_false] at ha
      rcases ha with ha | ha | ha | ha <;> subst ha <;> simp only [Access.InBounds] <;> omega
  · rcases hcase with ⟨ht, _⟩ | ⟨_, _, _, n2, _, ht⟩ <;> rw [ht] <;>
      simp [List.filter, Access.isSearch]
  · rcases hcase with ⟨ht, _⟩ | ⟨_, _, _, n2, _, ht⟩ <;> rw [ht] <;>
      simp [List.filter, Access.isRead]
  · intro dst count hmem
    rcases hcase with ⟨ht, _⟩ | ⟨_, hroom, _, n2, _, ht⟩
    · rw [ht] at hmem
      simp at hmem
    · rw [ht] at hmem
      simp only [List.mem_cons, List.mem_singleton, List.not_mem_nil, or_false,
        Access.readFull.injEq] at hmem
      rcases hmem with hmem | hmem | hmem | hmem
      · cases hmem
      · cases hmem
      · obtain ⟨_, hc⟩ := hmem
        omega
      · cases hmem

/-- The records of the traced calls are the results of the calls. -/
theorem readLineCalls_erase {σ : Type} (rd : σ → Int → Nat → ReadFullResult × σ) (fuel : Nat) :
    ∀ (calls : Nat) (w : σ) (lr : LineReader),
      (readLineCalls rd fuel calls w lr).map (List.map (fun r => (r.state, r.line)))
        = readLines rd fuel calls w lr := by
  intro calls
  induction calls with
  | zero => intro w lr; rfl
  | succ calls ih =>
    intro w lr
    have he := readLineTrace_erase rd fuel w lr
    unfold readLineCalls readLines
    rw [← he]
    cases lr.readLineTrace rd fuel w with
    | none => rfl
    | some r =>
      obtain ⟨st, line, w1, lr1, tr⟩ := r
      simp only [Option.map_some']
      rw [← ih w1 lr1]
      cases readLineCalls rd fuel calls w1 lr1 with
      | none => rfl
      | some rest => rfl

/-- Any number of successive calls, from a reader with ordered cursors: each
returns, leaves the cursors ordered and touches only bytes of the buffer. -/
theorem readLineCalls_ordered {σ : Type} (rd : σ → Int → Nat → ReadFullResult × σ) (fd : Int)
    (hwf : ∀ w c, ((rd w fd c).1).WellFormed c) (f : Nat) :
    ∀ (calls : Nat) (w : σ) (lr : LineReader), lr.Ordered → lr.fd_ = fd →
      ∃ recs, readLineCalls rd (f + 2) calls w lr = some recs ∧ recs.length = calls
        ∧ ∀ r ∈ recs, r.reader.Ordered ∧ r.reader.mem.length = lr.mem.length
            ∧ ∀ a ∈ r.accesses, a.InBounds lr.mem.length := by
  intro calls
  induction calls with
  | zero => intro w lr _ _; exact ⟨[], rfl, rfl, by simp⟩
  | succ calls ih =>
    intro w lr hord hfd
    obtain ⟨st, line, w1, lr1, tr, hrun, ho1, hl1, hfd1, hin, _, _, _⟩ :=
      readLineTrace_step rd f w lr hord (by rw [hfd]; exact hwf _ _)
    obtain ⟨recs, hrecs, hlen, hall⟩ := ih w1 lr1 ho1 (by rw [hfd1, hfd])
    refine ⟨CallRecord.mk st line lr1 tr :: recs, ?_, by simp [hlen], ?_⟩
    · simp only [readLineCalls, hrun, hrecs, Option.map_some']
    · intro r hr
      rcases List.mem_cons.mp hr with hr | hr
      · subst hr
        exact ⟨ho1, hl1, hin⟩
      · obtain ⟨h1, h2, h3⟩ := hall r hr
        exact ⟨h1, by rw [h2, hl1], by rw [← hl1]; exact h3⟩

/-- C21: for every buffer, every descriptor and every `readFull` within its
contract (it stores at most `count` bytes and returns -1 or their number),
the cursors are ordered, `buf_ <= bol_ <= eol_ <= end_ <= bufEnd_`, after
construction and after each of any number of successive `readLine` calls,
each of which returns; and every `memchr`, `memmove` and `readFull` issued
by those calls has a length that is not negative and a range that lies
inside `[buf_, bufEnd_)`. The calls are those of `readLines`. -/
theorem readLine_keeps_cursors_ordered {σ : Type}
    (rd : σ → Int → Nat → ReadFullResult × σ) (fd : Int) (buf : List UInt8) (w : σ)
    (calls f : Nat) (hwf : ∀ w c, ((rd w fd c).1).WellFormed c) :
    (LineReader.new fd buf).Ordered
    ∧ ∃ recs, readLineCalls rd (f + 2) calls w (LineReader.new fd buf) = some recs
        ∧ recs.length = calls
        ∧ readLines rd (f + 2) calls w (LineReader.new fd buf)
            = some (recs.map (fun r => (r.state, r.line)))
        ∧ ∀ r ∈ recs, r.reader.Ordered ∧ r.reader.bufEnd_ = buf.length
            ∧ ∀ a ∈ r.accesses, a.InBounds buf.length := by
  have hnew : (LineReader.new fd buf).Ordered := by
    simp [LineReader.Ordered, LineReader.new, LineReader.bufEnd_]
  obtain ⟨recs, hrecs, hlen, hall⟩ :=
    readLineCalls_ordered rd fd hwf f calls w (LineReader.new fd buf) hnew rfl
  refine ⟨hnew, recs, hrecs, hlen, ?_, hall⟩
  rw [← readLineCalls_erase, hrecs]
  rfl

/-- Witness of C21: a buffer of four bytes on the stream `"ab\ncdefgh"`; three
calls return `"ab\n"`, `"cdef"` and `"gh"`. -/
theorem readLine_keeps_cursors_ordered_witness :
    ((LineReader.new 3 (List.replicate 4 0)).Ordered
      ∧ ∃ recs, readLineCalls streamReadFull (0 + 2) 3 (bytes "ab\ncdefgh")
            (LineReader.new 3 (List.replicate 4 0)) = some recs
          ∧ recs.length = 3
          ∧ readLines streamReadFull (0 + 2) 3 (bytes "ab\ncdefgh")
              (LineReader.new 3 (List.replicate 4 0))
              = some (recs.map (fun r => (r.state, r.line)))
          ∧ ∀ r ∈ recs, r.reader.Ordered ∧ r.reader.bufEnd_ = (List.replicate 4 (0 : UInt8)).length
              ∧ ∀ a ∈ r.accesses, a.InBounds (List.replicate 4 (0 : UInt8)).length)
    ∧ (readLineCalls streamReadFull 2 3 (bytes "ab\ncdefgh")
          (LineReader.new 3 (List.replicate 4 0))).map (List.map (fun r => r.line))
        = some [bytes "ab\n", bytes "cdef", bytes "gh"] :=
  ⟨readLine_keeps_cursors_ordered streamReadFull 3 (List.replicate 4 0) (bytes "ab\ncdefgh") 3 0
      (fun w c => streamReadFull_wellFormed 3 w c),
   by decide⟩

/-- C24: a `readLine` call on a reader with ordered cursors, for a `readFull`
within its contract, returns within two passes of its loop, whatever the
buffer size, the stream and the state: it searches at most twice and calls
`readFull` at most once, and a `readFull` it calls is asked for at least one
byte and at most `bufSize` (so none is called with a buffer of size 0).
The call is that of `readLine`. -/
theorem readLine_two_passes_one_read {σ : Type} (rd : σ → Int → Nat → ReadFullResult × σ)
    (w : σ) (lr : LineReader) (f : Nat) (hord : lr.Ordered)
    (hwf : ∀ c, ((rd w lr.fd_ c).1).WellFormed c) :
    ∃ st line w1 lr1 tr, lr.readLineTrace rd (f + 2) w = some (st, line, w1, lr1, tr)
      ∧ lr.readLine rd (f + 2) w = some (st, line, w1, lr1)
      ∧ (tr.filter Access.isSearch).length ≤ 2
      ∧ (tr.filter Access.isRead).length ≤ 1
      ∧ (∀ dst count, Access.readFull dst count ∈ tr →
          1 ≤ count ∧ count ≤ (lr.bufEnd_ : Int))
      ∧ (lr.bufEnd_ = 0 → ∀ a ∈ tr, a.isRead = false) := by
  obtain ⟨st, line, w1, lr1, tr, hrun, _, _, _, _, hs, hr, hc⟩ :=
    readLineTrace_step rd f w lr hord (hwf _)
  refine ⟨st, line, w1, lr1, tr, hrun, ?_, hs, hr, hc, ?_⟩
  · rw [← readLineTrace_erase, hrun]
    rfl
  · intro h0 a ha
    cases a with
    | memchr s n => rfl
    | memmove d s n => rfl
    | readFull dst count =>
      have := hc dst count ha
      unfold LineReader.bufEnd_ at h0
      omega

/-- Witness of C24: a fresh reader with a buffer of four bytes on the stream
`"abcdefgh"`: the call compacts, reads four bytes once, searches twice and
returns `"abcd"` within two passes. -/
theorem readLine_two_passes_one_read_witness :
    (∃ st line w1 lr1 tr,
      (LineReader.new 3 (List.replicate 4 0)).readLineTrace streamReadFull (0 + 2)
          (bytes "abcdefgh") = some (st, line, w1, lr1, tr)
      ∧ (LineReader.new 3 (List.replicate 4 0)).readLine streamReadFull (0 + 2)
          (bytes "abcdefgh") = some (st, line, w1, lr1)
      ∧ (tr.filter Access.isSearch).length ≤ 2
      ∧ (tr.filter Access.isRead).length ≤ 1
      ∧ (∀ dst count, Access.readFull dst count ∈ tr →
          1 ≤ count ∧ count ≤ ((LineReader.new 3 (List.replicate 4 0)).bufEnd_ : Int))
      ∧ ((LineReader.new 3 (List.replicate 4 0)).bufEnd_ = 0 → ∀ a ∈ tr, a.isRead = false))
    ∧ ((LineReader.new 3 (List.replicate 4 0)).readLineTrace streamReadFull 2
          (bytes "abcdefgh")).map (fun r => (r.1, r.2.1, r.2.2.2.2))
        = some (State.kReading, bytes "abcd",
            [Access.memchr 0 0, Access.memmove 0 0 0, Access.readFull 0 4,
             Access.memchr 0 4]) :=
  ⟨readLine_two_passes_one_read streamReadFull (bytes "abcdefgh")
      (LineReader.new 3 (List.replicate 4 0)) 0 (by decide)
      (fun c => streamReadFull_wellFormed _ _ c),
   by decide⟩

theorem splitLines_flatten : ∀ s : List UInt8, (splitLines s).flatten = s
  | [] => rfl
  | c :: cs => by
    have ih := splitLines_flatten cs
    by_cases hc : c = newlineChar
    · simp only [splitLines, if_pos hc, List.flatten_cons, ih, List.singleton_append]
    · simp only [splitLines, if_neg hc]
      cases h : splitLines cs with
      | nil =>
        rw [h] at ih
        simp only [List.flatten_nil] at ih
        simp [← ih]
      | cons l ls =>
        rw [h] at ih
        simp only [List.flatten_cons] at ih ⊢
        rw [List.cons_append, ih]

theorem splitLines_ne_nil : ∀ (s : List UInt8), ∀ p ∈ splitLines s, p ≠ []
  | [] => by intro p hp; simp [splitLines] at hp
  | c :: cs => by
    have ih := splitLines_ne_nil cs
    intro p hp
    by_cases hc : c = newlineChar
    · simp only [splitLines, if_pos hc, List.mem_cons] at hp
      rcases hp with hp | hp
      · rw [hp]; simp
      · exact ih p hp
    · simp only [splitLines, if_neg hc] at hp
      cases h : splitLines cs with
      | nil =>
        rw [h] at hp
        simp only [List.mem_singleton] at hp
        rw [hp]; simp
      | cons l ls =>
        rw [h] at hp ih
        simp only [List.mem_cons] at hp
        rcases hp with hp | hp
        · rw [hp]; simp
        · exact ih p (List.mem_cons_of_mem _ hp)

/-- One `readLine` call on a reader whose stream state is terminal: it returns
in one pass without reading, whatever `readFull` would do; the line is what
is left in the buffer up to its first newline, the status is `kReading` for
a non-empty line and the stream state otherwise. -/
theorem readLineTrace_ended {σ : Type} (rd : σ → Int → Nat → ReadFullResult × σ)
    (fuel : Nat) (w : σ) (lr : LineReader) (P : List UInt8) (hP : Pending lr P)
    (hst : lr.state_ ≠ State.kReading) :
    ∃ lr1, lr.readLineTrace rd (fuel + 1) w
        = some (if P = [] then lr.state_ else State.kReading,
            P.take (P.indexOf newlineChar + 1), w, lr1,
            [Access.memchr lr.eol_ ((lr.end_ : Int) - (lr.eol_ : Int))])
      ∧ lr1.state_ = lr.state_ ∧ lr1.mem = lr.mem ∧ lr1.end_ = lr.end_ ∧ lr1.fd_ = lr.fd_
      ∧ Pending lr1 (P.drop (P.indexOf newlineChar + 1)) := by
  have hl := hP.length_le
  obtain ⟨A, B, hm, he, hE⟩ := hP
  have hH0 : Held { lr with bol_ := lr.eol_ } [] P :=
    ⟨A, B, by simp [hm], he, by simp [he], by simp [hE]⟩
  obtain ⟨lr1, hloop, hmem, hbol, hstate, hfd, hline, heol, hpend⟩ :=
    readLineLoop_last rd fuel w { lr with bol_ := lr.eol_ } [] P hH0 (List.not_mem_nil _)
      (Or.inr (Or.inl hst))
  simp only [List.nil_append] at hline heol hpend
  obtain ⟨e, htr, _, he2, _⟩ := readLineLoopTrace_exit rd fuel w { lr with bol_ := lr.eol_ } []
    hl.1 (Or.inr (Or.inl hst))
  have herase := readLineLoopTrace_erase rd (fuel + 1) w { lr with bol_ := lr.eol_ } []
  rw [htr, hloop] at herase
  simp only [Option.map_some', Option.some.injEq, Prod.mk.injEq, true_and] at herase
  subst herase
  simp only at hline heol hpend
  have hstatus : (if e ≠ lr.eol_ then State.kReading else lr.state_)
      = (if P = [] then lr.state_ else State.kReading) := by
    by_cases hnil : P = []
    · subst hnil
      simp only [List.take_nil, List.length_nil, Nat.add_zero] at heol
      simp [heol]
    · have hne : P.take (P.indexOf newlineChar + 1) ≠ [] := fun h =>
        hnil (take_indexOf_eq_nil h)
      have hpos : 0 < (P.take (P.indexOf newlineChar + 1)).length := List.length_pos.2 hne
      have : e ≠ lr.eol_ := by omega
      simp [this, hnil]
  refine ⟨{ lr with bol_ := lr.eol_, eol_ := e }, ?_, rfl, rfl, rfl, rfl, hpend⟩
  unfold LineReader.readLineTrace
  rw [htr]
  simp only [List.nil_append]
  rw [hline, hstatus]

/-- Any number of successive calls on a reader whose stream state is terminal:
they return the lines left in the buffer, each with `kReading`, and then
only empty lines with the stream state, which no call changes; no call
reads. -/
theorem readLineCalls_ended {σ : Type} (rd : σ → Int → Nat → ReadFullResult × σ)
    (fuel : Nat) :
    ∀ (calls : Nat) (w : σ) (lr : LineReader) (P : List UInt8), Pending lr P →
      lr.state_ ≠ State.kReading →
      ∃ recs, readLineCalls rd (fuel + 1) calls w lr = some recs
        ∧ recs.map (fun r => (r.state, r.line))
            = expectedAfterEnd lr.state_ (splitLines P) calls
        ∧ ∀ r ∈ recs, r.reader.state_ = lr.state_ ∧ ∀ a ∈ r.accesses, a.isRead = false := by
  intro calls
  induction calls with
  | zero =>
    intro w lr P _ _
    refine ⟨[], rfl, ?_, by simp⟩
    cases splitLines P <;> rfl
  | succ calls ih =>
    intro w lr P hP hst
    obtain ⟨lr1, hrun, hstate, _, _, _, hpend⟩ := readLineTrace_ended rd fuel w lr P hP hst
    obtain ⟨recs, hrecs, hmap, hall⟩ := ih w lr1 _ hpend (by rw [hstate]; exact hst)
    refine ⟨CallRecord.mk (if P = [] then lr.state_ else State.kReading)
        (P.take (P.indexOf newlineChar + 1)) lr1
        [Access.memchr lr.eol_ ((lr.end_ : Int) - (lr.eol_ : Int))] :: recs,
      by simp only [readLineCalls, hrun, hrecs, Option.map_some'], ?_, ?_⟩
    · simp only [List.map_cons, hmap, hstate]
      by_cases hnil : P = []
      · subst hnil
        simp [splitLines, expectedAfterEnd]
      · rw [splitLines_eq P hnil]
        simp [expectedAfterEnd, hnil]
    · intro r hr
      rcases List.mem_cons.mp hr with hr | hr
      · subst hr
        refine ⟨hstate, ?_⟩
        intro a ha
        simp only [List.mem_singleton] at ha
        subst ha
        rfl
      · obtain ⟨h1, h2⟩ := hall r hr
        exact ⟨by rw [h1, hstate], h2⟩

/-- C22: on a reader with ordered cursors whose stream state is `kEof` or
`kError`, whatever `readFull` would do: every later `readLine` call returns,
none calls `readFull`, and the stream state is the same after each. The
calls return the bytes still in the buffer cut after each newline, one line
a call and each with `kReading`, none of them empty and together all the
bytes, and after them only empty lines with the terminal state: from the
first empty line on, every call returns an empty line with that status.
The calls are those of `readLines`. -/
theorem readLine_after_end_of_stream {σ : Type} (rd : σ → Int → Nat → ReadFullResult × σ)
    (fuel calls : Nat) (w : σ) (lr : LineReader) (hord : lr.Ordered)
    (hst : lr.state_ ≠ State.kReading) :
    ∃ recs, readLineCalls rd (fuel + 1) calls w lr = some recs
      ∧ readLines rd (fuel + 1) calls w lr
          = some (expectedAfterEnd lr.state_ (splitLines lr.unprocessed) calls)
      ∧ recs.map (fun r => (r.state, r.line))
          = expectedAfterEnd lr.state_ (splitLines lr.unprocessed) calls
      ∧ (∀ r ∈ recs, r.reader.state_ = lr.state_ ∧ ∀ a ∈ r.accesses, a.isRead = false)
      ∧ (splitLines lr.unprocessed).flatten = lr.unprocessed
      ∧ (∀ p ∈ splitLines lr.unprocessed, p ≠ []) := by
  obtain ⟨_, _, h1, h2⟩ := hord
  obtain ⟨recs, hrecs, hmap, hall⟩ := readLineCalls_ended rd fuel calls w lr lr.unprocessed
    (pending_of_ordered lr h1 h2) hst
  refine ⟨recs, hrecs, ?_, hmap, hall, splitLines_flatten _, splitLines_ne_nil _⟩
  rw [← readLineCalls_erase, hrecs, ← hmap]
  rfl

/-- Witness of C22: at the end of its stream with `"ab\ncd"` left in the buffer,
the reader returns `"ab\n"` and `"cd"` with `kReading` and then empty lines
with `kEof`, without a call of `readFull`. -/
theorem readLine_after_end_of_stream_witness :
    (∃ recs, readLineCalls neverRead (0 + 1) 4 0 endedReader = some recs
      ∧ readLines neverRead (0 + 1) 4 0 endedReader
          = some (expectedAfterEnd endedReader.state_ (splitLines endedReader.unprocessed) 4)
      ∧ recs.map (fun r => (r.state, r.line))
          = expectedAfterEnd endedReader.state_ (splitLines endedReader.unprocessed) 4
      ∧ (∀ r ∈ recs, r.reader.state_ = endedReader.state_
          ∧ ∀ a ∈ r.accesses, a.isRead = false)
      ∧ (splitLines endedReader.unprocessed).flatten = endedReader.unprocessed
      ∧ (∀ p ∈ splitLines endedReader.unprocessed, p ≠ []))
    ∧ readLines neverRead 1 4 0 endedReader
        = some [(State.kReading, bytes "ab\n"), (State.kReading, bytes "cd"),
                (State.kEof, []), (State.kEof, [])] :=
  ⟨readLine_after_end_of_stream neverRead 0 4 0 endedReader (by decide) (by decide),
   by decide⟩


/-! ## The path buffer of `writeFileAtomicNoThrow` -/

/-- C23 (evaluation of the code): `std::string suffix(".XXXXXX\0")` is built
from a pointer alone, so it holds the seven characters `.XXXXXX` and not
the NUL written after them. For the file name `"f"` the vector `pathBuffer`
is the ten bytes `f`, NUL, `f.XXXXXX`: the file name is terminated, but
from `tempPath` to the end of the vector there is no NUL, and the C string
`mkstemp` is handed runs on into the memory behind the vector (here
`"junk"`). It is so for every file name: the vector has `2 n + 8` bytes and
its last seven are `.XXXXXX`. -/
theorem pathBuffer_template_not_terminated :
    tempSuffix = bytes ".XXXXXX"
    ∧ pathBuffer (bytes "f") = bytes "f" ++ [0] ++ bytes "f.XXXXXX"
    ∧ (pathBuffer (bytes "f")).length = 10
    ∧ filenameCStr (bytes "f") (bytes "junk" ++ [0]) = bytes "f"
    ∧ (0 : UInt8) ∉ (pathBuffer (bytes "f")).drop ((bytes "f").length + 1)
    ∧ tempTemplate (bytes "f") (bytes "junk" ++ [0]) = bytes "f.XXXXXXjunk"
    ∧ (∀ filename : List UInt8,
        (pathBuffer filename).length = 2 * filename.length + 8
        ∧ (pathBuffer filename).drop (2 * filename.length + 1) = bytes ".XXXXXX"
        ∧ (0 : UInt8) ∉ (pathBuffer filename).drop (2 * filename.length + 1)) := by
  refine ⟨by decide, by decide, by decide, by decide, by decide, by decide, ?_⟩
  intro filename
  have h7 : (bytes ".XXXXXX").length = 7 := by decide
  have hd : (pathBuffer filename).drop (2 * filename.length + 1) = bytes ".XXXXXX" := by
    rw [pathBuffer_eq]
    have : filename ++ 0 :: (filename ++ bytes ".XXXXXX")
        = (filename ++ [0] ++ filename) ++ bytes ".XXXXXX" := by simp
    rw [this, List.drop_left' (by simp; omega)]
  refine ⟨?_, hd, ?_⟩
  · rw [pathBuffer_eq]
    simp only [List.length_append, List.length_cons, h7]
    omega
  · rw [hd]
    decide


end sysio
